import Mathlib

/-!
# Hierarchical page table: translation core of `VirtualMemory.cpp`

A shallow embedding of `src/VirtualMemory.cpp`.

* `uint64_t` values are natural numbers reduced modulo `2 ^ 64` (`u64`),
  `unsigned int` values are natural numbers reduced modulo `2 ^ 32` (`u32`).
* `word_t` (declared in the absent `VirtualMemory.h`) is a signed machine word and
  is embedded as `Int`; a word converted to `uint64_t` wraps modulo `2 ^ 64`
  (`wordToU64`).
* The arguments passed by pointer to `treeDFS` are gathered in the record `Survey`,
  which is threaded through the traversal.
* Physical memory and the backing store are explicit state (`Machine`).
-/

namespace HPageTable

/-! ## Geometry -/

/-- Modelled from the spec: the geometry constants of the absent header
`MemoryConstants.h`, taken as parameters. -/
structure Geometry where
  OFFSET_WIDTH : Nat
  TABLES_DEPTH : Nat
  NUM_FRAMES : Nat
  WEIGHT_EVEN : Nat
  WEIGHT_ODD : Nat
  deriving DecidableEq

/-- Modelled from the spec: `PAGE_SIZE` is `2^OFFSET_WIDTH` (absent header). -/
def Geometry.PAGE_SIZE (g : Geometry) : Nat := 2 ^ g.OFFSET_WIDTH

/-- Modelled from the spec: `VIRTUAL_ADDRESS_WIDTH` is
`OFFSET_WIDTH * (TABLES_DEPTH + 1)` (absent header). -/
def Geometry.VIRTUAL_ADDRESS_WIDTH (g : Geometry) : Nat :=
  g.OFFSET_WIDTH * (g.TABLES_DEPTH + 1)

/-- Modelled from the spec: `VIRTUAL_MEMORY_SIZE` is `2^VIRTUAL_ADDRESS_WIDTH`
(absent header). -/
def Geometry.VIRTUAL_MEMORY_SIZE (g : Geometry) : Nat := 2 ^ g.VIRTUAL_ADDRESS_WIDTH

/-! ## Machine integers -/

/-- Reduction of a natural number to a `uint64_t`. -/
def u64 (n : Nat) : Nat := n % 2 ^ 64

/-- Reduction of a natural number to an `unsigned int`. -/
def u32 (n : Nat) : Nat := n % 2 ^ 32

/-- Conversion of a `word_t` to `uint64_t`. -/
def wordToU64 (w : Int) : Nat := (w % 2 ^ 64).toNat

/-! ## Physical memory driver -/

/-- Physical memory (`ram`, one word per physical word address) together with the
backing store (`swap`, the words of a page by offset, keyed by page number). -/
structure Machine where
  ram : Nat → Int
  swap : Nat → Option (Nat → Int)

/-- Modelled from the spec: `pmRead` of the absent driver `PhysicalMemory.cpp`,
reads one word from physical memory. -/
def PMread (m : Machine) (addr : Nat) : Int := m.ram addr

/-- Modelled from the spec: `pmWrite` of the absent driver, writes one word to
physical memory. -/
def PMwrite (m : Machine) (addr : Nat) (w : Int) : Machine :=
  { m with ram := fun a => if a = addr then w else m.ram a }

/-- Modelled from the spec: `pmEvict` of the absent driver, persists the
`PAGE_SIZE` words of frame `frameIndex` to the backing store under key
`virtualPage`. -/
def PMevict (g : Geometry) (m : Machine) (frameIndex virtualPage : Nat) : Machine :=
  { m with swap := fun k =>
      if k = virtualPage then some (fun off => m.ram (frameIndex * g.PAGE_SIZE + off))
      else m.swap k }

/-- The words recorded in the backing store for a page: zero if never evicted. -/
def swapWord (m : Machine) (virtualPage off : Nat) : Int :=
  match m.swap virtualPage with
  | some w => w off
  | none => 0

/-- Modelled from the spec: `pmRestore` of the absent driver, overwrites frame
`frameIndex` with the backing-store contents for key `virtualPage`, or zero if
that page was never evicted. -/
def PMrestore (g : Geometry) (m : Machine) (frameIndex virtualPage : Nat) : Machine :=
  { m with ram := fun a =>
      if frameIndex * g.PAGE_SIZE ≤ a ∧ a < frameIndex * g.PAGE_SIZE + g.PAGE_SIZE then
        swapWord m virtualPage (a - frameIndex * g.PAGE_SIZE)
      else m.ram a }

/-! ## Helpers of `VirtualMemory.cpp` -/

/-- Source `clearTable`: writes `0` into each of the `PAGE_SIZE` entries of the
frame. -/
def clearTable (g : Geometry) (m : Machine) (frameIndex : Nat) : Machine :=
  (List.range g.PAGE_SIZE).foldl
    (fun m (i : Nat) => PMwrite m (u64 (frameIndex * g.PAGE_SIZE + i)) 0) m

/-- Source `VMinitialize`: clears frame 0. -/
def VMinitialize (g : Geometry) (m : Machine) : Machine := clearTable g m 0

/-- Source `newBlankFrame`: writes the pointer `frameIndex` at `ptrIndex`, then
zeroes every word of the frame. -/
def newBlankFrame (g : Geometry) (m : Machine) (frameIndex : Int) (ptrIndex : Nat) :
    Machine :=
  (List.range g.PAGE_SIZE).foldl
    (fun m (i : Nat) => PMwrite m (wordToU64 (frameIndex * 2 ^ g.OFFSET_WIDTH + (i : Int))) 0)
    (PMwrite m ptrIndex frameIndex)

/-- Source `deleteFrame`: reads the pointer, zeroes it, evicts the frame it named
under `virtualAddr`, and returns the frame. -/
def deleteFrame (g : Geometry) (m : Machine) (toDeletePtr virtualAddr : Nat) :
    Int × Machine :=
  let toDelete := PMread m toDeletePtr
  let m1 := PMwrite m toDeletePtr 0
  let m2 := PMevict g m1 (wordToU64 toDelete) virtualAddr
  (toDelete, m2)

/-! ## The surveyor `treeDFS` -/

/-- The out-parameters of `treeDFS`. -/
structure Survey where
  maxUsedFrame : Int
  lastEmptyTable : Nat
  toReplace : Nat
  highestScore : Nat
  virtualAddrRep : Nat
  emptyTablePtr : Nat
  deriving DecidableEq

def PATH_TO_REPLACE : Nat := 1

def EMPTY_TABLE : Nat := 2

/-- The variables of the `for` loop of `treeDFS` that change between iterations. -/
structure ScanState where
  sv : Survey
  isEmpty : Bool
  curVirtualAddr : Nat
  deriving DecidableEq

/-- The per-node weight `(x & 1U) ? WEIGHT_ODD : WEIGHT_EVEN`. -/
def weight (g : Geometry) (x : Nat) : Nat :=
  if x &&& 1 ≠ 0 then g.WEIGHT_ODD else g.WEIGHT_EVEN

/-- One iteration of the `for` loop of `treeDFS` (source lines 82-102); `child` is
the recursive call one level deeper. -/
def scanEntry (g : Geometry) (ram : Nat → Int)
    (child : Nat → Nat → Nat → Survey → Survey × Nat)
    (curFrameIndex curScore score : Nat) (st : ScanState) (i : Nat) : ScanState :=
  let candFrameIndex := ram (u64 (curFrameIndex * g.PAGE_SIZE + i))
  if candFrameIndex ≠ 0 then
    let sv1 : Survey :=
      if candFrameIndex > st.sv.maxUsedFrame then
        { st.sv with maxUsedFrame := candFrameIndex }
      else st.sv
    let r := child (wordToU64 candFrameIndex) (u32 (curScore + score))
      (u64 (st.curVirtualAddr <<< g.OFFSET_WIDTH)) sv1
    let sv2 : Survey :=
      if r.2 = PATH_TO_REPLACE then
        { r.1 with virtualAddrRep := st.curVirtualAddr,
                   toReplace := u64 (curFrameIndex * g.PAGE_SIZE + i) }
      else r.1
    let sv3 : Survey :=
      if r.2 = EMPTY_TABLE then
        { sv2 with emptyTablePtr := u64 (curFrameIndex * g.PAGE_SIZE + i) }
      else sv2
    ⟨sv3, false, u64 (st.curVirtualAddr + 1)⟩
  else
    ⟨st.sv, st.isEmpty, u64 (st.curVirtualAddr + 1)⟩

/-- Source `treeDFS`. The argument `levels` is `TABLES_DEPTH - depth`, so the test
`depth == TABLES_DEPTH` reads `levels = 0` and the recursive call at `depth + 1`
is the call at `levels - 1`. Returns the updated out-parameters and the `int`
result. -/
def treeDFS (g : Geometry) (ram : Nat → Int) (toAvoid : Nat) :
    (levels : Nat) → (curFrameIndex curScore curVirtualAddr : Nat) → Survey → Survey × Nat
  | 0, curFrameIndex, curScore, curVirtualAddr, sv =>
      let score := u32 (weight g curFrameIndex + weight g (curVirtualAddr >>> g.OFFSET_WIDTH))
      if u32 (curScore + score) > sv.highestScore ∨
          (u32 (curScore + score) = sv.highestScore ∧
            curVirtualAddr >>> g.OFFSET_WIDTH < sv.virtualAddrRep) then
        ({ sv with highestScore := u32 (curScore + score) }, PATH_TO_REPLACE)
      else (sv, 0)
  | levels + 1, curFrameIndex, curScore, curVirtualAddr, sv =>
      let score := weight g curFrameIndex
      let st := (List.range g.PAGE_SIZE).foldl
        (scanEntry g ram (treeDFS g ram toAvoid levels) curFrameIndex curScore score)
        ⟨sv, true, curVirtualAddr⟩
      if st.isEmpty = true ∧ curFrameIndex ≠ toAvoid then
        ({ st.sv with lastEmptyTable := curFrameIndex }, EMPTY_TABLE)
      else (st.sv, 0)

/-! ## The walker `treeLogic` -/

/-- The variables of the `for` loop of `treeLogic` that are live between
iterations. -/
structure WalkState where
  m : Machine
  pageAddr : Nat
  maxFrameIndex : Int
  newTable : Nat
  mask : Nat

/-- The out-parameters handed to `treeDFS` by `treeLogic` (source lines 128-129
and 135): everything zero except the running maximum and `curVirtualAddr = -1`. -/
def surveyInit (maxFrameIndex : Int) : Survey :=
  ⟨maxFrameIndex, 0, 0, 0, 2 ^ 64 - 1, 0⟩

/-- The survey run on a miss (source lines 135-136). -/
def surveyOf (g : Geometry) (st : WalkState) : Survey :=
  (treeDFS g st.m.ram st.newTable g.TABLES_DEPTH 0 0 0 (surveyInit st.maxFrameIndex)).1

/-- The entry address read at level `i` (source line 130). -/
def indexPtrOf (g : Geometry) (virtualAddress : Nat) (st : WalkState) (i : Nat) : Nat :=
  u64 (st.pageAddr + ((virtualAddress &&& st.mask) >>> ((g.TABLES_DEPTH - i) * g.OFFSET_WIDTH)))

/-- The choice among the three branches on a miss (source lines 137-149): the frame
to link and the machine after detaching it. The cast `(word_t) emptyTable` of a frame
index is the index itself. -/
def chooseFrame (g : Geometry) (m : Machine) (sv : Survey) : Int × Machine :=
  if sv.maxUsedFrame + 1 < (g.NUM_FRAMES : Int) then
    (sv.maxUsedFrame + 1, m)
  else if sv.lastEmptyTable > 0 then
    ((sv.lastEmptyTable : Int), PMwrite m sv.emptyTablePtr 0)
  else
    deleteFrame g m sv.toReplace sv.virtualAddrRep

/-- One iteration of the `for` loop of `treeLogic` (source lines 128-157). -/
def treeLogicLevel (g : Geometry) (virtualAddress : Nat) (st : WalkState) (i : Nat) :
    WalkState :=
  let indexPtr := indexPtrOf g virtualAddress st i
  let mask := st.mask >>> g.OFFSET_WIDTH
  let nextAddr := PMread st.m indexPtr
  if nextAddr = 0 then
    let sv := surveyOf g st
    let c := chooseFrame g st.m sv
    let m2 := newBlankFrame g c.2 c.1 indexPtr
    let m3 :=
      if i + 1 = g.TABLES_DEPTH then
        PMrestore g m2 (wordToU64 c.1) (virtualAddress >>> g.OFFSET_WIDTH)
      else m2
    ⟨m3, wordToU64 (c.1 * g.PAGE_SIZE), sv.maxUsedFrame, wordToU64 c.1, mask⟩
  else
    ⟨st.m, wordToU64 (nextAddr * g.PAGE_SIZE), st.maxFrameIndex, wordToU64 nextAddr, mask⟩

/-- The state of `treeLogic` before the loop (source lines 119-125). -/
def walkInit (g : Geometry) (m : Machine) : WalkState :=
  ⟨m, 0, 0, 0, u64 (((1 <<< g.OFFSET_WIDTH) - 1) <<< (g.OFFSET_WIDTH * g.TABLES_DEPTH))⟩

/-- The state of `treeLogic` after the first `n` iterations of its loop. -/
def walkLevels (g : Geometry) (virtualAddress : Nat) (m : Machine) (n : Nat) : WalkState :=
  (List.range n).foldl (treeLogicLevel g virtualAddress) (walkInit g m)

/-- Source `treeLogic`: the machine after the walk and the physical address written
to `*targetAddr`. -/
def treeLogic (g : Geometry) (m : Machine) (virtualAddress : Nat) : Machine × Nat :=
  let st := walkLevels g virtualAddress m g.TABLES_DEPTH
  (st.m, u64 (st.pageAddr + (virtualAddress &&& st.mask)))

/-! ## Client API -/

/-- Source `VMread`: the `int` result, the content of `*value` afterwards (its
previous content is `value`), and the machine afterwards. -/
def VMread (g : Geometry) (m : Machine) (virtualAddress : Nat) (value : Int) :
    Nat × Int × Machine :=
  if virtualAddress ≥ g.VIRTUAL_MEMORY_SIZE then (0, value, m)
  else
    let r := treeLogic g m virtualAddress
    (1, PMread r.1 r.2, r.1)

/-- Source `VMwrite`: the `int` result and the machine afterwards. -/
def VMwrite (g : Geometry) (m : Machine) (virtualAddress : Nat) (value : Int) :
    Nat × Machine :=
  if virtualAddress ≥ g.VIRTUAL_MEMORY_SIZE then (0, m)
  else
    let r := treeLogic g m virtualAddress
    (1, PMwrite r.1 r.2 value)

end HPageTable

namespace HPageTable

/-! ## The page-table tree read off physical memory -/

/-- The geometry fits the machine types: the frames suffice for one translation,
virtual addresses fit in a `uint64_t`, and so do physical word addresses. -/
structure Geometry.Valid (g : Geometry) : Prop where
  frames : g.TABLES_DEPTH + 1 ≤ g.NUM_FRAMES
  width : g.VIRTUAL_ADDRESS_WIDTH ≤ 64
  phys : g.NUM_FRAMES * g.PAGE_SIZE ≤ 2 ^ 64

/-- The frame named by entry `i` of the table in frame `t`, read as the code reads it
(`PMread(t * PAGE_SIZE + i)`); `none` when the entry is `0`. -/
def child (g : Geometry) (ram : Nat → Int) (t i : Nat) : Option Nat :=
  if ram (u64 (t * g.PAGE_SIZE + i)) = 0 then none
  else some (wordToU64 (ram (u64 (t * g.PAGE_SIZE + i))))

/-- Follows the entries with indices `p` from an optional starting frame; `none` as
soon as an entry is `0`. -/
def walkFrom (g : Geometry) (ram : Nat → Int) (o : Option Nat) (p : List Nat) : Option Nat :=
  p.foldl (fun o i => o.bind fun t => child g ram t i) o

/-- Follows the entries with indices `p` from the root frame 0. -/
def walk (g : Geometry) (ram : Nat → Int) (p : List Nat) : Option Nat :=
  walkFrom g ram (some 0) p

/-- The table index of virtual address `V` used at level `i`: the `OFFSET_WIDTH`-bit
field at bit `OFFSET_WIDTH * (TABLES_DEPTH - i)`. -/
def slice (g : Geometry) (V i : Nat) : Nat :=
  (V >>> (g.OFFSET_WIDTH * (g.TABLES_DEPTH - i))) % g.PAGE_SIZE

/-- The first `n` table indices of `V`, most significant first. -/
def slicesUpTo (g : Geometry) (V n : Nat) : List Nat := (List.range n).map (slice g V)

/-- The `TABLES_DEPTH` table indices of `V`, most significant first. -/
def slices (g : Geometry) (V : Nat) : List Nat := slicesUpTo g V g.TABLES_DEPTH

/-- The number whose base-`PAGE_SIZE` digits are `p`: for a path of `TABLES_DEPTH`
indices, the virtual page number of the leaf it leads to. -/
def pageNum (g : Geometry) (p : List Nat) : Nat := p.foldl (fun a i => a * g.PAGE_SIZE + i) 0

/-- A path of entry indices inside the page-table tree. -/
def ValidPath (g : Geometry) (p : List Nat) : Prop :=
  p.length ≤ g.TABLES_DEPTH ∧ ∀ i ∈ p, i < g.PAGE_SIZE

/-- Frame `f` is named by a non-zero entry of the live tree. -/
def Referenced (g : Geometry) (ram : Nat → Int) (f : Nat) : Prop :=
  ∃ p, ValidPath g p ∧ p ≠ [] ∧ walk g ram p = some f

/-- Entry `i` of frame `t` is a page-table entry of the live tree: `t` is reached from
the root at some depth below `TABLES_DEPTH`. -/
def LiveEntry (g : Geometry) (ram : Nat → Int) (t i : Nat) : Prop :=
  ∃ p, ValidPath g p ∧ p.length < g.TABLES_DEPTH ∧ walk g ram p = some t ∧ i < g.PAGE_SIZE

/-- Every entry of the frame is `0`. -/
def TableEmpty (g : Geometry) (ram : Nat → Int) (f : Nat) : Prop :=
  ∀ i, i < g.PAGE_SIZE → ram (u64 (f * g.PAGE_SIZE + i)) = 0

instance (g : Geometry) (ram : Nat → Int) (f : Nat) : Decidable (TableEmpty g ram f) := by
  unfold TableEmpty; exact Nat.decidableBallLT _ _

/-- The shape of the page-table tree: entries in range, and no frame reached twice. -/
structure PreTree (g : Geometry) (ram : Nat → Int) : Prop where
  /-- live entries hold frame indices below `NUM_FRAMES` -/
  range : ∀ t i, LiveEntry g ram t i →
    ∃ c : Nat, ram (t * g.PAGE_SIZE + i) = (c : Int) ∧ c < g.NUM_FRAMES
  /-- a frame is reached by at most one path -/
  inj : ∀ p q f, ValidPath g p → ValidPath g q → walk g ram p = some f →
    walk g ram q = some f → p = q

/-- Well-formedness of the page-table tree: its shape, and the referenced frames are
downward closed. -/
structure TreeInv (g : Geometry) (ram : Nat → Int) extends PreTree g ram : Prop where
  closed : ∀ f f', Referenced g ram f → 1 ≤ f' → f' ≤ f → Referenced g ram f'

/-- The word at offset `off` of the page with index path `p`, as the machine stores it:
in the frame the chain leads to when the page is resident, else in the backing
store. -/
def pageWord (g : Geometry) (m : Machine) (p : List Nat) (off : Nat) : Int :=
  match walk g m.ram p with
  | some f => m.ram (f * g.PAGE_SIZE + off)
  | none => swapWord m (pageNum g p) off

/-- The contents of virtual memory `A` (a word per virtual address) are stored in the
machine. -/
def DataInv (g : Geometry) (m : Machine) (A : Nat → Int) : Prop :=
  ∀ p, ValidPath g p → p.length = g.TABLES_DEPTH → ∀ off, off < g.PAGE_SIZE →
    pageWord g m p off = A (pageNum g p * g.PAGE_SIZE + off)

/-- The machine stores the virtual memory contents `A` in a well-formed tree. -/
structure AbsInv (g : Geometry) (m : Machine) (A : Nat → Int) : Prop where
  tree : TreeInv g m.ram
  data : DataInv g m A

/-! ## Reachable machine states -/

/-- The machine states reachable from `VMinitialize` (on any physical memory, with an
empty backing store) by `VMread` and `VMwrite` calls. -/
inductive Reachable (g : Geometry) : Machine → Prop
  | init (ram : Nat → Int) : Reachable g ( VMinitialize g ⟨ram, fun _ => none⟩)
  | read {m : Machine} (v : Nat) (value : Int) :
      Reachable g m → Reachable g (VMread g m v value).2.2
  | write {m : Machine} (v : Nat) (value : Int) :
      Reachable g m → Reachable g (VMwrite g m v value).2

/-! ## The traversal of `treeDFS` as a list of visits -/

/-- What `treeDFS` does to its out-parameters, in the order it does it. -/
inductive Visit
  /-- a non-zero entry `cand` is read (source lines 83-89) -/
  | ref (cand : Int)
  /-- the call at depth `TABLES_DEPTH` on frame `frame`, named by the entry at `ptr`,
  with the `curScore` it receives and the accumulator `parentVirtualAddr` of its
  caller (source lines 64-76 and 92-96) -/
  | leaf (ptr frame curScore parentVirtualAddr : Nat)
  /-- the call on an empty table `frame` other than `toAvoid`, named by the entry at
  `ptr` (source lines 104-108 and 97-100) -/
  | empty (ptr frame : Nat)
  deriving DecidableEq

/-- The page number the call on a data page compares with `*virtualAddrRep`: its own
accumulator `curVirtualAddr = pva << OFFSET_WIDTH`, shifted back (source lines 68-70). -/
def leafVpn (g : Geometry) (pva : Nat) : Nat :=
  u64 (pva <<< g.OFFSET_WIDTH) >>> g.OFFSET_WIDTH

/-- The score `curScore + score` the call on a data page compares with `*highestScore`
(source lines 64-69). -/
def leafTotal (g : Geometry) (frame curScore pva : Nat) : Nat :=
  u32 (curScore + u32 (weight g frame + weight g (leafVpn g pva)))

/-- The effect of one visit on the out-parameters. -/
def applyVisit (g : Geometry) (sv : Survey) : Visit → Survey
  | Visit.ref cand => if cand > sv.maxUsedFrame then { sv with maxUsedFrame := cand } else sv
  | Visit.leaf ptr frame curScore pva =>
      if leafTotal g frame curScore pva > sv.highestScore ∨
          (leafTotal g frame curScore pva = sv.highestScore ∧
            leafVpn g pva < sv.virtualAddrRep) then
        { sv with highestScore := leafTotal g frame curScore pva, virtualAddrRep := pva,
                  toReplace := ptr }
      else sv
  | Visit.empty ptr frame => { sv with lastEmptyTable := frame, emptyTablePtr := ptr }

/-- The visits caused by entry `i` of table `curFrameIndex`; `below` lists the visits
of the recursive call, `leafLevel` tells whether the entry names a data page. -/
def entryVisits (g : Geometry) (ram : Nat → Int) (toAvoid : Nat)
    (below : Nat → Nat → Nat → List Visit) (leafLevel : Bool)
    (curFrameIndex curScore curVirtualAddr i : Nat) : List Visit :=
  let ptr := u64 (curFrameIndex * g.PAGE_SIZE + i)
  let cand := ram ptr
  if cand = 0 then []
  else
    let f := wordToU64 cand
    let sc := u32 (curScore + weight g curFrameIndex)
    Visit.ref cand ::
      (if leafLevel then [Visit.leaf ptr f sc curVirtualAddr]
       else below f sc (u64 (curVirtualAddr <<< g.OFFSET_WIDTH)) ++
         (if TableEmpty g ram f ∧ f ≠ toAvoid then [Visit.empty ptr f] else []))

/-- The visits caused by the entries with the listed indices, the accumulator being
`curVirtualAddr` at the first of them. -/
def scanVisits (g : Geometry) (ram : Nat → Int) (toAvoid : Nat)
    (below : Nat → Nat → Nat → List Visit) (leafLevel : Bool)
    (curFrameIndex curScore : Nat) : (curVirtualAddr : Nat) → List Nat → List Visit
  | _, [] => []
  | cva, i :: is =>
      entryVisits g ram toAvoid below leafLevel curFrameIndex curScore cva i ++
        scanVisits g ram toAvoid below leafLevel curFrameIndex curScore (u64 (cva + 1)) is

/-- The visits of `treeDFS` called with `levels = TABLES_DEPTH - depth` on a table. -/
def visits (g : Geometry) (ram : Nat → Int) (toAvoid : Nat) :
    (levels : Nat) → (curFrameIndex curScore curVirtualAddr : Nat) → List Visit
  | 0, _, _, _ => []
  | levels + 1, curFrameIndex, curScore, curVirtualAddr =>
      scanVisits g ram toAvoid (visits g ram toAvoid levels) (decide (levels = 0))
        curFrameIndex curScore curVirtualAddr (List.range g.PAGE_SIZE)

/-- The arguments `curFrameIndex`, `curScore` and `curVirtualAddr` of a call of
`treeDFS`. -/
structure Node where
  frame : Nat
  score : Nat
  acc : Nat
  deriving DecidableEq

/-- The arguments of the recursive call `treeDFS` makes for entry `i` of a table
(source lines 90-91 and 102); `none` when the entry is `0`. -/
def descend (g : Geometry) (ram : Nat → Int) (nd : Node) (i : Nat) : Option Node :=
  (child g ram nd.frame i).map fun c =>
    ⟨c, u32 (nd.score + weight g nd.frame), u64 (u64 (nd.acc + i) <<< g.OFFSET_WIDTH)⟩

/-- The arguments of the call reached by following the entries `q` from a call. -/
def nodeFrom (g : Geometry) (ram : Nat → Int) (o : Option Node) (q : List Nat) : Option Node :=
  q.foldl (fun o i => o.bind fun nd => descend g ram nd i) o

/-- Visit `v` is caused by the non-zero entry `j` of the table of call `nd`, which has
`r` further table levels below it. -/
def VisitOf (g : Geometry) (ram : Nat → Int) (toAvoid r : Nat) (nd : Node) (j : Nat)
    (v : Visit) : Prop :=
  v = Visit.ref (ram (u64 (nd.frame * g.PAGE_SIZE + j))) ∨
  (r = 0 ∧ v = Visit.leaf (u64 (nd.frame * g.PAGE_SIZE + j))
      (wordToU64 (ram (u64 (nd.frame * g.PAGE_SIZE + j))))
      (u32 (nd.score + weight g nd.frame)) (u64 (nd.acc + j))) ∨
  (r ≠ 0 ∧ TableEmpty g ram (wordToU64 (ram (u64 (nd.frame * g.PAGE_SIZE + j)))) ∧
      wordToU64 (ram (u64 (nd.frame * g.PAGE_SIZE + j))) ≠ toAvoid ∧
      v = Visit.empty (u64 (nd.frame * g.PAGE_SIZE + j))
        (wordToU64 (ram (u64 (nd.frame * g.PAGE_SIZE + j)))))

/-- The victim outputs agree with those of the visited data page `leaf ptr f sc pv`. -/
def Chosen (g : Geometry) (sv : Survey) (l : List Visit) : Prop :=
  ∃ ptr f sc pv, Visit.leaf ptr f sc pv ∈ l ∧ sv.toReplace = ptr ∧ sv.virtualAddrRep = pv ∧
    sv.highestScore = leafTotal g f sc pv

/-- The root call of `treeLogic`. -/
def rootNode : Node := ⟨0, 0, 0⟩

/-- The out-parameters after the survey `treeLogic` runs on a miss. -/
def survey (g : Geometry) (ram : Nat → Int) (toAvoid : Nat) (maxFrameIndex : Int) : Survey :=
  (treeDFS g ram toAvoid g.TABLES_DEPTH 0 0 0 (surveyInit maxFrameIndex)).1

/-- The visits of the survey from the root. -/
def rootVisits (g : Geometry) (ram : Nat → Int) (toAvoid : Nat) : List Visit :=
  visits g ram toAvoid g.TABLES_DEPTH 0 0 0

/-- The running maximum `maxFrameIndex` of `treeLogic` is `0` or a referenced frame. -/
def MaxOK (g : Geometry) (ram : Nat → Int) (mfi : Int) : Prop :=
  mfi = 0 ∨ ∃ f : Nat, mfi = (f : Int) ∧ Referenced g ram f

/-- The machine `m1` after `treeLogic` has picked frame `F` on a miss (and detached it
from the tree of `m` if it was in use), before `F` is linked at entry `s` of the table
`cur` reached by `p0`. -/
structure Detached (g : Geometry) (m m1 : Machine) (A : Nat → Int) (p0 : List Nat)
    (cur s F : Nat) : Prop where
  pre : PreTree g m1.ram
  frame_pos : 1 ≤ F
  frame_lt : F < g.NUM_FRAMES
  unref : ∀ p, ValidPath g p → walk g m1.ram p ≠ some F
  path : walk g m1.ram p0 = some cur
  entry : m1.ram (cur * g.PAGE_SIZE + s) = 0
  closed : ∀ f f', (f = F ∨ Referenced g m1.ram f) → 1 ≤ f' → f' ≤ f →
    (f' = F ∨ Referenced g m1.ram f')
  data : DataInv g m1 A
  mono : ∀ f, Referenced g m.ram f → (f = F ∨ Referenced g m1.ram f)

/-- The loop invariant of `treeLogic` before iteration `n`, for virtual address `V` and
stored contents `A`. -/
structure WalkInv (g : Geometry) (V : Nat) (A : Nat → Int) (n : Nat) (st : WalkState) :
    Prop where
  abs : AbsInv g st.m A
  path : walk g st.m.ram (slicesUpTo g V n) = some st.newTable
  page : st.pageAddr = st.newTable * g.PAGE_SIZE
  mask : st.mask = (g.PAGE_SIZE - 1) <<< (g.OFFSET_WIDTH * (g.TABLES_DEPTH - n))
  max : MaxOK g st.m.ram st.maxFrameIndex

/-- The machine after linking frame `F` at `ptr` (source lines 150-154): `restore` tells
whether the level just entered is the leaf level, `key` is the page restored. -/
def linkFrame (g : Geometry) (m : Machine) (F : Int) (ptr : Nat) (restore : Bool) (key : Nat) :
    Machine :=
  if restore then PMrestore g (newBlankFrame g m F ptr) (wordToU64 F) key
  else newBlankFrame g m F ptr

/-! ## Client operations -/

/-- A client call: `VMread(v, &out)` with `out` holding `value` beforehand, or
`VMwrite(v, x)`. -/
inductive Op
  | read (v : Nat) (value : Int)
  | write (v : Nat) (x : Int)
  deriving DecidableEq

/-- The machine after a client call. -/
def runOp (g : Geometry) (m : Machine) : Op → Machine
  | Op.read v value => (VMread g m v value).2.2
  | Op.write v x => (VMwrite g m v x).2

/-- The machine after a sequence of client calls. -/
def runOps (g : Geometry) (m : Machine) (ops : List Op) : Machine :=
  ops.foldl (runOp g) m

/-- An in-range call that is not a write to address `v`. -/
def Op.Spares (g : Geometry) (v : Nat) : Op → Prop
  | Op.read u _ => u < g.VIRTUAL_MEMORY_SIZE
  | Op.write u _ => u < g.VIRTUAL_MEMORY_SIZE ∧ u ≠ v

/-- No two distinct live page-table entries hold the same non-zero frame index. -/
def NoSharedFrame (g : Geometry) (ram : Nat → Int) : Prop :=
  ∀ t i t' i', LiveEntry g ram t i → LiveEntry g ram t' i' →
    ram (t * g.PAGE_SIZE + i) ≠ 0 →
    ram (t * g.PAGE_SIZE + i) = ram (t' * g.PAGE_SIZE + i') → t = t' ∧ i = i'

/-- The word `M` is the largest frame index stored in a non-zero live entry, `0` if there
is none. -/
def IsMaxRef (g : Geometry) (ram : Nat → Int) (M : Int) : Prop :=
  (∀ t i, LiveEntry g ram t i → ram (t * g.PAGE_SIZE + i) ≤ M) ∧
  (M = 0 ∨ ∃ t i, LiveEntry g ram t i ∧ ram (t * g.PAGE_SIZE + i) = M)

/-- The frames of the nodes on the path `p`, from the root to its end. -/
def framesOn (g : Geometry) (ram : Nat → Int) (p : List Nat) : List Nat :=
  (List.range (p.length + 1)).filterMap fun k => walk g ram (p.take k)

/-- The score of the data page reached by `p`: the weights of the frames of all nodes
on the path, root and leaf included, plus the weight of the virtual page number. -/
def leafScore (g : Geometry) (ram : Nat → Int) (p : List Nat) : Nat :=
  ((framesOn g ram p).map (weight g)).sum + weight g (pageNum g p)

/-- The scores of `treeDFS` fit in an `unsigned int`. -/
def Geometry.ScoreFits (g : Geometry) : Prop :=
  (g.TABLES_DEPTH + 2) * max g.WEIGHT_EVEN g.WEIGHT_ODD < 2 ^ 32

/-! ## A concrete geometry -/

/-- The geometry of the concrete scenarios: `OFFSET_WIDTH = 4`, `TABLES_DEPTH = 2`,
`NUM_FRAMES = 4`. -/
def exampleGeometry : Geometry := ⟨4, 2, 4, 4, 2⟩

/-- A machine before initialization: some physical memory contents, empty backing
store. -/
def exampleMachine : Machine := ⟨fun a => (a : Int) + 1, fun _ => none⟩

/-- A geometry with too few frames for one translation: `NUM_FRAMES = 1`,
`TABLES_DEPTH = 1`. -/
def tinyGeometry : Geometry := ⟨1, 1, 1, 4, 2⟩

/-- The weights of the frames of the nodes strictly above the end of path `q`: the
`curScore` a call of `treeDFS` at the end of `q` receives. -/
def scoreAbove (g : Geometry) (ram : Nat → Int) (q : List Nat) : Nat :=
  (((List.range q.length).filterMap fun k => walk g ram (q.take k)).map (weight g)).sum

/-! ## The flat array the virtual memory is meant to be -/

/-- The effect of a client call on a flat array of words: an in-range write stores its
word, every other call changes nothing. -/
def flatStep (g : Geometry) (A : Nat → Int) : Op → (Nat → Int)
  | Op.read _ _ => A
  | Op.write v x =>
      if v < g.VIRTUAL_MEMORY_SIZE then (fun a => if a = v then x else A a) else A

/-- The flat array after a sequence of client calls, starting from all zeros. -/
def flatMem (g : Geometry) (ops : List Op) : Nat → Int :=
  ops.foldl (flatStep g) (fun _ => 0)

/-- The example machine after `VMinitialize; VMwrite(0, 1); VMwrite(16, 2)`: one table
and two data pages fill the frames 1 to 3. -/
def exampleFull : Machine :=
  (VMwrite exampleGeometry
    (VMwrite exampleGeometry ( VMinitialize exampleGeometry exampleMachine) 0 1).2 16 2).2

/-- The example machine after `VMinitialize; VMwrite(0, 1); VMwrite(256, 2)`: the second
write evicts the page of the first and leaves its table empty. -/
def exampleHollow : Machine :=
  (VMwrite exampleGeometry
    (VMwrite exampleGeometry ( VMinitialize exampleGeometry exampleMachine) 0 1).2 256 2).2

/-! ## The order of the data pages in the traversal -/

/-- The accumulators recorded by the calls at depth `TABLES_DEPTH` among the visits, in
the order of the traversal. -/
def leafPvs : List Visit → List Nat
  | [] => []
  | Visit.leaf _ _ _ pv :: l => pv :: leafPvs l
  | Visit.ref _ :: l => leafPvs l
  | Visit.empty _ _ :: l => leafPvs l

/-! ## The recursion of `treeDFS` on its `depth` argument -/

/-- One iteration of the `for` loop of `treeDFS` (source lines 82-102) when the
recursive call `child` may fail to return. -/
def scanEntryFuel (g : Geometry) (ram : Nat → Int)
    (child : Nat → Nat → Nat → Survey → Option (Survey × Nat))
    (curFrameIndex curScore score : Nat) (st : ScanState) (i : Nat) : Option ScanState :=
  let candFrameIndex := ram (u64 (curFrameIndex * g.PAGE_SIZE + i))
  if candFrameIndex ≠ 0 then
    let sv1 : Survey :=
      if candFrameIndex > st.sv.maxUsedFrame then
        { st.sv with maxUsedFrame := candFrameIndex }
      else st.sv
    match child (wordToU64 candFrameIndex) (u32 (curScore + score))
        (u64 (st.curVirtualAddr <<< g.OFFSET_WIDTH)) sv1 with
    | none => none
    | some r =>
      let sv2 : Survey :=
        if r.2 = PATH_TO_REPLACE then
          { r.1 with virtualAddrRep := st.curVirtualAddr,
                     toReplace := u64 (curFrameIndex * g.PAGE_SIZE + i) }
        else r.1
      let sv3 : Survey :=
        if r.2 = EMPTY_TABLE then
          { sv2 with emptyTablePtr := u64 (curFrameIndex * g.PAGE_SIZE + i) }
        else sv2
      some ⟨sv3, false, u64 (st.curVirtualAddr + 1)⟩
  else
    some ⟨st.sv, st.isEmpty, u64 (st.curVirtualAddr + 1)⟩

/-- The `for` loop of `treeDFS` over the listed entries when the recursive call may
fail to return. -/
def scanFuel (g : Geometry) (ram : Nat → Int)
    (child : Nat → Nat → Nat → Survey → Option (Survey × Nat))
    (curFrameIndex curScore score : Nat) : ScanState → List Nat → Option ScanState
  | st, [] => some st
  | st, i :: is =>
      match scanEntryFuel g ram child curFrameIndex curScore score st i with
      | none => none
      | some st1 => scanFuel g ram child curFrameIndex curScore score st1 is

/-- Source `treeDFS` with its own argument `depth` and the test `depth == TABLES_DEPTH`.
Every nested call spends one unit of `fuel`; the result is `none` when the fuel runs out
before the call returns. The counters `depth` and `i` are `unsigned int`: the call one
level deeper receives `depth + 1` reduced modulo `2^32`, and the `for` loop
(source line 80) visits the entries `0` to `PAGE_SIZE - 1` when `PAGE_SIZE < 2^32` and
does not exit otherwise. -/
def treeDFSFuel (g : Geometry) (ram : Nat → Int) (toAvoid : Nat) :
    (fuel : Nat) → (curFrameIndex curScore curVirtualAddr depth : Nat) → Survey →
      Option (Survey × Nat)
  | 0, _, _, _, _, _ => none
  | fuel + 1, curFrameIndex, curScore, curVirtualAddr, depth, sv =>
      if depth = g.TABLES_DEPTH then
        let score := u32 (weight g curFrameIndex + weight g (curVirtualAddr >>> g.OFFSET_WIDTH))
        if u32 (curScore + score) > sv.highestScore ∨
            (u32 (curScore + score) = sv.highestScore ∧
              curVirtualAddr >>> g.OFFSET_WIDTH < sv.virtualAddrRep) then
          some ({ sv with highestScore := u32 (curScore + score) }, PATH_TO_REPLACE)
        else some (sv, 0)
      else if g.PAGE_SIZE < 2 ^ 32 then
        let score := weight g curFrameIndex
        match scanFuel g ram
            (fun f s a sv1 => treeDFSFuel g ram toAvoid fuel f s a (u32 (depth + 1)) sv1)
            curFrameIndex curScore score ⟨sv, true, curVirtualAddr⟩
            (List.range g.PAGE_SIZE) with
        | none => none
        | some st =>
          if st.isEmpty = true ∧ curFrameIndex ≠ toAvoid then
            some ({ st.sv with lastEmptyTable := curFrameIndex }, EMPTY_TABLE)
          else some (st.sv, 0)
      else none

/-! ## The calls of `treeDFS` at depth `TABLES_DEPTH` -/

/-- Source `treeDFS` with the body of the call at depth `TABLES_DEPTH` (source lines
66-76) replaced by `leaf`, which is given the arguments `curFrameIndex`, `curScore` and
`curVirtualAddr` of that call and the out-parameters. The loop is the source loop
`scanEntry`; `treeDFS` itself is the case where `leaf` is its own body at depth
`TABLES_DEPTH`. -/
def treeDFSWith (g : Geometry) (ram : Nat → Int) (toAvoid : Nat)
    (leaf : Nat → Nat → Nat → Survey → Survey × Nat) :
    (levels : Nat) → (curFrameIndex curScore curVirtualAddr : Nat) → Survey → Survey × Nat
  | 0, curFrameIndex, curScore, curVirtualAddr, sv =>
      leaf curFrameIndex curScore curVirtualAddr sv
  | levels + 1, curFrameIndex, curScore, curVirtualAddr, sv =>
      let score := weight g curFrameIndex
      let st := (List.range g.PAGE_SIZE).foldl
        (scanEntry g ram (treeDFSWith g ram toAvoid leaf levels) curFrameIndex curScore score)
        ⟨sv, true, curVirtualAddr⟩
      if st.isEmpty = true ∧ curFrameIndex ≠ toAvoid then
        ({ st.sv with lastEmptyTable := curFrameIndex }, EMPTY_TABLE)
      else (st.sv, 0)

/-- A stand-in for the body of the call at depth `TABLES_DEPTH` that stores the
accumulator `curVirtualAddr` it receives in `highestScore` and reports nothing. -/
def recordAccumulator (_curFrameIndex _curScore curVirtualAddr : Nat) (sv : Survey) :
    Survey × Nat :=
  ({ sv with highestScore := curVirtualAddr }, 0)

end HPageTable

namespace HPageTable

/-! ## Machine integers -/

theorem u64_of_lt {n : Nat} (h : n < 2 ^ 64) : u64 n = n := Nat.mod_eq_of_lt h

theorem u64_lt (n : Nat) : u64 n < 2 ^ 64 := Nat.mod_lt _ (by norm_num)

theorem u32_of_lt {n : Nat} (h : n < 2 ^ 32) : u32 n = n := Nat.mod_eq_of_lt h

theorem wordToU64_natCast {n : Nat} (h : n < 2 ^ 64) : wordToU64 (n : Int) = n := by
  unfold wordToU64
  omega

theorem wordToU64_zero : wordToU64 0 = 0 := by
  unfold wordToU64
  rfl

/-! ## Geometry facts -/

theorem Geometry.PAGE_SIZE_pos (g : Geometry) : 0 < g.PAGE_SIZE := by
  unfold Geometry.PAGE_SIZE
  positivity

theorem Geometry.Valid.frames_pos {g : Geometry} (hg : g.Valid) : 0 < g.NUM_FRAMES := by
  have := hg.frames
  omega

theorem Geometry.Valid.addr_lt {g : Geometry} (hg : g.Valid) {f i : Nat}
    (hf : f < g.NUM_FRAMES) (hi : i < g.PAGE_SIZE) : f * g.PAGE_SIZE + i < 2 ^ 64 := by
  have h1 : (f + 1) * g.PAGE_SIZE ≤ g.NUM_FRAMES * g.PAGE_SIZE :=
    Nat.mul_le_mul_right _ hf
  have h2 := hg.phys
  have h3 : (f + 1) * g.PAGE_SIZE = f * g.PAGE_SIZE + g.PAGE_SIZE := by ring
  omega

theorem Geometry.Valid.frame_lt {g : Geometry} (hg : g.Valid) {f : Nat}
    (hf : f < g.NUM_FRAMES) : f < 2 ^ 64 := by
  have h := hg.addr_lt hf g.PAGE_SIZE_pos
  have h1 : f * 1 ≤ f * g.PAGE_SIZE := Nat.mul_le_mul_left _ g.PAGE_SIZE_pos
  omega

theorem Geometry.Valid.u64_addr {g : Geometry} (hg : g.Valid) {f i : Nat}
    (hf : f < g.NUM_FRAMES) (hi : i < g.PAGE_SIZE) :
    u64 (f * g.PAGE_SIZE + i) = f * g.PAGE_SIZE + i :=
  u64_of_lt (hg.addr_lt hf hi)

/-- Two word addresses inside frames coincide only for the same frame and offset. -/
theorem addr_inj {P f i f' i' : Nat} (hi : i < P) (hi' : i' < P)
    (h : f * P + i = f' * P + i') : f = f' ∧ i = i' := by
  have h1 : (f * P + i) / P = f := by
    rw [Nat.mul_comm, Nat.mul_add_div (by omega), Nat.div_eq_of_lt hi, Nat.add_zero]
  have h2 : (f' * P + i') / P = f' := by
    rw [Nat.mul_comm, Nat.mul_add_div (by omega), Nat.div_eq_of_lt hi', Nat.add_zero]
  have hf : f = f' := by rw [← h1, ← h2, h]
  subst hf
  exact ⟨rfl, by omega⟩

/-! ## The driver and the helpers on physical memory -/

@[simp] theorem PMwrite_ram (m : Machine) (addr : Nat) (w : Int) (a : Nat) :
    (PMwrite m addr w).ram a = if a = addr then w else m.ram a := rfl

@[simp] theorem PMwrite_swap (m : Machine) (addr : Nat) (w : Int) :
    (PMwrite m addr w).swap = m.swap := rfl

@[simp] theorem PMevict_ram (g : Geometry) (m : Machine) (f p : Nat) :
    (PMevict g m f p).ram = m.ram := rfl

@[simp] theorem PMrestore_swap (g : Geometry) (m : Machine) (f p : Nat) :
    (PMrestore g m f p).swap = m.swap := rfl

/-- Zeroing a list of addresses: the words at these addresses become `0`, every other
word and the backing store are kept. -/
theorem zeroFold_spec (addr : Nat → Nat) (l : List Nat) (m : Machine) :
    ((l.foldl (fun m i => PMwrite m (addr i) 0) m).swap = m.swap) ∧
    ∀ a, (l.foldl (fun m i => PMwrite m (addr i) 0) m).ram a =
      if ∃ i ∈ l, addr i = a then 0 else m.ram a := by
  induction l generalizing m with
  | nil => simp
  | cons x xs ih =>
    obtain ⟨h1, h2⟩ := ih (PMwrite m (addr x) 0)
    refine ⟨by simpa using h1, fun a => ?_⟩
    rw [List.foldl_cons, h2 a]
    by_cases hx : addr x = a
    · have : ∃ i ∈ x :: xs, addr i = a := ⟨x, by simp, hx⟩
      simp only [this, if_true]
      split <;> simp [hx.symm]
    · by_cases hxs : ∃ i ∈ xs, addr i = a
      · have : ∃ i ∈ x :: xs, addr i = a := by
          obtain ⟨i, hi, e⟩ := hxs
          exact ⟨i, by simp [hi], e⟩
        simp [hxs, this]
      · have : ¬ ∃ i ∈ x :: xs, addr i = a := by
          rintro ⟨i, hi, e⟩
          rcases List.mem_cons.1 hi with rfl | hi
          · exact hx e
          · exact hxs ⟨i, hi, e⟩
        simp only [hxs, this, if_false, PMwrite_ram]
        rw [if_neg (Ne.symm hx)]

theorem clearTable_swap (g : Geometry) (m : Machine) (f : Nat) :
    (clearTable g m f).swap = m.swap :=
  (zeroFold_spec (fun i => u64 (f * g.PAGE_SIZE + i)) _ m).1

theorem clearTable_ram (g : Geometry) (m : Machine) (f a : Nat) :
    (clearTable g m f).ram a =
      if ∃ i, i < g.PAGE_SIZE ∧ u64 (f * g.PAGE_SIZE + i) = a then 0 else m.ram a := by
  unfold clearTable
  rw [(zeroFold_spec (fun i => u64 (f * g.PAGE_SIZE + i)) _ m).2 a]
  simp only [List.mem_range]

theorem newBlankFrame_swap (g : Geometry) (m : Machine) (F : Int) (ptr : Nat) :
    (newBlankFrame g m F ptr).swap = m.swap := by
  unfold newBlankFrame
  rw [(zeroFold_spec (fun i => wordToU64 (F * 2 ^ g.OFFSET_WIDTH + (i : Int))) _ _).1]
  rfl

theorem newBlankFrame_ram (g : Geometry) (m : Machine) (F : Int) (ptr a : Nat) :
    (newBlankFrame g m F ptr).ram a =
      if ∃ i, i < g.PAGE_SIZE ∧ wordToU64 (F * 2 ^ g.OFFSET_WIDTH + (i : Int)) = a then 0
      else if a = ptr then F else m.ram a := by
  unfold newBlankFrame
  rw [(zeroFold_spec (fun i => wordToU64 (F * 2 ^ g.OFFSET_WIDTH + (i : Int))) _ _).2 a]
  simp only [List.mem_range, PMwrite_ram]

/-- `newBlankFrame` for a frame index `F` in range: frame `F` is zeroed, the pointer
is written unless it lies in frame `F`, everything else is kept. -/
theorem newBlankFrame_ram_nat {g : Geometry} (hg : g.Valid) (m : Machine) {F : Nat}
    (hF : F < g.NUM_FRAMES) (ptr a : Nat) :
    (newBlankFrame g m (F : Int) ptr).ram a =
      if F * g.PAGE_SIZE ≤ a ∧ a < F * g.PAGE_SIZE + g.PAGE_SIZE then 0
      else if a = ptr then (F : Int) else m.ram a := by
  rw [newBlankFrame_ram]
  have key : (∃ i, i < g.PAGE_SIZE ∧ wordToU64 ((F : Int) * 2 ^ g.OFFSET_WIDTH + (i : Int)) = a) ↔
      (F * g.PAGE_SIZE ≤ a ∧ a < F * g.PAGE_SIZE + g.PAGE_SIZE) := by
    have conv : ∀ i, i < g.PAGE_SIZE →
        wordToU64 ((F : Int) * 2 ^ g.OFFSET_WIDTH + (i : Int)) = F * g.PAGE_SIZE + i := by
      intro i hi
      have : ((F : Int) * 2 ^ g.OFFSET_WIDTH + (i : Int)) = ((F * g.PAGE_SIZE + i : Nat) : Int) := by
        unfold Geometry.PAGE_SIZE
        push_cast
        ring
      rw [this]
      exact wordToU64_natCast (hg.addr_lt hF hi)
    constructor
    · rintro ⟨i, hi, e⟩
      rw [conv i hi] at e
      omega
    · rintro ⟨h1, h2⟩
      refine ⟨a - F * g.PAGE_SIZE, by omega, ?_⟩
      rw [conv _ (by omega)]
      omega
  simp only [key]

theorem PMrestore_ram (g : Geometry) (m : Machine) (f p a : Nat) :
    (PMrestore g m f p).ram a =
      if f * g.PAGE_SIZE ≤ a ∧ a < f * g.PAGE_SIZE + g.PAGE_SIZE then
        swapWord m p (a - f * g.PAGE_SIZE)
      else m.ram a := rfl

/-! ## Walks -/

@[simp] theorem walkFrom_nil (g : Geometry) (ram : Nat → Int) (o : Option Nat) :
    walkFrom g ram o [] = o := rfl

@[simp] theorem walkFrom_none (g : Geometry) (ram : Nat → Int) (p : List Nat) :
    walkFrom g ram none p = none := by
  induction p with
  | nil => rfl
  | cons i p ih => simpa [walkFrom] using ih

theorem walkFrom_cons (g : Geometry) (ram : Nat → Int) (t i : Nat) (p : List Nat) :
    walkFrom g ram (some t) (i :: p) = walkFrom g ram (child g ram t i) p := rfl

theorem walkFrom_append (g : Geometry) (ram : Nat → Int) (o : Option Nat) (p q : List Nat) :
    walkFrom g ram o (p ++ q) = walkFrom g ram (walkFrom g ram o p) q := by
  unfold walkFrom
  rw [List.foldl_append]

theorem walkFrom_snoc (g : Geometry) (ram : Nat → Int) (o : Option Nat) (p : List Nat) (i : Nat) :
    walkFrom g ram o (p ++ [i]) = (walkFrom g ram o p).bind fun t => child g ram t i := by
  rw [walkFrom_append]
  rfl

@[simp] theorem walk_nil (g : Geometry) (ram : Nat → Int) : walk g ram [] = some 0 := rfl

theorem walk_snoc (g : Geometry) (ram : Nat → Int) (p : List Nat) (i : Nat) :
    walk g ram (p ++ [i]) = (walk g ram p).bind fun t => child g ram t i :=
  walkFrom_snoc g ram _ p i

theorem walk_append (g : Geometry) (ram : Nat → Int) (p q : List Nat) :
    walk g ram (p ++ q) = walkFrom g ram (walk g ram p) q :=
  walkFrom_append g ram _ p q

/-- A live path has live prefixes. -/
theorem walk_prefix_some {g : Geometry} {ram : Nat → Int} {p q : List Nat} {f : Nat}
    (h : walk g ram (p ++ q) = some f) : ∃ t, walk g ram p = some t := by
  rw [walk_append] at h
  cases hp : walk g ram p with
  | none => rw [hp, walkFrom_none] at h; cases h
  | some t => exact ⟨t, rfl⟩

theorem ValidPath.nil (g : Geometry) : ValidPath g [] := ⟨Nat.zero_le _, by simp⟩

theorem ValidPath.of_append {g : Geometry} {p q : List Nat} (h : ValidPath g (p ++ q)) :
    ValidPath g p := by
  refine ⟨?_, fun i hi => h.2 i (List.mem_append_left _ hi)⟩
  have := h.1
  rw [List.length_append] at this
  omega

theorem ValidPath.snoc {g : Geometry} {p : List Nat} {i : Nat} (h : ValidPath g p)
    (hl : p.length < g.TABLES_DEPTH) (hi : i < g.PAGE_SIZE) : ValidPath g (p ++ [i]) := by
  refine ⟨by rw [List.length_append]; simpa using hl, fun j hj => ?_⟩
  rcases List.mem_append.1 hj with hj | hj
  · exact h.2 j hj
  · rw [List.mem_singleton.1 hj]; exact hi

theorem ValidPath.snoc_iff {g : Geometry} {p : List Nat} {i : Nat} :
    ValidPath g (p ++ [i]) ↔ ValidPath g p ∧ p.length < g.TABLES_DEPTH ∧ i < g.PAGE_SIZE := by
  constructor
  · intro h
    refine ⟨h.of_append, ?_, h.2 i (by simp)⟩
    have := h.1
    rw [List.length_append] at this
    simpa using this
  · rintro ⟨h, hl, hi⟩
    exact h.snoc hl hi

end HPageTable

namespace HPageTable

/-! ## `treeDFS` folds its visits into the out-parameters -/

/-- The loop of `treeDFS` over a list of entry indices, given that each iteration
applies the visits of its entry. -/
theorem scan_fold (g : Geometry) (ram : Nat → Int) (toAvoid : Nat)
    (child : Nat → Nat → Nat → Survey → Survey × Nat)
    (below : Nat → Nat → Nat → List Visit) (leafLevel : Bool) (cur cs : Nat)
    (hstep : ∀ (st : ScanState) (i : Nat),
      scanEntry g ram child cur cs (weight g cur) st i =
        ⟨(entryVisits g ram toAvoid below leafLevel cur cs st.curVirtualAddr i).foldl
            (applyVisit g) st.sv,
          st.isEmpty && decide (ram (u64 (cur * g.PAGE_SIZE + i)) = 0),
          u64 (st.curVirtualAddr + 1)⟩)
    (l : List Nat) (st : ScanState) :
    (l.foldl (scanEntry g ram child cur cs (weight g cur)) st).sv =
        (scanVisits g ram toAvoid below leafLevel cur cs st.curVirtualAddr l).foldl
          (applyVisit g) st.sv ∧
    (l.foldl (scanEntry g ram child cur cs (weight g cur)) st).isEmpty =
        (st.isEmpty && decide (∀ i ∈ l, ram (u64 (cur * g.PAGE_SIZE + i)) = 0)) := by
  induction l generalizing st with
  | nil => simp [scanVisits]
  | cons i is ih =>
    rw [List.foldl_cons, hstep st i]
    obtain ⟨h1, h2⟩ := ih ⟨(entryVisits g ram toAvoid below leafLevel cur cs st.curVirtualAddr i).foldl
            (applyVisit g) st.sv,
          st.isEmpty && decide (ram (u64 (cur * g.PAGE_SIZE + i)) = 0),
          u64 (st.curVirtualAddr + 1)⟩
    refine ⟨?_, ?_⟩
    · rw [h1]
      simp only [scanVisits, List.foldl_append]
    · rw [h2]
      simp only [List.mem_cons, forall_eq_or_imp, Bool.decide_and, Bool.and_assoc]

/-- The call on a data page followed by the caller's assignments is the `leaf` visit. -/
theorem leaf_call (g : Geometry) (ram : Nat → Int) (toAvoid f sc pv ptr : Nat) (sv : Survey) :
    (if (treeDFS g ram toAvoid 0 f sc (u64 (pv <<< g.OFFSET_WIDTH)) sv).2 = EMPTY_TABLE then
        { (if (treeDFS g ram toAvoid 0 f sc (u64 (pv <<< g.OFFSET_WIDTH)) sv).2 = PATH_TO_REPLACE then
            { (treeDFS g ram toAvoid 0 f sc (u64 (pv <<< g.OFFSET_WIDTH)) sv).1 with
                virtualAddrRep := pv, toReplace := ptr }
          else (treeDFS g ram toAvoid 0 f sc (u64 (pv <<< g.OFFSET_WIDTH)) sv).1) with
          emptyTablePtr := ptr }
      else
        (if (treeDFS g ram toAvoid 0 f sc (u64 (pv <<< g.OFFSET_WIDTH)) sv).2 = PATH_TO_REPLACE then
            { (treeDFS g ram toAvoid 0 f sc (u64 (pv <<< g.OFFSET_WIDTH)) sv).1 with
                virtualAddrRep := pv, toReplace := ptr }
          else (treeDFS g ram toAvoid 0 f sc (u64 (pv <<< g.OFFSET_WIDTH)) sv).1)) =
      applyVisit g sv (Visit.leaf ptr f sc pv) := by
  simp only [treeDFS, applyVisit, leafTotal, leafVpn]
  by_cases h : u32 (sc + u32 (weight g f + weight g (u64 (pv <<< g.OFFSET_WIDTH) >>> g.OFFSET_WIDTH))) >
        sv.highestScore ∨
      (u32 (sc + u32 (weight g f + weight g (u64 (pv <<< g.OFFSET_WIDTH) >>> g.OFFSET_WIDTH))) =
          sv.highestScore ∧
        u64 (pv <<< g.OFFSET_WIDTH) >>> g.OFFSET_WIDTH < sv.virtualAddrRep)
  · rw [if_pos h, if_pos h]
    simp [PATH_TO_REPLACE, EMPTY_TABLE]
  · rw [if_neg h, if_neg h]
    simp [PATH_TO_REPLACE, EMPTY_TABLE]

/-- One iteration of the loop at the last table level: the recursive call is the call
on a data page. -/
theorem scanEntry_leaf (g : Geometry) (ram : Nat → Int) (toAvoid : Nat)
    (below : Nat → Nat → Nat → List Visit) (cur cs : Nat) (st : ScanState) (i : Nat) :
    scanEntry g ram (treeDFS g ram toAvoid 0) cur cs (weight g cur) st i =
      ⟨(entryVisits g ram toAvoid below true cur cs st.curVirtualAddr i).foldl
          (applyVisit g) st.sv,
        st.isEmpty && decide (ram (u64 (cur * g.PAGE_SIZE + i)) = 0),
        u64 (st.curVirtualAddr + 1)⟩ := by
  unfold scanEntry entryVisits
  by_cases hc : ram (u64 (cur * g.PAGE_SIZE + i)) = 0
  · simp [hc]
  · simp only [ne_eq, hc, not_false_eq_true, if_true, if_false, decide_False, Bool.and_false,
      List.foldl_cons, List.foldl_nil]
    rw [leaf_call]
    rfl

/-- One iteration of the loop above the last table level, given what the recursive call
on a table does. -/
theorem scanEntry_table (g : Geometry) (ram : Nat → Int) (toAvoid n : Nat)
    (ih : ∀ cur cs cva sv, treeDFS g ram toAvoid (n + 1) cur cs cva sv =
      if TableEmpty g ram cur ∧ cur ≠ toAvoid then
        ({ (visits g ram toAvoid (n + 1) cur cs cva).foldl (applyVisit g) sv with
            lastEmptyTable := cur }, EMPTY_TABLE)
      else ((visits g ram toAvoid (n + 1) cur cs cva).foldl (applyVisit g) sv, 0))
    (cur cs : Nat) (st : ScanState) (i : Nat) :
    scanEntry g ram (treeDFS g ram toAvoid (n + 1)) cur cs (weight g cur) st i =
      ⟨(entryVisits g ram toAvoid (visits g ram toAvoid (n + 1)) false cur cs
          st.curVirtualAddr i).foldl (applyVisit g) st.sv,
        st.isEmpty && decide (ram (u64 (cur * g.PAGE_SIZE + i)) = 0),
        u64 (st.curVirtualAddr + 1)⟩ := by
  unfold scanEntry entryVisits
  by_cases hc : ram (u64 (cur * g.PAGE_SIZE + i)) = 0
  · simp [hc]
  · simp only [ne_eq, hc, not_false_eq_true, if_true, if_false, decide_False, Bool.and_false,
      List.foldl_cons, List.foldl_append, Bool.false_eq_true]
    rw [ih]
    by_cases he : TableEmpty g ram (wordToU64 (ram (u64 (cur * g.PAGE_SIZE + i)))) ∧
        wordToU64 (ram (u64 (cur * g.PAGE_SIZE + i))) ≠ toAvoid
    · simp [he, applyVisit, PATH_TO_REPLACE, EMPTY_TABLE]
    · simp [he, applyVisit, PATH_TO_REPLACE, EMPTY_TABLE]

theorem treeDFS_succ (g : Geometry) (ram : Nat → Int) (toAvoid n cur cs cva : Nat)
    (sv : Survey) :
    treeDFS g ram toAvoid (n + 1) cur cs cva sv =
      if ((List.range g.PAGE_SIZE).foldl
            (scanEntry g ram (treeDFS g ram toAvoid n) cur cs (weight g cur))
            ⟨sv, true, cva⟩).isEmpty = true ∧ cur ≠ toAvoid then
        ({ ((List.range g.PAGE_SIZE).foldl
            (scanEntry g ram (treeDFS g ram toAvoid n) cur cs (weight g cur))
            ⟨sv, true, cva⟩).sv with lastEmptyTable := cur }, EMPTY_TABLE)
      else (((List.range g.PAGE_SIZE).foldl
            (scanEntry g ram (treeDFS g ram toAvoid n) cur cs (weight g cur))
            ⟨sv, true, cva⟩).sv, 0) := rfl

theorem visits_succ (g : Geometry) (ram : Nat → Int) (toAvoid n cur cs cva : Nat) :
    visits g ram toAvoid (n + 1) cur cs cva =
      scanVisits g ram toAvoid (visits g ram toAvoid n) (decide (n = 0)) cur cs cva
        (List.range g.PAGE_SIZE) := rfl

theorem decide_range_empty (g : Geometry) (ram : Nat → Int) (cur : Nat) :
    (decide (∀ i ∈ List.range g.PAGE_SIZE, ram (u64 (cur * g.PAGE_SIZE + i)) = 0)) =
      decide (TableEmpty g ram cur) := by
  simp only [List.mem_range, TableEmpty]

/-- The survey of a table: `treeDFS` folds the visits of the subtree into the
out-parameters, then reports the table itself when it is empty and not `toAvoid`. -/
theorem treeDFS_table (g : Geometry) (ram : Nat → Int) (toAvoid : Nat) :
    ∀ (n cur cs cva : Nat) (sv : Survey),
      treeDFS g ram toAvoid (n + 1) cur cs cva sv =
        if TableEmpty g ram cur ∧ cur ≠ toAvoid then
          ({ (visits g ram toAvoid (n + 1) cur cs cva).foldl (applyVisit g) sv with
              lastEmptyTable := cur }, EMPTY_TABLE)
        else ((visits g ram toAvoid (n + 1) cur cs cva).foldl (applyVisit g) sv, 0) := by
  intro n
  induction n with
  | zero =>
    intro cur cs cva sv
    obtain ⟨h1, h2⟩ := scan_fold g ram toAvoid (treeDFS g ram toAvoid 0)
      (visits g ram toAvoid 0) true cur cs
      (scanEntry_leaf g ram toAvoid _ cur cs) (List.range g.PAGE_SIZE) ⟨sv, true, cva⟩
    rw [treeDFS_succ, visits_succ, h1, h2, decide_range_empty]
    simp only [Bool.true_and, decide_eq_true_eq, decide_True]
  | succ n ih =>
    intro cur cs cva sv
    obtain ⟨h1, h2⟩ := scan_fold g ram toAvoid (treeDFS g ram toAvoid (n + 1))
      (visits g ram toAvoid (n + 1)) false cur cs
      (scanEntry_table g ram toAvoid n ih cur cs) (List.range g.PAGE_SIZE) ⟨sv, true, cva⟩
    have hd : decide (n + 1 = 0) = false := by simp
    rw [treeDFS_succ, visits_succ, h1, h2, decide_range_empty, hd]
    simp only [Bool.true_and, decide_eq_true_eq]

end HPageTable

namespace HPageTable

/-! ## Which visits a traversal makes -/

theorem u64_succ (a k : Nat) : u64 (u64 (a + k) + 1) = u64 (a + (k + 1)) := by
  unfold u64
  omega

theorem mem_scanVisits_range' (g : Geometry) (ram : Nat → Int) (toAvoid : Nat)
    (below : Nat → Nat → Nat → List Visit) (lf : Bool) (cur cs a0 : Nat) (v : Visit) :
    ∀ (m k : Nat),
      v ∈ scanVisits g ram toAvoid below lf cur cs (u64 (a0 + k)) (List.range' k m) ↔
        ∃ i, k ≤ i ∧ i < k + m ∧ v ∈ entryVisits g ram toAvoid below lf cur cs (u64 (a0 + i)) i := by
  intro m
  induction m with
  | zero =>
    intro k
    simp only [List.range'_zero, scanVisits, List.not_mem_nil, Nat.add_zero, false_iff]
    rintro ⟨i, h1, h2, _⟩
    omega
  | succ m ih =>
    intro k
    rw [List.range'_succ]
    simp only [scanVisits, List.mem_append]
    rw [u64_succ, ih (k + 1)]
    constructor
    · rintro (h | ⟨i, h1, h2, h3⟩)
      · exact ⟨k, le_refl _, by omega, h⟩
      · exact ⟨i, by omega, by omega, h3⟩
    · rintro ⟨i, h1, h2, h3⟩
      by_cases hik : i = k
      · subst hik
        exact Or.inl h3
      · exact Or.inr ⟨i, by omega, by omega, h3⟩

theorem mem_visits_succ (g : Geometry) (ram : Nat → Int) (toAvoid n cur cs a : Nat)
    (ha : a < 2 ^ 64) (v : Visit) :
    v ∈ visits g ram toAvoid (n + 1) cur cs a ↔
      ∃ i, i < g.PAGE_SIZE ∧
        v ∈ entryVisits g ram toAvoid (visits g ram toAvoid n) (decide (n = 0)) cur cs
          (u64 (a + i)) i := by
  rw [visits_succ, List.range_eq_range']
  have h := mem_scanVisits_range' g ram toAvoid (visits g ram toAvoid n) (decide (n = 0))
    cur cs a v g.PAGE_SIZE 0
  rw [Nat.add_zero, u64_of_lt ha] at h
  rw [h]
  constructor
  · rintro ⟨i, _, h2, h3⟩
    exact ⟨i, by omega, h3⟩
  · rintro ⟨i, h2, h3⟩
    exact ⟨i, Nat.zero_le _, by omega, h3⟩

theorem mem_entryVisits (g : Geometry) (ram : Nat → Int) (toAvoid : Nat)
    (below : Nat → Nat → Nat → List Visit) (lf : Bool) (cur cs pv i : Nat) (v : Visit) :
    v ∈ entryVisits g ram toAvoid below lf cur cs pv i ↔
      ram (u64 (cur * g.PAGE_SIZE + i)) ≠ 0 ∧
      (v = Visit.ref (ram (u64 (cur * g.PAGE_SIZE + i))) ∨
       (lf = true ∧ v = Visit.leaf (u64 (cur * g.PAGE_SIZE + i))
          (wordToU64 (ram (u64 (cur * g.PAGE_SIZE + i)))) (u32 (cs + weight g cur)) pv) ∨
       (lf = false ∧
          (v ∈ below (wordToU64 (ram (u64 (cur * g.PAGE_SIZE + i)))) (u32 (cs + weight g cur))
              (u64 (pv <<< g.OFFSET_WIDTH)) ∨
           (TableEmpty g ram (wordToU64 (ram (u64 (cur * g.PAGE_SIZE + i)))) ∧
            wordToU64 (ram (u64 (cur * g.PAGE_SIZE + i))) ≠ toAvoid ∧
            v = Visit.empty (u64 (cur * g.PAGE_SIZE + i))
              (wordToU64 (ram (u64 (cur * g.PAGE_SIZE + i)))))))) := by
  unfold entryVisits
  by_cases hc : ram (u64 (cur * g.PAGE_SIZE + i)) = 0
  · simp [hc]
  · simp only [hc, if_false, ne_eq, not_false_eq_true, true_and, List.mem_cons]
    cases lf with
    | true => simp
    | false =>
      by_cases he : TableEmpty g ram (wordToU64 (ram (u64 (cur * g.PAGE_SIZE + i)))) ∧
          wordToU64 (ram (u64 (cur * g.PAGE_SIZE + i))) ≠ toAvoid
      · simp [he]
      · simp only [he, if_false, List.append_nil, Bool.false_eq_true, false_and, false_or,
          true_and]
        constructor
        · rintro (h | h)
          · exact Or.inl h
          · exact Or.inr (Or.inl h)
        · rintro (h | h | ⟨h1, h2, _⟩)
          · exact Or.inl h
          · exact Or.inr h
          · exact absurd ⟨h1, h2⟩ he

@[simp] theorem nodeFrom_nil (g : Geometry) (ram : Nat → Int) (o : Option Node) :
    nodeFrom g ram o [] = o := rfl

@[simp] theorem nodeFrom_none (g : Geometry) (ram : Nat → Int) (q : List Nat) :
    nodeFrom g ram none q = none := by
  induction q with
  | nil => rfl
  | cons i q ih => simpa [nodeFrom] using ih

theorem nodeFrom_cons (g : Geometry) (ram : Nat → Int) (nd : Node) (i : Nat) (q : List Nat) :
    nodeFrom g ram (some nd) (i :: q) = nodeFrom g ram (descend g ram nd i) q := rfl

theorem nodeFrom_snoc (g : Geometry) (ram : Nat → Int) (o : Option Node) (q : List Nat)
    (i : Nat) :
    nodeFrom g ram o (q ++ [i]) = (nodeFrom g ram o q).bind fun nd => descend g ram nd i := by
  unfold nodeFrom
  rw [List.foldl_append]
  rfl

theorem descend_eq_some (g : Geometry) (ram : Nat → Int) (nd : Node) (i : Nat)
    (hc : ram (u64 (nd.frame * g.PAGE_SIZE + i)) ≠ 0) :
    descend g ram nd i = some ⟨wordToU64 (ram (u64 (nd.frame * g.PAGE_SIZE + i))),
      u32 (nd.score + weight g nd.frame), u64 (u64 (nd.acc + i) <<< g.OFFSET_WIDTH)⟩ := by
  simp [descend, child, hc]

theorem descend_eq_none (g : Geometry) (ram : Nat → Int) (nd : Node) (i : Nat)
    (hc : ram (u64 (nd.frame * g.PAGE_SIZE + i)) = 0) :
    descend g ram nd i = none := by
  simp [descend, child, hc]

/-- The visits of a traversal are exactly those caused by the non-zero entries of the
tables it reaches. -/
theorem mem_visits_iff (g : Geometry) (ram : Nat → Int) (toAvoid : Nat) (v : Visit) :
    ∀ (n : Nat) (nd : Node), nd.acc < 2 ^ 64 →
      (v ∈ visits g ram toAvoid (n + 1) nd.frame nd.score nd.acc ↔
        ∃ (q : List Nat) (j : Nat) (nd' : Node), q.length ≤ n ∧ (∀ i ∈ q, i < g.PAGE_SIZE) ∧
          j < g.PAGE_SIZE ∧ nodeFrom g ram (some nd) q = some nd' ∧
          ram (u64 (nd'.frame * g.PAGE_SIZE + j)) ≠ 0 ∧
          VisitOf g ram toAvoid (n - q.length) nd' j v) := by
  intro n
  induction n with
  | zero =>
    intro nd ha
    rw [mem_visits_succ g ram toAvoid 0 _ _ _ ha]
    constructor
    · rintro ⟨i, hi, h⟩
      rw [mem_entryVisits] at h
      obtain ⟨hc, h⟩ := h
      refine ⟨[], i, nd, le_refl _, by simp, hi, rfl, hc, ?_⟩
      rcases h with h | ⟨_, h⟩ | ⟨h, _⟩
      · exact Or.inl h
      · exact Or.inr (Or.inl ⟨rfl, h⟩)
      · simp at h
    · rintro ⟨q, j, nd', hq, _, hj, hn, hc, hv⟩
      have hq0 : q = [] := List.length_eq_zero.1 (Nat.le_zero.1 hq)
      subst hq0
      simp only [nodeFrom_nil, Option.some.injEq] at hn
      subst hn
      refine ⟨j, hj, ?_⟩
      rw [mem_entryVisits]
      refine ⟨hc, ?_⟩
      rcases hv with h | ⟨_, h⟩ | ⟨h, _⟩
      · exact Or.inl h
      · exact Or.inr (Or.inl ⟨by simp, h⟩)
      · simp at h
  | succ n ih =>
    intro nd ha
    rw [mem_visits_succ g ram toAvoid (n + 1) _ _ _ ha]
    constructor
    · rintro ⟨i, hi, h⟩
      rw [mem_entryVisits] at h
      obtain ⟨hc, h⟩ := h
      rcases h with h | ⟨h, _⟩ | ⟨_, h | ⟨h1, h2, h3⟩⟩
      · exact ⟨[], i, nd, Nat.zero_le _, by simp, hi, rfl, hc, Or.inl h⟩
      · simp at h
      · have hI := (ih ⟨wordToU64 (ram (u64 (nd.frame * g.PAGE_SIZE + i))),
          u32 (nd.score + weight g nd.frame), u64 (u64 (nd.acc + i) <<< g.OFFSET_WIDTH)⟩
          (u64_lt _)).1 h
        obtain ⟨q, j, nd', hq, hqi, hj, hn, hc', hv⟩ := hI
        refine ⟨i :: q, j, nd', by simpa using hq, ?_, hj, ?_, hc', ?_⟩
        · intro x hx
          rcases List.mem_cons.1 hx with rfl | hx
          · exact hi
          · exact hqi x hx
        · rw [nodeFrom_cons, descend_eq_some g ram nd i hc]
          exact hn
        · simpa using hv
      · exact ⟨[], i, nd, Nat.zero_le _, by simp, hi, rfl, hc,
          Or.inr (Or.inr ⟨by simp, h1, h2, h3⟩)⟩
    · rintro ⟨q, j, nd', hq, hqi, hj, hn, hc, hv⟩
      cases q with
      | nil =>
        simp only [nodeFrom_nil, Option.some.injEq] at hn
        subst hn
        refine ⟨j, hj, ?_⟩
        rw [mem_entryVisits]
        refine ⟨hc, ?_⟩
        rcases hv with h | ⟨h, _⟩ | ⟨_, h1, h2, h3⟩
        · exact Or.inl h
        · simp at h
        · exact Or.inr (Or.inr ⟨by simp, Or.inr ⟨h1, h2, h3⟩⟩)
      | cons i q =>
        have hi : i < g.PAGE_SIZE := hqi i (by simp)
        have hci : ram (u64 (nd.frame * g.PAGE_SIZE + i)) ≠ 0 := by
          intro h0
          rw [nodeFrom_cons, descend_eq_none g ram nd i h0, nodeFrom_none] at hn
          cases hn
        rw [nodeFrom_cons, descend_eq_some g ram nd i hci] at hn
        refine ⟨i, hi, ?_⟩
        rw [mem_entryVisits]
        refine ⟨hci, Or.inr (Or.inr ⟨by simp, Or.inl ?_⟩)⟩
        have hI := (ih ⟨wordToU64 (ram (u64 (nd.frame * g.PAGE_SIZE + i))),
          u32 (nd.score + weight g nd.frame), u64 (u64 (nd.acc + i) <<< g.OFFSET_WIDTH)⟩
          (u64_lt _)).2
        apply hI
        refine ⟨q, j, nd', ?_, fun x hx => hqi x (List.mem_cons_of_mem _ hx), hj, hn, hc, ?_⟩
        · simpa using hq
        · simpa using hv

end HPageTable

namespace HPageTable

/-! ## What folding the visits computes -/

/-- The running maximum after a traversal. -/
theorem fold_max (g : Geometry) (l : List Visit) :
    ∀ sv : Survey,
      sv.maxUsedFrame ≤ (l.foldl (applyVisit g) sv).maxUsedFrame ∧
      (∀ c, Visit.ref c ∈ l → c ≤ (l.foldl (applyVisit g) sv).maxUsedFrame) ∧
      ((l.foldl (applyVisit g) sv).maxUsedFrame = sv.maxUsedFrame ∨
        Visit.ref (l.foldl (applyVisit g) sv).maxUsedFrame ∈ l) := by
  induction l with
  | nil => intro sv; simp
  | cons v l ih =>
    intro sv
    rw [List.foldl_cons]
    obtain ⟨h1, h2, h3⟩ := ih (applyVisit g sv v)
    cases v with
    | ref c =>
      have hv : (applyVisit g sv (Visit.ref c)).maxUsedFrame = max sv.maxUsedFrame c := by
        simp only [applyVisit]
        split
        · rename_i h; simp only []; omega
        · rename_i h; omega
      rw [hv] at h1 h3
      refine ⟨by omega, ?_, ?_⟩
      · intro c' hc'
        rcases List.mem_cons.1 hc' with h | h
        · cases h; omega
        · exact h2 c' h
      · rcases h3 with h | h
        · rcases le_total sv.maxUsedFrame c with hle | hle
          · rw [max_eq_right hle] at h
            right; rw [h]; simp
          · rw [max_eq_left hle] at h
            left; exact h
        · right; exact List.mem_cons_of_mem _ h
    | leaf ptr f sc pv =>
      have hv : (applyVisit g sv (Visit.leaf ptr f sc pv)).maxUsedFrame = sv.maxUsedFrame := by
        simp only [applyVisit]
        split <;> rfl
      rw [hv] at h1 h3
      refine ⟨h1, ?_, ?_⟩
      · intro c' hc'
        rcases List.mem_cons.1 hc' with h | h
        · cases h
        · exact h2 c' h
      · rcases h3 with h | h
        · left; exact h
        · right; exact List.mem_cons_of_mem _ h
    | empty ptr f =>
      have hv : (applyVisit g sv (Visit.empty ptr f)).maxUsedFrame = sv.maxUsedFrame := rfl
      rw [hv] at h1 h3
      refine ⟨h1, ?_, ?_⟩
      · intro c' hc'
        rcases List.mem_cons.1 hc' with h | h
        · cases h
        · exact h2 c' h
      · rcases h3 with h | h
        · left; exact h
        · right; exact List.mem_cons_of_mem _ h

/-- The empty-table outputs after a traversal: untouched when no empty table was
visited, else those of a visited one. -/
theorem fold_empty (g : Geometry) (l : List Visit) :
    ∀ sv : Survey,
      ((l.foldl (applyVisit g) sv).lastEmptyTable = sv.lastEmptyTable ∧
        (l.foldl (applyVisit g) sv).emptyTablePtr = sv.emptyTablePtr ∧
        ∀ ptr f, Visit.empty ptr f ∉ l) ∨
      (∃ ptr f, Visit.empty ptr f ∈ l ∧ (l.foldl (applyVisit g) sv).lastEmptyTable = f ∧
        (l.foldl (applyVisit g) sv).emptyTablePtr = ptr) := by
  induction l with
  | nil => intro sv; left; simp
  | cons v l ih =>
    intro sv
    rw [List.foldl_cons]
    rcases ih (applyVisit g sv v) with ⟨h1, h2, h3⟩ | ⟨ptr, f, h1, h2, h3⟩
    · cases v with
      | ref c =>
        left
        have e1 : (applyVisit g sv (Visit.ref c)).lastEmptyTable = sv.lastEmptyTable := by
          simp only [applyVisit]; split <;> rfl
        have e2 : (applyVisit g sv (Visit.ref c)).emptyTablePtr = sv.emptyTablePtr := by
          simp only [applyVisit]; split <;> rfl
        refine ⟨h1.trans e1, h2.trans e2, ?_⟩
        intro ptr f hm
        rcases List.mem_cons.1 hm with h | h
        · cases h
        · exact h3 ptr f h
      | leaf p f' sc pv =>
        left
        have e1 : (applyVisit g sv (Visit.leaf p f' sc pv)).lastEmptyTable = sv.lastEmptyTable := by
          simp only [applyVisit]; split <;> rfl
        have e2 : (applyVisit g sv (Visit.leaf p f' sc pv)).emptyTablePtr = sv.emptyTablePtr := by
          simp only [applyVisit]; split <;> rfl
        refine ⟨h1.trans e1, h2.trans e2, ?_⟩
        intro ptr f hm
        rcases List.mem_cons.1 hm with h | h
        · cases h
        · exact h3 ptr f h
      | empty p f' =>
        right
        exact ⟨p, f', by simp, h1, h2⟩
    · right
      exact ⟨ptr, f, List.mem_cons_of_mem _ h1, h2, h3⟩

theorem Chosen.cons {g : Geometry} {sv : Survey} {l : List Visit} (v : Visit)
    (h : Chosen g sv l) : Chosen g sv (v :: l) := by
  obtain ⟨ptr, f, sc, pv, h1, h2⟩ := h
  exact ⟨ptr, f, sc, pv, List.mem_cons_of_mem _ h1, h2⟩

/-- The victim outputs after a traversal. -/
theorem fold_leaf (g : Geometry) (l : List Visit) :
    ∀ sv : Survey,
      sv.highestScore ≤ (l.foldl (applyVisit g) sv).highestScore ∧
      (∀ ptr f sc pv, Visit.leaf ptr f sc pv ∈ l →
        leafTotal g f sc pv ≤ (l.foldl (applyVisit g) sv).highestScore) ∧
      (((l.foldl (applyVisit g) sv).highestScore = sv.highestScore ∧
          (l.foldl (applyVisit g) sv).virtualAddrRep = sv.virtualAddrRep ∧
          (l.foldl (applyVisit g) sv).toReplace = sv.toReplace) ∨
        Chosen g (l.foldl (applyVisit g) sv) l) := by
  induction l with
  | nil => intro sv; simp
  | cons v l ih =>
    intro sv
    rw [List.foldl_cons]
    obtain ⟨h1, h2, h3⟩ := ih (applyVisit g sv v)
    cases v with
    | ref c =>
      have e1 : (applyVisit g sv (Visit.ref c)).highestScore = sv.highestScore := by
        simp only [applyVisit]; split <;> rfl
      have e2 : (applyVisit g sv (Visit.ref c)).virtualAddrRep = sv.virtualAddrRep := by
        simp only [applyVisit]; split <;> rfl
      have e3 : (applyVisit g sv (Visit.ref c)).toReplace = sv.toReplace := by
        simp only [applyVisit]; split <;> rfl
      rw [e1] at h1
      rw [e1, e2, e3] at h3
      refine ⟨h1, ?_, ?_⟩
      · intro ptr f sc pv hm
        rcases List.mem_cons.1 hm with h | h
        · cases h
        · exact h2 ptr f sc pv h
      · rcases h3 with h | h
        · left; exact h
        · right; exact h.cons _
    | empty p f' =>
      refine ⟨h1, ?_, ?_⟩
      · intro ptr f sc pv hm
        rcases List.mem_cons.1 hm with h | h
        · cases h
        · exact h2 ptr f sc pv h
      · rcases h3 with h | h
        · left; exact h
        · right; exact h.cons _
    | leaf p f' sc' pv' =>
      by_cases hcond : leafTotal g f' sc' pv' > sv.highestScore ∨
          (leafTotal g f' sc' pv' = sv.highestScore ∧ leafVpn g pv' < sv.virtualAddrRep)
      · have hv : applyVisit g sv (Visit.leaf p f' sc' pv') =
            { sv with highestScore := leafTotal g f' sc' pv', virtualAddrRep := pv',
                      toReplace := p } := by
          simp only [applyVisit]; rw [if_pos hcond]
        rw [hv] at h1 h2 h3 ⊢
        dsimp only at h1 h3
        refine ⟨by rcases hcond with h | ⟨h, _⟩ <;> omega, ?_, ?_⟩
        · intro ptr f sc pv hm
          rcases List.mem_cons.1 hm with h | h
          · cases h; exact h1
          · exact h2 ptr f sc pv h
        · right
          rcases h3 with ⟨ha, hb, hc⟩ | h
          · exact ⟨p, f', sc', pv', by simp, hc, hb, ha⟩
          · exact h.cons _
      · have hv : applyVisit g sv (Visit.leaf p f' sc' pv') = sv := by
          simp only [applyVisit]; rw [if_neg hcond]
        rw [hv] at h1 h2 h3 ⊢
        refine ⟨h1, ?_, ?_⟩
        · intro ptr f sc pv hm
          rcases List.mem_cons.1 hm with h | h
          · cases h
            have : leafTotal g f' sc' pv' ≤ sv.highestScore := by
              by_contra hlt
              exact hcond (Or.inl (by omega))
            omega
          · exact h2 ptr f sc pv h
        · rcases h3 with h | h
          · left; exact h
          · right; exact h.cons _

/-- From the initial out-parameters of `treeLogic`, a traversal that visits a data page
leaves the victim outputs describing a visited data page. -/
theorem fold_leaf_chosen (g : Geometry) (l : List Visit) :
    ∀ sv : Survey, sv.highestScore = 0 → sv.virtualAddrRep = 2 ^ 64 - 1 →
      (∀ ptr f sc pv, Visit.leaf ptr f sc pv ∈ l → leafVpn g pv < 2 ^ 64 - 1) →
      (∃ ptr f sc pv, Visit.leaf ptr f sc pv ∈ l) →
      Chosen g (l.foldl (applyVisit g) sv) l := by
  induction l with
  | nil => intro sv _ _ _ h; simp at h
  | cons v l ih =>
    intro sv hs hr hb hex
    rw [List.foldl_cons]
    cases v with
    | ref c =>
      have e1 : (applyVisit g sv (Visit.ref c)).highestScore = sv.highestScore := by
        simp only [applyVisit]; split <;> rfl
      have e2 : (applyVisit g sv (Visit.ref c)).virtualAddrRep = sv.virtualAddrRep := by
        simp only [applyVisit]; split <;> rfl
      refine (ih _ (e1.trans hs) (e2.trans hr)
        (fun ptr f sc pv h => hb ptr f sc pv (List.mem_cons_of_mem _ h)) ?_).cons _
      obtain ⟨ptr, f, sc, pv, h⟩ := hex
      rcases List.mem_cons.1 h with h | h
      · cases h
      · exact ⟨ptr, f, sc, pv, h⟩
    | empty p f' =>
      have e1 : (applyVisit g sv (Visit.empty p f')).highestScore = sv.highestScore := rfl
      have e2 : (applyVisit g sv (Visit.empty p f')).virtualAddrRep = sv.virtualAddrRep := rfl
      refine (ih _ (e1.trans hs) (e2.trans hr)
        (fun ptr f sc pv h => hb ptr f sc pv (List.mem_cons_of_mem _ h)) ?_).cons _
      obtain ⟨ptr, f, sc, pv, h⟩ := hex
      rcases List.mem_cons.1 h with h | h
      · cases h
      · exact ⟨ptr, f, sc, pv, h⟩
    | leaf p f' sc' pv' =>
      have hcond : leafTotal g f' sc' pv' > sv.highestScore ∨
          (leafTotal g f' sc' pv' = sv.highestScore ∧ leafVpn g pv' < sv.virtualAddrRep) := by
        have := hb p f' sc' pv' (by simp)
        rw [hs, hr]
        omega
      have hv : applyVisit g sv (Visit.leaf p f' sc' pv') =
          { sv with highestScore := leafTotal g f' sc' pv', virtualAddrRep := pv',
                    toReplace := p } := by
        simp only [applyVisit]; rw [if_pos hcond]
      obtain ⟨_, _, h3⟩ := fold_leaf g l (applyVisit g sv (Visit.leaf p f' sc' pv'))
      rw [hv] at h3 ⊢
      rcases h3 with ⟨ha, hb', hc⟩ | h
      · exact ⟨p, f', sc', pv', by simp, hc, hb', ha⟩
      · exact h.cons _

end HPageTable

namespace HPageTable

/-! ## Page numbers -/

@[simp] theorem pageNum_nil (g : Geometry) : pageNum g [] = 0 := rfl

theorem pageNum_snoc (g : Geometry) (p : List Nat) (i : Nat) :
    pageNum g (p ++ [i]) = pageNum g p * g.PAGE_SIZE + i := by
  unfold pageNum
  rw [List.foldl_append]
  rfl

theorem pageNum_lt (g : Geometry) (p : List Nat) (hp : ∀ i ∈ p, i < g.PAGE_SIZE) :
    pageNum g p < g.PAGE_SIZE ^ p.length := by
  induction p using List.reverseRecOn with
  | nil => simp
  | append_singleton p i ih =>
    have h1 := ih (fun j hj => hp j (List.mem_append_left _ hj))
    have h2 : i < g.PAGE_SIZE := hp i (by simp)
    rw [pageNum_snoc, List.length_append, List.length_singleton, pow_succ]
    have : (pageNum g p + 1) * g.PAGE_SIZE ≤ g.PAGE_SIZE ^ p.length * g.PAGE_SIZE :=
      Nat.mul_le_mul_right _ h1
    have e : (pageNum g p + 1) * g.PAGE_SIZE = pageNum g p * g.PAGE_SIZE + g.PAGE_SIZE := by
      ring
    omega

theorem Geometry.pow_PAGE_SIZE (g : Geometry) (k : Nat) :
    g.PAGE_SIZE ^ k = 2 ^ (g.OFFSET_WIDTH * k) := by
  unfold Geometry.PAGE_SIZE
  rw [← pow_mul]

theorem Geometry.Valid.pow_le {g : Geometry} (hg : g.Valid) {k : Nat}
    (hk : k ≤ g.TABLES_DEPTH + 1) : g.PAGE_SIZE ^ k ≤ 2 ^ 64 := by
  rw [g.pow_PAGE_SIZE]
  apply Nat.pow_le_pow_right (by norm_num)
  have h1 : g.OFFSET_WIDTH * k ≤ g.OFFSET_WIDTH * (g.TABLES_DEPTH + 1) :=
    Nat.mul_le_mul_left _ hk
  have h2 := hg.width
  unfold Geometry.VIRTUAL_ADDRESS_WIDTH at h2
  omega

/-- A page number times `PAGE_SIZE` fits in a `uint64_t`. -/
theorem Geometry.Valid.pageNum_mul_lt {g : Geometry} (hg : g.Valid) {p : List Nat}
    (hp : ValidPath g p) : pageNum g p * g.PAGE_SIZE + g.PAGE_SIZE ≤ 2 ^ 64 := by
  have h1 := pageNum_lt g p hp.2
  have h2 : g.PAGE_SIZE ^ (p.length + 1) ≤ 2 ^ 64 := hg.pow_le (by have := hp.1; omega)
  rw [pow_succ] at h2
  have : (pageNum g p + 1) * g.PAGE_SIZE ≤ g.PAGE_SIZE ^ p.length * g.PAGE_SIZE :=
    Nat.mul_le_mul_right _ h1
  have e : (pageNum g p + 1) * g.PAGE_SIZE = pageNum g p * g.PAGE_SIZE + g.PAGE_SIZE := by
    ring
  omega

theorem Geometry.Valid.pageNum_lt_u64 {g : Geometry} (hg : g.Valid) {p : List Nat}
    (hp : ValidPath g p) : pageNum g p < 2 ^ 64 - 1 := by
  have h := hg.pageNum_mul_lt hp
  have h0 := g.PAGE_SIZE_pos
  by_cases h1 : g.PAGE_SIZE = 1
  · have hw : g.OFFSET_WIDTH = 0 := by
      unfold Geometry.PAGE_SIZE at h1
      by_contra hne
      have : 2 ^ 1 ≤ 2 ^ g.OFFSET_WIDTH := Nat.pow_le_pow_right (by norm_num) (by omega)
      omega
    have h2 := pageNum_lt g p hp.2
    rw [h1, one_pow] at h2
    omega
  · have : pageNum g p * 2 ≤ pageNum g p * g.PAGE_SIZE := Nat.mul_le_mul_left _ (by omega)
    omega

theorem leafVpn_eq {g : Geometry} (hg : g.Valid) {p : List Nat} (hp : ValidPath g p) :
    leafVpn g (pageNum g p) = pageNum g p := by
  unfold leafVpn
  rw [Nat.shiftLeft_eq]
  have h := hg.pageNum_mul_lt hp
  have h0 := g.PAGE_SIZE_pos
  have e : pageNum g p * 2 ^ g.OFFSET_WIDTH = pageNum g p * g.PAGE_SIZE := rfl
  rw [e, u64_of_lt (by omega), Nat.shiftRight_eq_div_pow]
  exact Nat.mul_div_cancel _ h0

/-! ## Calls of `treeDFS` and walks -/

theorem nodeFrom_frame (g : Geometry) (ram : Nat → Int) (q : List Nat) :
    ∀ o : Option Node,
      (nodeFrom g ram o q).map Node.frame = walkFrom g ram (o.map Node.frame) q := by
  induction q with
  | nil => intro o; rfl
  | cons i q ih =>
    intro o
    have e1 : nodeFrom g ram o (i :: q) =
        nodeFrom g ram (o.bind fun nd => descend g ram nd i) q := rfl
    have e2 : walkFrom g ram (o.map Node.frame) (i :: q) =
        walkFrom g ram ((o.map Node.frame).bind fun t => child g ram t i) q := rfl
    rw [e1, e2, ih]
    congr 1
    cases o with
    | none => rfl
    | some nd =>
      simp only [Option.some_bind, Option.map_some', descend]
      cases child g ram nd.frame i <;> rfl

theorem nodeFrom_root_frame (g : Geometry) (ram : Nat → Int) (q : List Nat) :
    (nodeFrom g ram (some rootNode) q).map Node.frame = walk g ram q :=
  nodeFrom_frame g ram q (some rootNode)

theorem nodeFrom_root_of_walk {g : Geometry} {ram : Nat → Int} {q : List Nat} {t : Nat}
    (h : walk g ram q = some t) :
    ∃ nd, nodeFrom g ram (some rootNode) q = some nd ∧ nd.frame = t := by
  have := nodeFrom_root_frame g ram q
  rw [h] at this
  cases hn : nodeFrom g ram (some rootNode) q with
  | none => rw [hn] at this; cases this
  | some nd =>
    rw [hn] at this
    exact ⟨nd, rfl, by simpa using this⟩

theorem walk_of_nodeFrom_root {g : Geometry} {ram : Nat → Int} {q : List Nat} {nd : Node}
    (h : nodeFrom g ram (some rootNode) q = some nd) : walk g ram q = some nd.frame := by
  rw [← nodeFrom_root_frame, h]
  rfl

/-- In a geometry that fits, the accumulator received by a call is the page-number
prefix of its path, shifted by `OFFSET_WIDTH`. -/
theorem nodeFrom_root_acc {g : Geometry} (hg : g.Valid) (ram : Nat → Int) (q : List Nat) :
    ValidPath g q → ∀ nd, nodeFrom g ram (some rootNode) q = some nd →
      nd.acc = pageNum g q * g.PAGE_SIZE := by
  induction q using List.reverseRecOn with
  | nil =>
    intro _ nd h
    simp only [nodeFrom_nil, Option.some.injEq] at h
    subst h
    simp [rootNode]
  | append_singleton q i ih =>
    intro hv nd h
    rw [nodeFrom_snoc] at h
    cases hq : nodeFrom g ram (some rootNode) q with
    | none => rw [hq] at h; cases h
    | some nd0 =>
      rw [hq, Option.some_bind] at h
      have h0 := ih hv.of_append nd0 hq
      unfold descend at h
      cases hc : child g ram nd0.frame i with
      | none => rw [hc] at h; cases h
      | some c =>
        rw [hc] at h
        simp only [Option.map_some', Option.some.injEq] at h
        subst h
        simp only []
        have hb := hg.pageNum_mul_lt hv
        have hb0 := hg.pageNum_mul_lt hv.of_append
        have hi : i < g.PAGE_SIZE := hv.2 i (by simp)
        rw [pageNum_snoc] at hb ⊢
        have e1 : u64 (pageNum g q * g.PAGE_SIZE + i) = pageNum g q * g.PAGE_SIZE + i :=
          u64_of_lt (by omega)
        have e : (pageNum g q * g.PAGE_SIZE + i) * 2 ^ g.OFFSET_WIDTH =
            (pageNum g q * g.PAGE_SIZE + i) * g.PAGE_SIZE := rfl
        rw [h0, e1, Nat.shiftLeft_eq, e, u64_of_lt (by have := g.PAGE_SIZE_pos; omega)]

/-! ## Live tables of a well-formed tree -/

/-- The frames of a well-formed tree are below `NUM_FRAMES`. -/
theorem PreTree.live_lt {g : Geometry} {ram : Nat → Int} (hg : g.Valid) (ht : PreTree g ram)
    (p : List Nat) : ValidPath g p → ∀ t, walk g ram p = some t → t < g.NUM_FRAMES := by
  induction p using List.reverseRecOn with
  | nil =>
    intro _ t h
    simp only [walk_nil, Option.some.injEq] at h
    subst h
    exact hg.frames_pos
  | append_singleton p i ih =>
    intro hv t h
    obtain ⟨hvp, hl, hi⟩ := ValidPath.snoc_iff.1 hv
    rw [walk_snoc] at h
    cases hp : walk g ram p with
    | none => rw [hp] at h; cases h
    | some t0 =>
      rw [hp, Option.some_bind] at h
      have ht0 := ih hvp t0 hp
      obtain ⟨c, hc, hcl⟩ := ht.range t0 i ⟨p, hvp, hl, hp, hi⟩
      unfold child at h
      rw [hg.u64_addr ht0 hi, hc] at h
      split at h
      · cases h
      · simp only [Option.some.injEq] at h
        rw [wordToU64_natCast (hg.frame_lt hcl)] at h
        omega

/-- Reading an entry of a live table of a well-formed tree. -/
theorem PreTree.live_child {g : Geometry} {ram : Nat → Int} (hg : g.Valid)
    (ht : PreTree g ram) {p : List Nat} {t i : Nat} (hv : ValidPath g p)
    (hl : p.length < g.TABLES_DEPTH) (hw : walk g ram p = some t) (hi : i < g.PAGE_SIZE) :
    ∃ c : Nat, c < g.NUM_FRAMES ∧ ram (t * g.PAGE_SIZE + i) = (c : Int) ∧
      u64 (t * g.PAGE_SIZE + i) = t * g.PAGE_SIZE + i ∧
      wordToU64 (ram (t * g.PAGE_SIZE + i)) = c ∧
      child g ram t i = if c = 0 then none else some c := by
  have ht0 := ht.live_lt hg p hv t hw
  obtain ⟨c, hc, hcl⟩ := ht.range t i ⟨p, hv, hl, hw, hi⟩
  refine ⟨c, hcl, hc, hg.u64_addr ht0 hi, ?_, ?_⟩
  · rw [hc, wordToU64_natCast (hg.frame_lt hcl)]
  · unfold child
    rw [hg.u64_addr ht0 hi, hc, wordToU64_natCast (hg.frame_lt hcl)]
    by_cases h0 : c = 0
    · simp [h0]
    · have : (c : Int) ≠ 0 := by exact_mod_cast h0
      simp [h0, this]

/-- The frames named by entries of a well-formed tree are not the root. -/
theorem PreTree.live_pos {g : Geometry} {ram : Nat → Int}
    (ht : PreTree g ram) {p : List Nat} {t : Nat} (hv : ValidPath g p) (hne : p ≠ [])
    (hw : walk g ram p = some t) : 1 ≤ t := by
  by_contra h
  have h0 : t = 0 := by omega
  subst h0
  exact hne (ht.inj p [] 0 hv (ValidPath.nil g) hw rfl)

end HPageTable

namespace HPageTable

/-! ## The survey from the root -/

theorem exists_snoc {α : Type} {p : List α} (h : p ≠ []) : ∃ q j, p = q ++ [j] := by
  rcases List.eq_nil_or_concat p with h0 | ⟨q, j, h1⟩
  · exact absurd h0 h
  · exact ⟨q, j, by rw [h1, List.concat_eq_append]⟩

theorem surveyOf_eq (g : Geometry) (st : WalkState) :
    surveyOf g st = survey g st.m.ram st.newTable st.maxFrameIndex := rfl

theorem visits_nil_of_empty (g : Geometry) (ram : Nat → Int) (toAvoid n cur cs a : Nat)
    (ha : a < 2 ^ 64) (he : TableEmpty g ram cur) :
    visits g ram toAvoid (n + 1) cur cs a = [] := by
  apply List.eq_nil_iff_forall_not_mem.2
  intro v hv
  rw [mem_visits_succ g ram toAvoid n cur cs a ha] at hv
  obtain ⟨i, hi, h⟩ := hv
  rw [mem_entryVisits] at h
  exact h.1 (he i hi)

/-- The survey folds the visits of the traversal from the root into the initial
out-parameters. -/
theorem survey_eq_fold (g : Geometry) (ram : Nat → Int) (toAvoid : Nat) (mfi : Int)
    (hTD : 0 < g.TABLES_DEPTH) :
    survey g ram toAvoid mfi =
      (rootVisits g ram toAvoid).foldl (applyVisit g) (surveyInit mfi) := by
  unfold survey rootVisits
  obtain ⟨n, hn⟩ : ∃ n, g.TABLES_DEPTH = n + 1 := ⟨g.TABLES_DEPTH - 1, by omega⟩
  rw [hn, treeDFS_table]
  by_cases he : TableEmpty g ram 0 ∧ 0 ≠ toAvoid
  · rw [if_pos he, visits_nil_of_empty g ram toAvoid n 0 0 0 (by norm_num) he.1]
    rfl
  · rw [if_neg he]

/-- A visit of the survey from the root, located in the tree. -/
theorem mem_rootVisits (g : Geometry) (ram : Nat → Int) (toAvoid : Nat) (v : Visit)
    (hTD : 0 < g.TABLES_DEPTH) :
    v ∈ rootVisits g ram toAvoid ↔
      ∃ (q : List Nat) (j : Nat) (nd : Node), q.length < g.TABLES_DEPTH ∧
        (∀ i ∈ q, i < g.PAGE_SIZE) ∧ j < g.PAGE_SIZE ∧
        nodeFrom g ram (some rootNode) q = some nd ∧
        ram (u64 (nd.frame * g.PAGE_SIZE + j)) ≠ 0 ∧
        VisitOf g ram toAvoid (g.TABLES_DEPTH - 1 - q.length) nd j v := by
  unfold rootVisits
  obtain ⟨n, hn⟩ : ∃ n, g.TABLES_DEPTH = n + 1 := ⟨g.TABLES_DEPTH - 1, by omega⟩
  rw [hn]
  have h := mem_visits_iff g ram toAvoid v n rootNode (by simp [rootNode])
  simp only [rootNode] at h
  rw [h]
  simp only [Nat.add_sub_cancel, Nat.lt_succ_iff, rootNode]

/-- What a located entry of a well-formed tree looks like. -/
theorem PreTree.entry_at {g : Geometry} {ram : Nat → Int} (hg : g.Valid) (ht : PreTree g ram)
    {q : List Nat} {j : Nat} {nd : Node} (hl : q.length < g.TABLES_DEPTH)
    (hq : ∀ i ∈ q, i < g.PAGE_SIZE) (hj : j < g.PAGE_SIZE)
    (hn : nodeFrom g ram (some rootNode) q = some nd) :
    ValidPath g q ∧ walk g ram q = some nd.frame ∧
    nd.acc = pageNum g q * g.PAGE_SIZE ∧
    u64 (nd.acc + j) = pageNum g (q ++ [j]) ∧
    ∃ c : Nat, c < g.NUM_FRAMES ∧ ram (nd.frame * g.PAGE_SIZE + j) = (c : Int) ∧
      u64 (nd.frame * g.PAGE_SIZE + j) = nd.frame * g.PAGE_SIZE + j ∧
      wordToU64 (ram (nd.frame * g.PAGE_SIZE + j)) = c ∧
      child g ram nd.frame j = if c = 0 then none else some c := by
  have hv : ValidPath g q := ⟨by omega, hq⟩
  have hw := walk_of_nodeFrom_root hn
  have hacc := nodeFrom_root_acc hg ram q hv nd hn
  refine ⟨hv, hw, hacc, ?_, ht.live_child hg hv hl hw hj⟩
  rw [pageNum_snoc, hacc]
  have := hg.pageNum_mul_lt hv
  exact u64_of_lt (by omega)

/-- A live path ends in a frame that the walk from its parent table names. -/
theorem walk_snoc_of_entry {g : Geometry} {ram : Nat → Int} {q : List Nat} {j t c : Nat}
    (hw : walk g ram q = some t) (hc : child g ram t j = if c = 0 then none else some c)
    (h0 : c ≠ 0) : walk g ram (q ++ [j]) = some c := by
  rw [walk_snoc, hw, Option.some_bind, hc, if_neg h0]

/-! ### The running maximum -/

/-- After the survey, `maxUsedFrame` bounds every live entry. -/
theorem survey_max_ge {g : Geometry} {ram : Nat → Int} (hg : g.Valid) (ht : PreTree g ram)
    (toAvoid : Nat) (mfi : Int) {t i : Nat} (hle : LiveEntry g ram t i) :
    ram (t * g.PAGE_SIZE + i) ≤ (survey g ram toAvoid mfi).maxUsedFrame ∨
      ram (t * g.PAGE_SIZE + i) = 0 := by
  obtain ⟨p, hv, hl, hw, hi⟩ := hle
  have hTD : 0 < g.TABLES_DEPTH := by omega
  by_cases h0 : ram (t * g.PAGE_SIZE + i) = 0
  · exact Or.inr h0
  · left
    rw [survey_eq_fold g ram toAvoid mfi hTD]
    apply (fold_max g _ _).2.1
    rw [mem_rootVisits g ram toAvoid _ hTD]
    obtain ⟨nd, hn, hf⟩ := nodeFrom_root_of_walk hw
    subst hf
    obtain ⟨_, _, _, _, c, _, _, hu, _, _⟩ := ht.entry_at hg hl hv.2 hi hn
    refine ⟨p, i, nd, hl, hv.2, hi, hn, by rw [hu]; exact h0, Or.inl ?_⟩
    rw [hu]

/-- After the survey, `maxUsedFrame` is its initial value or a live entry. -/
theorem survey_max_mem {g : Geometry} {ram : Nat → Int} (hg : g.Valid) (ht : PreTree g ram)
    (toAvoid : Nat) (mfi : Int) (hTD : 0 < g.TABLES_DEPTH) :
    (survey g ram toAvoid mfi).maxUsedFrame = mfi ∨
      ∃ t i, LiveEntry g ram t i ∧
        ram (t * g.PAGE_SIZE + i) = (survey g ram toAvoid mfi).maxUsedFrame ∧
        (survey g ram toAvoid mfi).maxUsedFrame ≠ 0 := by
  rw [survey_eq_fold g ram toAvoid mfi hTD]
  rcases (fold_max g (rootVisits g ram toAvoid) (surveyInit mfi)).2.2 with h | h
  · left; exact h
  · right
    rw [mem_rootVisits g ram toAvoid _ hTD] at h
    obtain ⟨q, j, nd, hl, hq, hj, hn, hc, hv⟩ := h
    obtain ⟨hvq, hw, _, _, c, _, _, hu, _, _⟩ := ht.entry_at hg hl hq hj hn
    rcases hv with h | ⟨_, h⟩ | ⟨_, _, _, h⟩
    · simp only [Visit.ref.injEq] at h
      rw [hu] at h hc
      refine ⟨nd.frame, j, ⟨q, hvq, hl, hw, hj⟩, h.symm, ?_⟩
      rw [h]; exact hc
    · cases h
    · cases h

theorem survey_max_le (g : Geometry) (ram : Nat → Int) (toAvoid : Nat) (mfi : Int)
    (hTD : 0 < g.TABLES_DEPTH) : mfi ≤ (survey g ram toAvoid mfi).maxUsedFrame := by
  rw [survey_eq_fold g ram toAvoid mfi hTD]
  exact (fold_max g _ _).1

/-! ### The empty-table outputs -/

/-- An `empty` visit of the survey, located in a well-formed tree. -/
theorem empty_visit_at {g : Geometry} {ram : Nat → Int} (hg : g.Valid) (ht : PreTree g ram)
    (toAvoid : Nat) (hTD : 0 < g.TABLES_DEPTH) {ptr f : Nat}
    (h : Visit.empty ptr f ∈ rootVisits g ram toAvoid) :
    ∃ q j t, ValidPath g q ∧ q.length + 1 < g.TABLES_DEPTH ∧ j < g.PAGE_SIZE ∧
      walk g ram q = some t ∧ walk g ram (q ++ [j]) = some f ∧ ptr = t * g.PAGE_SIZE + j ∧
      ram (t * g.PAGE_SIZE + j) = (f : Int) ∧ 1 ≤ f ∧ f < g.NUM_FRAMES ∧
      TableEmpty g ram f ∧ f ≠ toAvoid := by
  rw [mem_rootVisits g ram toAvoid _ hTD] at h
  obtain ⟨q, j, nd, hl, hq, hj, hn, hc, hv⟩ := h
  obtain ⟨hvq, hw, _, _, c, hcl, hcr, hu, hwc, hch⟩ := ht.entry_at hg hl hq hj hn
  rcases hv with h | ⟨_, h⟩ | ⟨hr, he, hne, h⟩
  · cases h
  · cases h
  · simp only [Visit.empty.injEq] at h
    rw [hu] at h hc he hne
    rw [hwc] at h he hne
    have hc0 : c ≠ 0 := by
      intro h0
      rw [hcr, h0] at hc
      exact hc rfl
    obtain ⟨h1, h2⟩ := h
    subst h2
    exact ⟨q, j, nd.frame, hvq, by omega, hj, hw, walk_snoc_of_entry hw hch hc0, h1, hcr,
      by omega, hcl, he, hne⟩

/-- A non-zero `lastEmptyTable` after the survey names a live empty table other than
`toAvoid`, and `emptyTablePtr` is the address of the entry pointing to it. -/
theorem survey_empty_sound {g : Geometry} {ram : Nat → Int} (hg : g.Valid)
    (ht : PreTree g ram) (toAvoid : Nat) (mfi : Int) (hTD : 0 < g.TABLES_DEPTH)
    (h : (survey g ram toAvoid mfi).lastEmptyTable ≠ 0) :
    ∃ q j t, ValidPath g q ∧ q.length + 1 < g.TABLES_DEPTH ∧ j < g.PAGE_SIZE ∧
      walk g ram q = some t ∧
      walk g ram (q ++ [j]) = some (survey g ram toAvoid mfi).lastEmptyTable ∧
      (survey g ram toAvoid mfi).emptyTablePtr = t * g.PAGE_SIZE + j ∧
      ram (t * g.PAGE_SIZE + j) = ((survey g ram toAvoid mfi).lastEmptyTable : Int) ∧
      1 ≤ (survey g ram toAvoid mfi).lastEmptyTable ∧
      (survey g ram toAvoid mfi).lastEmptyTable < g.NUM_FRAMES ∧
      TableEmpty g ram (survey g ram toAvoid mfi).lastEmptyTable ∧
      (survey g ram toAvoid mfi).lastEmptyTable ≠ toAvoid := by
  rw [survey_eq_fold g ram toAvoid mfi hTD] at h ⊢
  rcases fold_empty g (rootVisits g ram toAvoid) (surveyInit mfi) with ⟨h1, _, _⟩ | ⟨ptr, f, hm, h1, h2⟩
  · exact absurd h1 h
  · rw [h1, h2]
    exact empty_visit_at hg ht toAvoid hTD hm

/-- A zero `lastEmptyTable` after the survey: every live empty table below the root is
`toAvoid`. -/
theorem survey_empty_complete {g : Geometry} {ram : Nat → Int} (hg : g.Valid)
    (ht : PreTree g ram) (toAvoid : Nat) (mfi : Int)
    (h : (survey g ram toAvoid mfi).lastEmptyTable = 0)
    {p : List Nat} {f : Nat} (hv : ValidPath g p) (hne : p ≠ [])
    (hl : p.length < g.TABLES_DEPTH) (hw : walk g ram p = some f)
    (he : TableEmpty g ram f) : f = toAvoid := by
  have hTD : 0 < g.TABLES_DEPTH := by omega
  by_contra hfa
  rw [survey_eq_fold g ram toAvoid mfi hTD] at h
  obtain ⟨q, j, rfl⟩ := exists_snoc hne
  obtain ⟨hvq, hlq, hj⟩ := ValidPath.snoc_iff.1 hv
  obtain ⟨t, hwq⟩ := walk_prefix_some hw
  obtain ⟨nd, hn, hf⟩ := nodeFrom_root_of_walk hwq
  subst hf
  obtain ⟨_, _, _, _, c, hcl, hcr, hu, hwc, hch⟩ := ht.entry_at hg hlq hvq.2 hj hn
  have hc0 : c ≠ 0 := by
    intro h0
    rw [walk_snoc, hwq, Option.some_bind, hch, if_pos h0] at hw
    cases hw
  have hfc : f = c := by
    rw [walk_snoc_of_entry hwq hch hc0] at hw
    exact (Option.some.inj hw).symm
  subst hfc
  have hm : Visit.empty (nd.frame * g.PAGE_SIZE + j) f ∈ rootVisits g ram toAvoid := by
    rw [mem_rootVisits g ram toAvoid _ hTD]
    refine ⟨q, j, nd, hlq, hvq.2, hj, hn, ?_, Or.inr (Or.inr ⟨?_, ?_, ?_, ?_⟩)⟩
    · rw [hu, hcr]; exact_mod_cast hc0
    · rw [List.length_append, List.length_singleton] at hl; omega
    · rw [hu, hwc]; exact he
    · rw [hu, hwc]; exact hfa
    · rw [hu, hwc]
  rcases fold_empty g (rootVisits g ram toAvoid) (surveyInit mfi) with ⟨_, _, h3⟩ | ⟨ptr, f', hm', h1, _⟩
  · exact h3 _ _ hm
  · obtain ⟨_, _, _, _, _, _, _, _, _, hpos, _⟩ := empty_visit_at hg ht toAvoid hTD hm'
    omega

/-! ### The victim outputs -/

/-- A `leaf` visit of the survey, located in a well-formed tree. -/
theorem leaf_visit_at {g : Geometry} {ram : Nat → Int} (hg : g.Valid) (ht : PreTree g ram)
    (toAvoid : Nat) (hTD : 0 < g.TABLES_DEPTH) {ptr f sc pv : Nat}
    (h : Visit.leaf ptr f sc pv ∈ rootVisits g ram toAvoid) :
    ∃ q j nd, ValidPath g (q ++ [j]) ∧ q.length + 1 = g.TABLES_DEPTH ∧
      nodeFrom g ram (some rootNode) q = some nd ∧
      walk g ram q = some nd.frame ∧ walk g ram (q ++ [j]) = some f ∧
      ptr = nd.frame * g.PAGE_SIZE + j ∧
      ram (nd.frame * g.PAGE_SIZE + j) = (f : Int) ∧ 1 ≤ f ∧ f < g.NUM_FRAMES ∧
      pv = pageNum g (q ++ [j]) ∧ sc = u32 (nd.score + weight g nd.frame) := by
  rw [mem_rootVisits g ram toAvoid _ hTD] at h
  obtain ⟨q, j, nd, hl, hq, hj, hn, hc, hv⟩ := h
  obtain ⟨hvq, hw, _, hpv, c, hcl, hcr, hu, hwc, hch⟩ := ht.entry_at hg hl hq hj hn
  rcases hv with h | ⟨hr, h⟩ | ⟨_, _, _, h⟩
  · cases h
  · simp only [Visit.leaf.injEq] at h
    rw [hu] at h hc
    rw [hwc] at h
    have hc0 : c ≠ 0 := by
      intro h0
      rw [hcr, h0] at hc
      exact hc rfl
    obtain ⟨h1, h2, h3, h4⟩ := h
    subst h2
    exact ⟨q, j, nd, hvq.snoc hl hj, by omega, hn, hw, walk_snoc_of_entry hw hch hc0, h1, hcr,
      by omega, hcl, by rw [h4, hpv], h3⟩
  · cases h

/-- A live data page is visited by the survey. -/
theorem leaf_visit_of_walk {g : Geometry} {ram : Nat → Int} (hg : g.Valid)
    (ht : PreTree g ram) (toAvoid : Nat) {p : List Nat} {f : Nat} (hv : ValidPath g p)
    (hl : p.length = g.TABLES_DEPTH) (hTD : 0 < g.TABLES_DEPTH) (hw : walk g ram p = some f) :
    ∃ ptr sc, Visit.leaf ptr f sc (pageNum g p) ∈ rootVisits g ram toAvoid := by
  obtain ⟨q, j, rfl⟩ := exists_snoc (p := p) (by
    intro h; rw [h] at hl; simp at hl; omega)
  obtain ⟨hvq, hlq, hj⟩ := ValidPath.snoc_iff.1 hv
  obtain ⟨t, hwq⟩ := walk_prefix_some hw
  obtain ⟨nd, hn, hf⟩ := nodeFrom_root_of_walk hwq
  subst hf
  obtain ⟨_, _, _, hpv, c, hcl, hcr, hu, hwc, hch⟩ := ht.entry_at hg hlq hvq.2 hj hn
  have hc0 : c ≠ 0 := by
    intro h0
    rw [walk_snoc, hwq, Option.some_bind, hch, if_pos h0] at hw
    cases hw
  have hfc : f = c := by
    rw [walk_snoc_of_entry hwq hch hc0] at hw
    exact (Option.some.inj hw).symm
  subst hfc
  refine ⟨nd.frame * g.PAGE_SIZE + j, u32 (nd.score + weight g nd.frame), ?_⟩
  rw [mem_rootVisits g ram toAvoid _ hTD]
  refine ⟨q, j, nd, hlq, hvq.2, hj, hn, ?_, Or.inr (Or.inl ⟨?_, ?_⟩)⟩
  · rw [hu, hcr]; exact_mod_cast hc0
  · rw [List.length_append, List.length_singleton] at hl; omega
  · rw [hu, hwc, hpv]

/-- When the tree holds a data page, the victim outputs of the survey are the entry
address and the page number of a live data page. -/
theorem survey_victim {g : Geometry} {ram : Nat → Int} (hg : g.Valid) (ht : PreTree g ram)
    (toAvoid : Nat) (mfi : Int) {p : List Nat} {f : Nat} (hv : ValidPath g p)
    (hl : p.length = g.TABLES_DEPTH) (hTD : 0 < g.TABLES_DEPTH) (hw : walk g ram p = some f) :
    ∃ q j t L, ValidPath g (q ++ [j]) ∧ q.length + 1 = g.TABLES_DEPTH ∧
      walk g ram q = some t ∧ walk g ram (q ++ [j]) = some L ∧
      (survey g ram toAvoid mfi).toReplace = t * g.PAGE_SIZE + j ∧
      ram (t * g.PAGE_SIZE + j) = (L : Int) ∧ 1 ≤ L ∧ L < g.NUM_FRAMES ∧
      (survey g ram toAvoid mfi).virtualAddrRep = pageNum g (q ++ [j]) := by
  rw [survey_eq_fold g ram toAvoid mfi hTD]
  have hch := fold_leaf_chosen g (rootVisits g ram toAvoid) (surveyInit mfi) rfl rfl
    (by
      intro ptr f' sc pv hm
      obtain ⟨q, j, nd, hvq, _, _, _, _, _, _, _, _, hpv, _⟩ := leaf_visit_at hg ht toAvoid hTD hm
      rw [hpv, leafVpn_eq hg hvq]
      exact hg.pageNum_lt_u64 hvq)
    (by
      obtain ⟨ptr, sc, hm⟩ := leaf_visit_of_walk hg ht toAvoid hv hl hTD hw
      exact ⟨ptr, f, sc, _, hm⟩)
  obtain ⟨ptr, f', sc, pv, hm, h1, h2, _⟩ := hch
  obtain ⟨q, j, nd, hvq, hlq, _, hwq, hwl, hptr, hr, hpos, hlt, hpv, _⟩ :=
    leaf_visit_at hg ht toAvoid hTD hm
  exact ⟨q, j, nd.frame, f', hvq, hlq, hwq, hwl, by rw [h1, hptr], hr, hpos, hlt, by rw [h2, hpv]⟩

end HPageTable

namespace HPageTable

/-! ## Walks under changes of physical memory -/

theorem child_congr {g : Geometry} {ram ram' : Nat → Int} {t i : Nat}
    (h : ram' (u64 (t * g.PAGE_SIZE + i)) = ram (u64 (t * g.PAGE_SIZE + i))) :
    child g ram' t i = child g ram t i := by
  unfold child
  rw [h]

/-- Walks only read the entries of live tables. -/
theorem walk_congr {g : Geometry} {ram ram' : Nat → Int}
    (h : ∀ q t i, ValidPath g q → q.length < g.TABLES_DEPTH → walk g ram q = some t →
      i < g.PAGE_SIZE → child g ram' t i = child g ram t i) :
    ∀ p, ValidPath g p → walk g ram' p = walk g ram p := by
  intro p
  induction p using List.reverseRecOn with
  | nil => intro _; rfl
  | append_singleton p i ih =>
    intro hv
    obtain ⟨hvp, hl, hi⟩ := ValidPath.snoc_iff.1 hv
    rw [walk_snoc, walk_snoc, ih hvp]
    cases hp : walk g ram p with
    | none => rfl
    | some t => exact h p t i hvp hl hp hi

theorem frame_of_addr {P F t i : Nat} (h1 : F * P ≤ t * P + i) (h2 : t * P + i < F * P + P)
    (hi : i < P) : t = F := by
  by_contra hne
  rcases Nat.lt_or_gt_of_ne hne with h | h
  · have : (t + 1) * P ≤ F * P := Nat.mul_le_mul_right _ h
    have e : (t + 1) * P = t * P + P := by ring
    omega
  · have : (F + 1) * P ≤ t * P := Nat.mul_le_mul_right _ h
    have e : (F + 1) * P = F * P + P := by ring
    omega

theorem not_snoc_prefix_nil {α : Type} (q : List α) (j : α) : ¬ (q ++ [j]) <+: [] := by
  intro h
  have := List.prefix_nil.1 h
  simp at this

theorem snoc_eq_snoc {α : Type} {p q : List α} {i j : α} (h : p ++ [i] = q ++ [j]) :
    p = q ∧ i = j := by
  have := List.append_inj' h rfl
  exact ⟨this.1, by simpa using this.2⟩

/-! ### Detaching an entry -/

/-- Zeroing one live entry kills exactly the walks through it. -/
theorem detach_walk {g : Geometry} (hg : g.Valid) {ram ram1 : Nat → Int} (ht : PreTree g ram)
    {q0 : List Nat} {j0 t0 : Nat} (hv0 : ValidPath g q0) (hj0 : j0 < g.PAGE_SIZE)
    (hw0 : walk g ram q0 = some t0)
    (h0 : ram1 (t0 * g.PAGE_SIZE + j0) = 0)
    (hsame : ∀ a, a ≠ t0 * g.PAGE_SIZE + j0 → ram1 a = ram a) :
    ∀ p, ValidPath g p →
      walk g ram1 p = if (q0 ++ [j0]) <+: p then none else walk g ram p := by
  have ht0 := ht.live_lt hg q0 hv0 t0 hw0
  intro p
  induction p using List.reverseRecOn with
  | nil =>
    intro _
    rw [if_neg (not_snoc_prefix_nil q0 j0)]
    rfl
  | append_singleton p i ih =>
    intro hv
    obtain ⟨hvp, hl, hi⟩ := ValidPath.snoc_iff.1 hv
    rw [walk_snoc, walk_snoc, ih hvp]
    by_cases hpre : (q0 ++ [j0]) <+: p
    · rw [if_pos hpre, if_pos (hpre.trans (List.prefix_append p [i]))]
      rfl
    · rw [if_neg hpre]
      cases hp : walk g ram p with
      | none =>
        simp only [Option.none_bind, ite_self]
      | some t =>
        rw [Option.some_bind]
        have htl := ht.live_lt hg p hvp t hp
        by_cases heq : p ++ [i] = q0 ++ [j0]
        · obtain ⟨e1, e2⟩ := snoc_eq_snoc heq
          subst e1; subst e2
          rw [hp] at hw0
          cases hw0
          rw [if_pos (List.prefix_refl _)]
          unfold child
          rw [hg.u64_addr htl hi, h0, if_pos rfl]
        · have hnp : ¬ (q0 ++ [j0]) <+: (p ++ [i]) := by
            intro hh
            rcases List.prefix_concat_iff.1 hh with h | h
            · exact heq h.symm
            · exact hpre h
          rw [if_neg hnp, Option.some_bind]
          apply child_congr
          rw [hg.u64_addr htl hi]
          apply hsame
          intro ha
          obtain ⟨e1, e2⟩ := addr_inj hi hj0 ha
          subst e1; subst e2
          exact heq (by rw [ht.inj p q0 t hvp hv0 hp hw0])

/-- Zeroing one live entry keeps the shape of the tree. -/
theorem detach_pre {g : Geometry} (hg : g.Valid) {ram ram1 : Nat → Int} (ht : PreTree g ram)
    {q0 : List Nat} {j0 t0 : Nat} (hv0 : ValidPath g q0) (hj0 : j0 < g.PAGE_SIZE)
    (hw0 : walk g ram q0 = some t0)
    (h0 : ram1 (t0 * g.PAGE_SIZE + j0) = 0)
    (hsame : ∀ a, a ≠ t0 * g.PAGE_SIZE + j0 → ram1 a = ram a) : PreTree g ram1 := by
  have hw := detach_walk hg ht hv0 hj0 hw0 h0 hsame
  have hold : ∀ p f, ValidPath g p → walk g ram1 p = some f → walk g ram p = some f := by
    intro p f hv h
    rw [hw p hv] at h
    split at h
    · cases h
    · exact h
  constructor
  · rintro t i ⟨p, hv, hl, hwp, hi⟩
    by_cases ha : t * g.PAGE_SIZE + i = t0 * g.PAGE_SIZE + j0
    · exact ⟨0, by rw [ha, h0]; rfl, hg.frames_pos⟩
    · rw [hsame _ ha]
      exact ht.range t i ⟨p, hv, hl, hold p t hv hwp, hi⟩
  · intro p q f hvp hvq hp hq
    exact ht.inj p q f hvp hvq (hold p f hvp hp) (hold q f hvq hq)

/-! ### Attaching a frame -/

/-- Linking an unreferenced frame `F` at entry `s` of the live table `cur` and
overwriting frame `F` (with zeros when it becomes a table): the walks afterwards. -/
theorem attach_walk {g : Geometry} (hg : g.Valid) {ram1 ram2 : Nat → Int}
    (ht : PreTree g ram1) {p0 : List Nat} {s cur F : Nat} (hv0 : ValidPath g p0)
    (hs : s < g.PAGE_SIZE) (hw0 : walk g ram1 p0 = some cur)
    (hFl : F < g.NUM_FRAMES)
    (hun : ∀ p, ValidPath g p → walk g ram1 p ≠ some F)
    (hptr : ram2 (cur * g.PAGE_SIZE + s) = (F : Int)) (hF0 : F ≠ 0)
    (hsame : ∀ a, a ≠ cur * g.PAGE_SIZE + s →
      ¬ (F * g.PAGE_SIZE ≤ a ∧ a < F * g.PAGE_SIZE + g.PAGE_SIZE) → ram2 a = ram1 a)
    (hzero : p0.length + 1 < g.TABLES_DEPTH → ∀ i, i < g.PAGE_SIZE →
      ram2 (F * g.PAGE_SIZE + i) = 0) :
    ∀ p, ValidPath g p →
      walk g ram2 p = if p = p0 ++ [s] then some F
        else if (p0 ++ [s]) <+: p then none else walk g ram1 p := by
  have hcur := ht.live_lt hg p0 hv0 cur hw0
  intro p
  induction p using List.reverseRecOn with
  | nil =>
    intro _
    rw [if_neg (by simp), if_neg (not_snoc_prefix_nil p0 s)]
    rfl
  | append_singleton p i ih =>
    intro hv
    obtain ⟨hvp, hl, hi⟩ := ValidPath.snoc_iff.1 hv
    rw [walk_snoc, ih hvp]
    by_cases hA : p = p0 ++ [s]
    · have hne : p ++ [i] ≠ p0 ++ [s] := by
        intro h
        have := congrArg List.length h
        rw [hA] at this
        simp at this
      rw [if_pos hA, if_neg hne, if_pos (by rw [hA]; exact List.prefix_append _ _),
        Option.some_bind]
      unfold child
      have hl' : p0.length + 1 < g.TABLES_DEPTH := by
        rw [hA, List.length_append, List.length_singleton] at hl
        exact hl
      rw [hg.u64_addr hFl hi, hzero hl' i hi, if_pos rfl]
    · rw [if_neg hA]
      by_cases hB : (p0 ++ [s]) <+: p
      · have hne : p ++ [i] ≠ p0 ++ [s] := by
          intro h
          obtain ⟨e1, _⟩ := snoc_eq_snoc h
          rw [e1] at hB
          have := hB.length_le
          simp at this
        rw [if_pos hB, if_neg hne, if_pos (hB.trans (List.prefix_append p [i]))]
        rfl
      · rw [if_neg hB]
        cases hp : walk g ram1 p with
        | none =>
          have hne : p ++ [i] ≠ p0 ++ [s] := by
            intro h
            obtain ⟨e1, _⟩ := snoc_eq_snoc h
            rw [e1, hw0] at hp
            cases hp
          have hnp : ¬ (p0 ++ [s]) <+: (p ++ [i]) := by
            intro hh
            rcases List.prefix_concat_iff.1 hh with h | h
            · exact hne h.symm
            · exact hB h
          rw [if_neg hne, if_neg hnp, walk_snoc, hp]
          rfl
        | some t =>
          rw [Option.some_bind]
          have htl := ht.live_lt hg p hvp t hp
          have htF : t ≠ F := fun e => hun p hvp (e ▸ hp)
          by_cases heq : p ++ [i] = p0 ++ [s]
          · obtain ⟨e1, e2⟩ := snoc_eq_snoc heq
            subst e1; subst e2
            rw [hp] at hw0
            cases hw0
            rw [if_pos rfl]
            unfold child
            have hFi : (F : Int) ≠ 0 := by exact_mod_cast hF0
            rw [hg.u64_addr htl hi, hptr, if_neg hFi, wordToU64_natCast (hg.frame_lt hFl)]
          · have hnp : ¬ (p0 ++ [s]) <+: (p ++ [i]) := by
              intro hh
              rcases List.prefix_concat_iff.1 hh with h | h
              · exact heq h.symm
              · exact hB h
            rw [if_neg heq, if_neg hnp, walk_snoc, hp, Option.some_bind]
            apply child_congr
            rw [hg.u64_addr htl hi]
            apply hsame
            · intro ha
              obtain ⟨e1, e2⟩ := addr_inj hi hs ha
              subst e1; subst e2
              exact heq (by rw [ht.inj p p0 t hvp hv0 hp hw0])
            · rintro ⟨h1, h2⟩
              exact htF (frame_of_addr h1 h2 hi)

/-- Linking an unreferenced frame keeps the shape of the tree. -/
theorem attach_pre {g : Geometry} (hg : g.Valid) {ram1 ram2 : Nat → Int}
    (ht : PreTree g ram1) {p0 : List Nat} {s cur F : Nat} (hv0 : ValidPath g p0)
    (hs : s < g.PAGE_SIZE) (hw0 : walk g ram1 p0 = some cur)
    (hFl : F < g.NUM_FRAMES)
    (hun : ∀ p, ValidPath g p → walk g ram1 p ≠ some F)
    (hptr : ram2 (cur * g.PAGE_SIZE + s) = (F : Int)) (hF0 : F ≠ 0)
    (hsame : ∀ a, a ≠ cur * g.PAGE_SIZE + s →
      ¬ (F * g.PAGE_SIZE ≤ a ∧ a < F * g.PAGE_SIZE + g.PAGE_SIZE) → ram2 a = ram1 a)
    (hzero : p0.length + 1 < g.TABLES_DEPTH → ∀ i, i < g.PAGE_SIZE →
      ram2 (F * g.PAGE_SIZE + i) = 0) : PreTree g ram2 := by
  have hw := attach_walk hg ht hv0 hs hw0 hFl hun hptr hF0 hsame hzero
  constructor
  · rintro t i ⟨p, hv, hl, hwp, hi⟩
    rw [hw p hv] at hwp
    by_cases hA : p = p0 ++ [s]
    · rw [if_pos hA] at hwp
      cases hwp
      have hl' : p0.length + 1 < g.TABLES_DEPTH := by
        rw [hA, List.length_append, List.length_singleton] at hl
        exact hl
      exact ⟨0, by rw [hzero hl' i hi]; rfl, hg.frames_pos⟩
    · rw [if_neg hA] at hwp
      split at hwp
      · cases hwp
      · by_cases ha : t * g.PAGE_SIZE + i = cur * g.PAGE_SIZE + s
        · exact ⟨F, by rw [ha, hptr], hFl⟩
        · have htF : t ≠ F := fun e => hun p hv (e ▸ hwp)
          rw [hsame _ ha (fun ⟨h1, h2⟩ => htF (frame_of_addr h1 h2 hi))]
          exact ht.range t i ⟨p, hv, hl, hwp, hi⟩
  · intro p q f hvp hvq hp hq
    rw [hw p hvp] at hp
    rw [hw q hvq] at hq
    by_cases hA : p = p0 ++ [s]
    · rw [if_pos hA] at hp
      cases hp
      by_cases hB : q = p0 ++ [s]
      · rw [hA, hB]
      · rw [if_neg hB] at hq
        split at hq
        · cases hq
        · exact absurd hq (hun q hvq)
    · rw [if_neg hA] at hp
      split at hp
      · cases hp
      · by_cases hB : q = p0 ++ [s]
        · rw [if_pos hB] at hq
          cases hq
          exact absurd hp (hun p hvp)
        · rw [if_neg hB] at hq
          split at hq
          · cases hq
          · exact ht.inj p q f hvp hvq hp hq

end HPageTable

namespace HPageTable

/-! ## Counting frames -/

theorem exists_not_mem_of_length_lt (L : List Nat) (n : Nat) (h : L.length < n) :
    ∃ f, 1 ≤ f ∧ f ≤ n ∧ f ∉ L := by
  by_contra hcon
  push_neg at hcon
  have hsub : Finset.Icc 1 n ⊆ L.toFinset := by
    intro f hf
    rw [Finset.mem_Icc] at hf
    rw [List.mem_toFinset]
    exact hcon f hf.1 hf.2
  have h1 := Finset.card_le_card hsub
  rw [Nat.card_Icc] at h1
  have h2 := List.toFinset_card_le L
  omega

/-! ## Referenced frames -/

/-- A referenced frame is the value of a live entry. -/
theorem Referenced.entry {g : Geometry} {ram : Nat → Int} (hg : g.Valid) (ht : PreTree g ram)
    {f : Nat} (h : Referenced g ram f) :
    ∃ t i, LiveEntry g ram t i ∧ ram (t * g.PAGE_SIZE + i) = (f : Int) ∧ 1 ≤ f ∧
      f < g.NUM_FRAMES := by
  obtain ⟨p, hv, hne, hw⟩ := h
  obtain ⟨q, j, rfl⟩ := exists_snoc hne
  obtain ⟨hvq, hl, hj⟩ := ValidPath.snoc_iff.1 hv
  obtain ⟨t, hwq⟩ := walk_prefix_some hw
  obtain ⟨c, hcl, hcr, _, _, hch⟩ := ht.live_child hg hvq hl hwq hj
  have hc0 : c ≠ 0 := by
    intro h0
    rw [walk_snoc, hwq, Option.some_bind, hch, if_pos h0] at hw
    cases hw
  have hfc : f = c := by
    rw [walk_snoc_of_entry hwq hch hc0] at hw
    exact (Option.some.inj hw).symm
  subst hfc
  exact ⟨t, j, ⟨q, hvq, hl, hwq, hj⟩, hcr, by omega, hcl⟩

/-- The non-zero value of a live entry is a referenced frame. -/
theorem Referenced.of_entry {g : Geometry} {ram : Nat → Int} (hg : g.Valid)
    (ht : PreTree g ram) {t i : Nat} (hle : LiveEntry g ram t i)
    (h0 : ram (t * g.PAGE_SIZE + i) ≠ 0) :
    ∃ f : Nat, ram (t * g.PAGE_SIZE + i) = (f : Int) ∧ Referenced g ram f := by
  obtain ⟨p, hv, hl, hw, hi⟩ := hle
  obtain ⟨c, hcl, hcr, _, _, hch⟩ := ht.live_child hg hv hl hw hi
  have hc0 : c ≠ 0 := by
    intro h
    rw [hcr, h] at h0
    exact h0 rfl
  exact ⟨c, hcr, p ++ [i], hv.snoc hl hi, by simp, walk_snoc_of_entry hw hch hc0⟩

/-! ## A data page or an empty table off the current path -/

/-- Below a live frame that is not on the path `p0` there is a data page, or an empty
table that is not on `p0` either. -/
theorem descend_to_leaf {g : Geometry} {ram : Nat → Int} (p0 : List Nat) :
    ∀ (k : Nat) (pf : List Nat) (X : Nat), ValidPath g pf → pf ≠ [] →
      g.TABLES_DEPTH - pf.length = k → walk g ram pf = some X → ¬ pf <+: p0 →
      (∃ p f, ValidPath g p ∧ p.length = g.TABLES_DEPTH ∧ walk g ram p = some f) ∨
      (∃ p f, ValidPath g p ∧ p ≠ [] ∧ p.length < g.TABLES_DEPTH ∧ walk g ram p = some f ∧
        TableEmpty g ram f ∧ ¬ p <+: p0) := by
  intro k
  induction k with
  | zero =>
    intro pf X hv _ hk hw _
    left
    exact ⟨pf, X, hv, by have := hv.1; omega, hw⟩
  | succ k ih =>
    intro pf X hv hne hk hw hnp
    have hl : pf.length < g.TABLES_DEPTH := by omega
    by_cases he : TableEmpty g ram X
    · right
      exact ⟨pf, X, hv, hne, hl, hw, he, hnp⟩
    · unfold TableEmpty at he
      push_neg at he
      obtain ⟨i, hi, hc⟩ := he
      have hch : child g ram X i = some (wordToU64 (ram (u64 (X * g.PAGE_SIZE + i)))) := by
        unfold child
        rw [if_neg hc]
      apply ih (pf ++ [i]) _ (hv.snoc hl hi) (by simp)
      · rw [List.length_append, List.length_singleton]; omega
      · rw [walk_snoc, hw, Option.some_bind, hch]
      · intro h
        exact hnp ((List.prefix_append pf [i]).trans h)

/-- When the frames `1 .. TABLES_DEPTH` are all referenced, the tree holds a data page
or an empty table other than the table `cur` being filled. -/
theorem exists_leaf_or_empty {g : Geometry} {ram : Nat → Int}
    (ht : PreTree g ram) {p0 : List Nat} {cur : Nat} (hv0 : ValidPath g p0)
    (hl0 : p0.length < g.TABLES_DEPTH) (hw0 : walk g ram p0 = some cur)
    (hfull : ∀ f, 1 ≤ f → f ≤ g.TABLES_DEPTH → Referenced g ram f) :
    (∃ p f, ValidPath g p ∧ p.length = g.TABLES_DEPTH ∧ walk g ram p = some f) ∨
    (∃ p f, ValidPath g p ∧ p ≠ [] ∧ p.length < g.TABLES_DEPTH ∧ walk g ram p = some f ∧
      TableEmpty g ram f ∧ f ≠ cur) := by
  have hlen : ((List.range p0.length).filterMap
      (fun k => walk g ram (p0.take (k + 1)))).length < g.TABLES_DEPTH := by
    have := List.length_filterMap_le (fun k => walk g ram (p0.take (k + 1)))
      (List.range p0.length)
    rw [List.length_range] at this
    omega
  obtain ⟨f, hf1, hf2, hf3⟩ := exists_not_mem_of_length_lt _ _ hlen
  obtain ⟨pf, hvf, hnef, hwf⟩ := hfull f hf1 hf2
  have hnp : ¬ pf <+: p0 := by
    intro hpre
    apply hf3
    rw [List.mem_filterMap]
    have hle := hpre.length_le
    have hpos : 0 < pf.length := List.length_pos.2 hnef
    refine ⟨pf.length - 1, by rw [List.mem_range]; omega, ?_⟩
    have e : pf.length - 1 + 1 = pf.length := by omega
    rw [e, ← List.prefix_iff_eq_take.1 hpre]
    exact hwf
  rcases descend_to_leaf p0 _ pf f hvf hnef rfl hwf hnp with h | ⟨p, f', hv, hne, hl, hw, he, hn⟩
  · left; exact h
  · right
    refine ⟨p, f', hv, hne, hl, hw, he, ?_⟩
    intro hfc
    subst hfc
    exact hn (by rw [ht.inj p p0 f' hv hv0 hw hw0])

end HPageTable

namespace HPageTable

/-! ## Detaching a childless frame -/

theorem walkFrom_empty {g : Geometry} {ram : Nat → Int} {E : Nat} (he : TableEmpty g ram E)
    {r : List Nat} (hr : r ≠ []) (hlt : ∀ i ∈ r, i < g.PAGE_SIZE) :
    walkFrom g ram (some E) r = none := by
  cases r with
  | nil => exact absurd rfl hr
  | cons i r =>
    rw [walkFrom_cons]
    have : child g ram E i = none := by
      unfold child
      rw [if_pos (he i (hlt i (by simp)))]
    rw [this, walkFrom_none]

/-- No walk goes through an empty table. -/
theorem walk_through_empty {g : Geometry} {ram : Nat → Int} {q r : List Nat} {E : Nat}
    (hw : walk g ram q = some E) (he : TableEmpty g ram E) (hr : r ≠ [])
    (hv : ValidPath g (q ++ r)) : walk g ram (q ++ r) = none := by
  rw [walk_append, hw]
  exact walkFrom_empty he hr (fun i hi => hv.2 i (List.mem_append_right _ hi))

/-- After zeroing the entry that names a childless frame `X`, the referenced frames are
the former ones except `X`. -/
theorem detach_ref {g : Geometry} (hg : g.Valid) {ram ram1 : Nat → Int} (ht : PreTree g ram)
    {q0 : List Nat} {j0 t0 X : Nat} (hv0 : ValidPath g (q0 ++ [j0]))
    (hw0 : walk g ram q0 = some t0) (hwX : walk g ram (q0 ++ [j0]) = some X)
    (hX : ∀ r, r ≠ [] → ValidPath g (q0 ++ [j0] ++ r) → walk g ram (q0 ++ [j0] ++ r) = none)
    (h0 : ram1 (t0 * g.PAGE_SIZE + j0) = 0)
    (hsame : ∀ a, a ≠ t0 * g.PAGE_SIZE + j0 → ram1 a = ram a) (f : Nat) :
    Referenced g ram1 f ↔ (Referenced g ram f ∧ f ≠ X) := by
  obtain ⟨hvq, _, hj0⟩ := ValidPath.snoc_iff.1 hv0
  have hw := detach_walk hg ht hvq hj0 hw0 h0 hsame
  constructor
  · rintro ⟨p, hv, hne, hp⟩
    rw [hw p hv] at hp
    split at hp
    · cases hp
    · rename_i hnp
      refine ⟨⟨p, hv, hne, hp⟩, ?_⟩
      intro hfX
      subst hfX
      exact hnp (by rw [ht.inj p _ f hv hv0 hp hwX])
  · rintro ⟨⟨p, hv, hne, hp⟩, hfX⟩
    refine ⟨p, hv, hne, ?_⟩
    rw [hw p hv, if_neg ?_]
    · exact hp
    · rintro ⟨r, hr⟩
      by_cases hr0 : r = []
      · subst hr0
        rw [List.append_nil] at hr
        rw [← hr, hwX] at hp
        exact hfX (Option.some.inj hp).symm
      · rw [← hr, hX r hr0 (by rw [hr]; exact hv)] at hp
        cases hp

theorem swapWord_congr {m m1 : Machine} {k : Nat} (h : m1.swap k = m.swap k) (off : Nat) :
    swapWord m1 k off = swapWord m k off := by
  unfold swapWord
  rw [h]

/-- A resident data page lives in a frame that is not a live table. -/
theorem PreTree.leaf_ne_table {g : Geometry} {ram : Nat → Int} (ht : PreTree g ram)
    {p q : List Nat} {f t : Nat} (hvp : ValidPath g p) (hvq : ValidPath g q)
    (hlen : q.length < p.length) (hp : walk g ram p = some f) (hq : walk g ram q = some t) :
    f ≠ t := by
  intro e
  subst e
  have := ht.inj p q f hvp hvq hp hq
  rw [this] at hlen
  exact Nat.lt_irrefl _ hlen

/-- Zeroing the entry that names an empty table keeps the stored contents. -/
theorem detach_data {g : Geometry} (hg : g.Valid) {m m1 : Machine} {A : Nat → Int}
    (ht : PreTree g m.ram) (hd : DataInv g m A)
    {q0 : List Nat} {j0 t0 : Nat} (hv0 : ValidPath g (q0 ++ [j0]))
    (hl0 : q0.length + 1 < g.TABLES_DEPTH)
    (hw0 : walk g m.ram q0 = some t0)
    (hX : ∀ r, r ≠ [] → ValidPath g (q0 ++ [j0] ++ r) →
      walk g m.ram (q0 ++ [j0] ++ r) = none)
    (h0 : m1.ram (t0 * g.PAGE_SIZE + j0) = 0)
    (hsame : ∀ a, a ≠ t0 * g.PAGE_SIZE + j0 → m1.ram a = m.ram a)
    (hswap : m1.swap = m.swap) : DataInv g m1 A := by
  obtain ⟨hvq, _, hj0⟩ := ValidPath.snoc_iff.1 hv0
  have hw := detach_walk hg ht hvq hj0 hw0 h0 hsame
  intro p hv hl off hoff
  rw [← hd p hv hl off hoff]
  unfold pageWord
  rw [hw p hv]
  by_cases hpre : (q0 ++ [j0]) <+: p
  · rw [if_pos hpre]
    obtain ⟨r, hr⟩ := hpre
    have hr0 : r ≠ [] := by
      intro h
      rw [h, List.append_nil] at hr
      rw [← hr, List.length_append, List.length_singleton] at hl
      omega
    rw [← hr, hX r hr0 (by rw [hr]; exact hv)]
    exact swapWord_congr (by rw [hswap]) off
  · rw [if_neg hpre]
    cases hp : walk g m.ram p with
    | none => exact swapWord_congr (by rw [hswap]) off
    | some f =>
      simp only []
      apply hsame
      intro ha
      obtain ⟨e1, _⟩ := addr_inj hoff hj0 ha
      exact ht.leaf_ne_table hv hvq (by omega) hp hw0 e1

theorem pageNum_inj (g : Geometry) :
    ∀ p q : List Nat, p.length = q.length → (∀ i ∈ p, i < g.PAGE_SIZE) →
      (∀ i ∈ q, i < g.PAGE_SIZE) → pageNum g p = pageNum g q → p = q := by
  intro p
  induction p using List.reverseRecOn with
  | nil =>
    intro q hl _ _ _
    exact (List.length_eq_zero.1 hl.symm).symm
  | append_singleton p i ih =>
    intro q hl hp hq he
    have hqne : q ≠ [] := by
      intro h
      rw [h] at hl
      simp at hl
    obtain ⟨q', j, rfl⟩ := exists_snoc hqne
    rw [pageNum_snoc, pageNum_snoc] at he
    obtain ⟨e1, e2⟩ := addr_inj (hp i (by simp)) (hq j (by simp)) he
    have hl' : p.length = q'.length := by
      simpa using hl
    rw [ih q' hl' (fun x hx => hp x (List.mem_append_left _ hx))
      (fun x hx => hq x (List.mem_append_left _ hx)) e1, e2]

/-- Evicting a data page (zeroing its entry and storing its frame under its page
number) keeps the stored contents. -/
theorem detach_data_evict {g : Geometry} (hg : g.Valid) {m m1 : Machine} {A : Nat → Int}
    (ht : PreTree g m.ram) (hd : DataInv g m A)
    {q0 : List Nat} {j0 t0 L : Nat} (hv0 : ValidPath g (q0 ++ [j0]))
    (hl0 : q0.length + 1 = g.TABLES_DEPTH)
    (hw0 : walk g m.ram q0 = some t0) (hwL : walk g m.ram (q0 ++ [j0]) = some L)
    (h0 : m1.ram (t0 * g.PAGE_SIZE + j0) = 0)
    (hsame : ∀ a, a ≠ t0 * g.PAGE_SIZE + j0 → m1.ram a = m.ram a)
    (hswap : ∀ k, m1.swap k =
      if k = pageNum g (q0 ++ [j0]) then some (fun off => m1.ram (L * g.PAGE_SIZE + off))
      else m.swap k) : DataInv g m1 A := by
  obtain ⟨hvq, _, hj0⟩ := ValidPath.snoc_iff.1 hv0
  have hw := detach_walk hg ht hvq hj0 hw0 h0 hsame
  have hlen0 : (q0 ++ [j0]).length = g.TABLES_DEPTH := by
    rw [List.length_append, List.length_singleton, hl0]
  intro p hv hl off hoff
  rw [← hd p hv hl off hoff]
  unfold pageWord
  rw [hw p hv]
  by_cases hpre : (q0 ++ [j0]) <+: p
  · rw [if_pos hpre]
    have hp : q0 ++ [j0] = p := hpre.eq_of_length (by rw [hlen0, hl])
    subst hp
    rw [hwL]
    simp only []
    unfold swapWord
    rw [hswap, if_pos rfl]
    simp only []
    apply hsame
    intro ha
    obtain ⟨e1, _⟩ := addr_inj hoff hj0 ha
    exact ht.leaf_ne_table hv hvq (by omega) hwL hw0 e1
  · rw [if_neg hpre]
    cases hp : walk g m.ram p with
    | none =>
      apply swapWord_congr
      rw [hswap, if_neg]
      intro he
      apply hpre
      rw [pageNum_inj g p (q0 ++ [j0]) (by rw [hl, hlen0]) hv.2 hv0.2 he]
    | some f =>
      simp only []
      apply hsame
      intro ha
      obtain ⟨e1, _⟩ := addr_inj hoff hj0 ha
      exact ht.leaf_ne_table hv hvq (by omega) hp hw0 e1

/-! ## The running maximum and the referenced frames -/

theorem survey_max_ok {g : Geometry} {ram : Nat → Int} (hg : g.Valid) (ht : PreTree g ram)
    (toAvoid : Nat) {mfi : Int} (hTD : 0 < g.TABLES_DEPTH) (hm : MaxOK g ram mfi) :
    MaxOK g ram (survey g ram toAvoid mfi).maxUsedFrame := by
  rcases survey_max_mem hg ht toAvoid mfi hTD with h | ⟨t, i, hle, hr, h0⟩
  · rw [h]; exact hm
  · right
    obtain ⟨f, hf, hrf⟩ := Referenced.of_entry hg ht hle (by rw [hr]; exact h0)
    exact ⟨f, by rw [← hr, hf], hrf⟩

theorem survey_max_bound {g : Geometry} {ram : Nat → Int} (hg : g.Valid) (ht : PreTree g ram)
    (toAvoid : Nat) (mfi : Int) {f : Nat} (hf : Referenced g ram f) :
    (f : Int) ≤ (survey g ram toAvoid mfi).maxUsedFrame := by
  obtain ⟨t, i, hle, hr, h1, _⟩ := hf.entry hg ht
  rcases survey_max_ge hg ht toAvoid mfi hle with h | h
  · rw [← hr]; exact h
  · rw [hr] at h
    have : f = 0 := by exact_mod_cast h
    omega

theorem MaxOK.nonneg {g : Geometry} {ram : Nat → Int} {mfi : Int} (h : MaxOK g ram mfi) :
    0 ≤ mfi := by
  rcases h with h | ⟨f, h, _⟩
  · rw [h]
  · rw [h]; exact Int.natCast_nonneg f

end HPageTable

namespace HPageTable

/-! ## The three ways of picking a frame -/

/-- The fresh-frame branch. -/
theorem choose_fresh {g : Geometry} (hg : g.Valid) {m : Machine} {A : Nat → Int}
    (hi : AbsInv g m A) {p0 : List Nat} {cur s : Nat}
    (hl0 : p0.length < g.TABLES_DEPTH)
    (hw0 : walk g m.ram p0 = some cur)
    (he : m.ram (cur * g.PAGE_SIZE + s) = 0) {mfi : Int} (hm : MaxOK g m.ram mfi)
    (hb : (survey g m.ram cur mfi).maxUsedFrame + 1 < (g.NUM_FRAMES : Int)) :
    ∃ F : Nat, (F : Int) = (survey g m.ram cur mfi).maxUsedFrame + 1 ∧
      Detached g m m A p0 cur s F := by
  have hTD : 0 < g.TABLES_DEPTH := by omega
  have hpre := hi.tree.toPreTree
  have hok := survey_max_ok hg hpre cur hTD hm
  have h0 := hok.nonneg
  refine ⟨((survey g m.ram cur mfi).maxUsedFrame + 1).toNat, by omega, ?_⟩
  have hF : ((((survey g m.ram cur mfi).maxUsedFrame + 1).toNat : Nat) : Int) =
      (survey g m.ram cur mfi).maxUsedFrame + 1 := by omega
  have hun : ¬ Referenced g m.ram ((survey g m.ram cur mfi).maxUsedFrame + 1).toNat := by
    intro hr
    have := survey_max_bound hg hpre cur mfi hr
    omega
  refine ⟨hpre, by omega, by omega, ?_, hw0, he, ?_, hi.data, fun f hf => Or.inr hf⟩
  · intro p hv hp
    by_cases hne : p = []
    · subst hne
      simp only [walk_nil, Option.some.injEq] at hp
      omega
    · exact hun ⟨p, hv, hne, hp⟩
  · intro f f' hf h1 h2
    by_cases hff : f' = ((survey g m.ram cur mfi).maxUsedFrame + 1).toNat
    · exact Or.inl hff
    · right
      rcases hf with hf | hf
      · have hle : (f' : Int) ≤ (survey g m.ram cur mfi).maxUsedFrame := by omega
        rcases hok with hz | ⟨M, hM, hrM⟩
        · omega
        · exact hi.tree.closed M f' hrM h1 (by omega)
      · exact hi.tree.closed f f' hf h1 h2

/-- The empty-table branch. -/
theorem choose_empty {g : Geometry} (hg : g.Valid) {m : Machine} {A : Nat → Int}
    (hi : AbsInv g m A) {p0 : List Nat} {cur s : Nat} (hv0 : ValidPath g p0)
    (hl0 : p0.length < g.TABLES_DEPTH)
    (hw0 : walk g m.ram p0 = some cur)
    (he : m.ram (cur * g.PAGE_SIZE + s) = 0) (mfi : Int)
    (hb : (survey g m.ram cur mfi).lastEmptyTable > 0) :
    Detached g m (PMwrite m (survey g m.ram cur mfi).emptyTablePtr 0) A p0 cur s
      (survey g m.ram cur mfi).lastEmptyTable := by
  have hTD : 0 < g.TABLES_DEPTH := by omega
  have hpre := hi.tree.toPreTree
  obtain ⟨q, j, t, hvq, hlq, hj, hwq, hwE, hptr, hr, hpos, hlt, hemp, hne⟩ :=
    survey_empty_sound hg hpre cur mfi hTD (by omega)
  have hvqj : ValidPath g (q ++ [j]) := hvq.snoc (by omega) hj
  have hX : ∀ r, r ≠ [] → ValidPath g (q ++ [j] ++ r) →
      walk g m.ram (q ++ [j] ++ r) = none :=
    fun r hr hv => walk_through_empty hwE hemp hr hv
  have h0 : (PMwrite m (survey g m.ram cur mfi).emptyTablePtr 0).ram (t * g.PAGE_SIZE + j) = 0 := by
    rw [PMwrite_ram, hptr, if_pos rfl]
  have hsame : ∀ a, a ≠ t * g.PAGE_SIZE + j →
      (PMwrite m (survey g m.ram cur mfi).emptyTablePtr 0).ram a = m.ram a := by
    intro a ha
    rw [PMwrite_ram, hptr, if_neg ha]
  have hw := detach_walk hg hpre hvq hj hwq h0 hsame
  have href := detach_ref hg hpre hvqj hwq hwE hX h0 hsame
  refine ⟨detach_pre hg hpre hvq hj hwq h0 hsame, hpos, hlt, ?_, ?_, ?_, ?_,
    detach_data hg hpre hi.data hvqj hlq hwq hX h0 hsame rfl, ?_⟩
  · intro p hv hp
    rw [hw p hv] at hp
    split at hp
    · cases hp
    · rename_i hnp
      exact hnp (by rw [hpre.inj p _ _ hv hvqj hp hwE])
  · rw [hw p0 hv0, if_neg ?_]
    · exact hw0
    · rintro ⟨r, hr⟩
      by_cases hr0 : r = []
      · subst hr0
        rw [List.append_nil] at hr
        rw [hr, hw0] at hwE
        exact hne (Option.some.inj hwE).symm
      · rw [← hr, hX r hr0 (by rw [hr]; exact hv0)] at hw0
        cases hw0
  · rw [PMwrite_ram]
    split
    · rfl
    · exact he
  · intro f f' hf h1 h2
    have hrf : Referenced g m.ram f := by
      rcases hf with hf | hf
      · rw [hf]; exact ⟨_, hvqj, by simp, hwE⟩
      · exact ((href f).1 hf).1
    have := hi.tree.closed f f' hrf h1 h2
    by_cases hfe : f' = (survey g m.ram cur mfi).lastEmptyTable
    · exact Or.inl hfe
    · exact Or.inr ((href f').2 ⟨this, hfe⟩)
  · intro f hf
    by_cases hfe : f = (survey g m.ram cur mfi).lastEmptyTable
    · exact Or.inl hfe
    · exact Or.inr ((href f).2 ⟨hf, hfe⟩)

/-- The evict branch: it is taken only when the tree holds a data page, and detaches
one. -/
theorem choose_evict {g : Geometry} (hg : g.Valid) {m : Machine} {A : Nat → Int}
    (hi : AbsInv g m A) {p0 : List Nat} {cur s : Nat} (hv0 : ValidPath g p0)
    (hl0 : p0.length < g.TABLES_DEPTH)
    (hw0 : walk g m.ram p0 = some cur)
    (he : m.ram (cur * g.PAGE_SIZE + s) = 0) {mfi : Int} (hm : MaxOK g m.ram mfi)
    (hb1 : ¬ (survey g m.ram cur mfi).maxUsedFrame + 1 < (g.NUM_FRAMES : Int))
    (hb2 : ¬ (survey g m.ram cur mfi).lastEmptyTable > 0) :
    ∃ F : Nat,
      (deleteFrame g m (survey g m.ram cur mfi).toReplace
        (survey g m.ram cur mfi).virtualAddrRep).1 = (F : Int) ∧
      Detached g m (deleteFrame g m (survey g m.ram cur mfi).toReplace
        (survey g m.ram cur mfi).virtualAddrRep).2 A p0 cur s F := by
  have hTD : 0 < g.TABLES_DEPTH := by omega
  have hpre := hi.tree.toPreTree
  have hok := survey_max_ok hg hpre cur hTD hm
  -- every frame up to `TABLES_DEPTH` is referenced
  have hfull : ∀ f, 1 ≤ f → f ≤ g.TABLES_DEPTH → Referenced g m.ram f := by
    intro f h1 h2
    have hfr := hg.frames
    rcases hok with hz | ⟨M, hM, hrM⟩
    · omega
    · exact hi.tree.closed M f hrM h1 (by omega)
  -- hence there is a data page
  obtain ⟨pl, fl, hvl, hll, hwl⟩ :
      ∃ p f, ValidPath g p ∧ p.length = g.TABLES_DEPTH ∧ walk g m.ram p = some f := by
    rcases exists_leaf_or_empty hpre hv0 hl0 hw0 hfull with h | ⟨p, f, hv, hne, hl, hw, hem, hfc⟩
    · exact h
    · exact absurd (survey_empty_complete hg hpre cur mfi (by omega) hv hne hl hw hem) hfc
  obtain ⟨q, j, t, L, hvqj, hlq, hwq, hwL, hptr, hr, hpos, hlt, hrep⟩ :=
    survey_victim hg hpre cur mfi hvl hll hTD hwl
  obtain ⟨hvq, _, hj⟩ := ValidPath.snoc_iff.1 hvqj
  have hX : ∀ r, r ≠ [] → ValidPath g (q ++ [j] ++ r) →
      walk g m.ram (q ++ [j] ++ r) = none := by
    intro r hr hv
    exfalso
    have := hv.1
    have hpos : 0 < r.length := List.length_pos.2 hr
    simp only [List.length_append, List.length_singleton] at this
    omega
  refine ⟨L, ?_, ?_⟩
  · unfold deleteFrame PMread
    rw [hptr, hr]
  have hE : (deleteFrame g m (survey g m.ram cur mfi).toReplace
      (survey g m.ram cur mfi).virtualAddrRep).2 =
      PMevict g (PMwrite m (t * g.PAGE_SIZE + j) 0) L (pageNum g (q ++ [j])) := by
    unfold deleteFrame PMread
    rw [hptr, hr, hrep]
    simp only []
    rw [wordToU64_natCast (hg.frame_lt hlt)]
  rw [hE]
  have h0 : (PMevict g (PMwrite m (t * g.PAGE_SIZE + j) 0) L (pageNum g (q ++ [j]))).ram
      (t * g.PAGE_SIZE + j) = 0 := by
    rw [PMevict_ram, PMwrite_ram, if_pos rfl]
  have hsame : ∀ a, a ≠ t * g.PAGE_SIZE + j →
      (PMevict g (PMwrite m (t * g.PAGE_SIZE + j) 0) L (pageNum g (q ++ [j]))).ram a =
        m.ram a := by
    intro a ha
    rw [PMevict_ram, PMwrite_ram, if_neg ha]
  have hw := detach_walk hg hpre hvq hj hwq h0 hsame
  have href := detach_ref hg hpre hvqj hwq hwL hX h0 hsame
  refine ⟨detach_pre hg hpre hvq hj hwq h0 hsame, hpos, hlt, ?_, ?_, ?_, ?_,
    detach_data_evict hg hpre hi.data hvqj hlq hwq hwL h0 hsame (fun k => rfl), ?_⟩
  · intro p hv hp
    rw [hw p hv] at hp
    split at hp
    · cases hp
    · rename_i hnp
      exact hnp (by rw [hpre.inj p _ _ hv hvqj hp hwL])
  · rw [hw p0 hv0, if_neg ?_]
    · exact hw0
    · intro hpre'
      have := hpre'.length_le
      simp only [List.length_append, List.length_singleton] at this
      omega
  · rw [PMevict_ram, PMwrite_ram]
    split
    · rfl
    · exact he
  · intro f f' hf h1 h2
    have hrf : Referenced g m.ram f := by
      rcases hf with hf | hf
      · rw [hf]; exact ⟨_, hvqj, by simp, hwL⟩
      · exact ((href f).1 hf).1
    have := hi.tree.closed f f' hrf h1 h2
    by_cases hfe : f' = L
    · exact Or.inl hfe
    · exact Or.inr ((href f').2 ⟨this, hfe⟩)
  · intro f hf
    by_cases hfe : f = L
    · exact Or.inl hfe
    · exact Or.inr ((href f).2 ⟨hf, hfe⟩)

/-- On a miss `chooseFrame` returns a frame in `[1, NUM_FRAMES)` that the tree no longer
references, and leaves the stored contents intact. -/
theorem choose_spec {g : Geometry} (hg : g.Valid) {m : Machine} {A : Nat → Int}
    (hi : AbsInv g m A) {p0 : List Nat} {cur s : Nat} (hv0 : ValidPath g p0)
    (hl0 : p0.length < g.TABLES_DEPTH)
    (hw0 : walk g m.ram p0 = some cur)
    (he : m.ram (cur * g.PAGE_SIZE + s) = 0) {mfi : Int} (hm : MaxOK g m.ram mfi) :
    ∃ F : Nat, (chooseFrame g m (survey g m.ram cur mfi)).1 = (F : Int) ∧
      Detached g m (chooseFrame g m (survey g m.ram cur mfi)).2 A p0 cur s F := by
  unfold chooseFrame
  by_cases hb1 : (survey g m.ram cur mfi).maxUsedFrame + 1 < (g.NUM_FRAMES : Int)
  · rw [if_pos hb1]
    obtain ⟨F, hF, hd⟩ := choose_fresh hg hi hl0 hw0 he hm hb1
    exact ⟨F, hF.symm, hd⟩
  · rw [if_neg hb1]
    by_cases hb2 : (survey g m.ram cur mfi).lastEmptyTable > 0
    · rw [if_pos hb2]
      exact ⟨_, rfl, choose_empty hg hi hv0 hl0 hw0 he mfi hb2⟩
    · rw [if_neg hb2]
      exact choose_evict hg hi hv0 hl0 hw0 he hm hb1 hb2

end HPageTable

namespace HPageTable

/-! ## Linking the chosen frame -/

theorem linkFrame_swap (g : Geometry) (m : Machine) (F : Int) (ptr : Nat) (r : Bool)
    (key : Nat) : (linkFrame g m F ptr r key).swap = m.swap := by
  unfold linkFrame
  cases r
  · simp only [Bool.false_eq_true, if_false]
    exact newBlankFrame_swap g m F ptr
  · simp only [if_true, PMrestore_swap]
    exact newBlankFrame_swap g m F ptr

/-- Physical memory after linking: the pointer is written, frame `F` is overwritten, the
rest is kept. -/
theorem linkFrame_ram {g : Geometry} (hg : g.Valid) (m : Machine) {F cur s : Nat}
    (hF : F < g.NUM_FRAMES) (hs : s < g.PAGE_SIZE) (hcF : cur ≠ F) (r : Bool) (key : Nat) :
    (linkFrame g m (F : Int) (cur * g.PAGE_SIZE + s) r key).ram (cur * g.PAGE_SIZE + s) =
        (F : Int) ∧
    (∀ a, a ≠ cur * g.PAGE_SIZE + s →
      ¬ (F * g.PAGE_SIZE ≤ a ∧ a < F * g.PAGE_SIZE + g.PAGE_SIZE) →
      (linkFrame g m (F : Int) (cur * g.PAGE_SIZE + s) r key).ram a = m.ram a) ∧
    (∀ i, i < g.PAGE_SIZE →
      (linkFrame g m (F : Int) (cur * g.PAGE_SIZE + s) r key).ram (F * g.PAGE_SIZE + i) =
        if r then swapWord m key i else 0) := by
  have hnot : ¬ (F * g.PAGE_SIZE ≤ cur * g.PAGE_SIZE + s ∧
      cur * g.PAGE_SIZE + s < F * g.PAGE_SIZE + g.PAGE_SIZE) :=
    fun ⟨h1, h2⟩ => hcF (frame_of_addr h1 h2 hs)
  have hin : ∀ i, i < g.PAGE_SIZE → (F * g.PAGE_SIZE ≤ F * g.PAGE_SIZE + i ∧
      F * g.PAGE_SIZE + i < F * g.PAGE_SIZE + g.PAGE_SIZE) := fun i hi => ⟨by omega, by omega⟩
  unfold linkFrame
  cases r
  · simp only [Bool.false_eq_true, if_false]
    refine ⟨?_, ?_, ?_⟩
    · rw [newBlankFrame_ram_nat hg m hF, if_neg hnot, if_pos rfl]
    · intro a ha hna
      rw [newBlankFrame_ram_nat hg m hF, if_neg hna, if_neg ha]
    · intro i hi
      rw [newBlankFrame_ram_nat hg m hF, if_pos (hin i hi)]
  · simp only [if_true]
    rw [wordToU64_natCast (hg.frame_lt hF)]
    refine ⟨?_, ?_, ?_⟩
    · rw [PMrestore_ram, if_neg hnot, newBlankFrame_ram_nat hg m hF, if_neg hnot, if_pos rfl]
    · intro a ha hna
      rw [PMrestore_ram, if_neg hna, newBlankFrame_ram_nat hg m hF, if_neg hna, if_neg ha]
    · intro i hi
      rw [PMrestore_ram, if_pos (hin i hi), Nat.add_sub_cancel_left]
      exact swapWord_congr (by rw [newBlankFrame_swap]) i

/-- After linking, the referenced frames are the former ones and `F`. -/
theorem attach_ref {g : Geometry} {ram1 ram2 : Nat → Int} {p0 : List Nat} {s F : Nat}
    (hv0 : ValidPath g (p0 ++ [s]))
    (hnone : walk g ram1 (p0 ++ [s]) = none)
    (hw : ∀ p, ValidPath g p → walk g ram2 p = if p = p0 ++ [s] then some F
        else if (p0 ++ [s]) <+: p then none else walk g ram1 p) (f : Nat) :
    Referenced g ram2 f ↔ (f = F ∨ Referenced g ram1 f) := by
  constructor
  · rintro ⟨p, hv, hne, hp⟩
    rw [hw p hv] at hp
    by_cases hA : p = p0 ++ [s]
    · rw [if_pos hA] at hp
      exact Or.inl (Option.some.inj hp).symm
    · rw [if_neg hA] at hp
      split at hp
      · cases hp
      · exact Or.inr ⟨p, hv, hne, hp⟩
  · rintro (hf | ⟨p, hv, hne, hp⟩)
    · refine ⟨p0 ++ [s], hv0, by simp, ?_⟩
      rw [hw _ hv0, if_pos rfl, hf]
    · refine ⟨p, hv, hne, ?_⟩
      have hnp : ¬ (p0 ++ [s]) <+: p := by
        rintro ⟨r, hr⟩
        rw [← hr, walk_append, hnone, walkFrom_none] at hp
        cases hp
      have hA : p ≠ p0 ++ [s] := fun h => hnp (h ▸ List.prefix_refl _)
      rw [hw p hv, if_neg hA, if_neg hnp]
      exact hp

/-- Linking the chosen frame re-establishes the invariant, with the requested entry now
naming `F`. -/
theorem link_spec {g : Geometry} (hg : g.Valid) {m m1 : Machine} {A : Nat → Int}
    {p0 : List Nat} {cur s F : Nat} (hd : Detached g m m1 A p0 cur s F)
    (hv0 : ValidPath g p0) (hl0 : p0.length < g.TABLES_DEPTH) (hs : s < g.PAGE_SIZE)
    (key : Nat) (hkey : p0.length + 1 = g.TABLES_DEPTH → key = pageNum g (p0 ++ [s])) :
    AbsInv g (linkFrame g m1 (F : Int) (cur * g.PAGE_SIZE + s)
        (decide (p0.length + 1 = g.TABLES_DEPTH)) key) A ∧
    walk g (linkFrame g m1 (F : Int) (cur * g.PAGE_SIZE + s)
        (decide (p0.length + 1 = g.TABLES_DEPTH)) key).ram (p0 ++ [s]) = some F ∧
    (∀ f, Referenced g m.ram f → Referenced g (linkFrame g m1 (F : Int)
        (cur * g.PAGE_SIZE + s) (decide (p0.length + 1 = g.TABLES_DEPTH)) key).ram f) := by
  have hcF : cur ≠ F := fun e => hd.unref p0 hv0 (e ▸ hd.path)
  have hF0 : F ≠ 0 := by have := hd.frame_pos; omega
  obtain ⟨hptr, hsame, hfr⟩ := linkFrame_ram hg m1 hd.frame_lt hs hcF
    (decide (p0.length + 1 = g.TABLES_DEPTH)) key
  have hzero : p0.length + 1 < g.TABLES_DEPTH → ∀ i, i < g.PAGE_SIZE →
      (linkFrame g m1 (F : Int) (cur * g.PAGE_SIZE + s)
        (decide (p0.length + 1 = g.TABLES_DEPTH)) key).ram (F * g.PAGE_SIZE + i) = 0 := by
    intro hlt i hi
    rw [hfr i hi]
    have : decide (p0.length + 1 = g.TABLES_DEPTH) = false := by
      simp only [decide_eq_false_iff_not]; omega
    rw [this]
    rfl
  have hw := attach_walk hg hd.pre hv0 hs hd.path hd.frame_lt hd.unref hptr hF0 hsame hzero
  have hvs : ValidPath g (p0 ++ [s]) := hv0.snoc hl0 hs
  have hcur := hd.pre.live_lt hg p0 hv0 cur hd.path
  have hnone : walk g m1.ram (p0 ++ [s]) = none := by
    rw [walk_snoc, hd.path, Option.some_bind]
    unfold child
    rw [hg.u64_addr hcur hs, hd.entry, if_pos rfl]
  have href := attach_ref hvs hnone hw
  refine ⟨⟨⟨attach_pre hg hd.pre hv0 hs hd.path hd.frame_lt hd.unref hptr hF0 hsame hzero,
    ?_⟩, ?_⟩, ?_, ?_⟩
  · intro f f' hf h1 h2
    exact (href f').2 (hd.closed f f' ((href f).1 hf) h1 h2)
  · intro p hv hl off hoff
    rw [← hd.data p hv hl off hoff]
    unfold pageWord
    rw [hw p hv]
    by_cases hA : p = p0 ++ [s]
    · rw [if_pos hA]
      simp only []
      have hl' : p0.length + 1 = g.TABLES_DEPTH := by
        rw [hA, List.length_append, List.length_singleton] at hl
        exact hl
      rw [hfr off hoff, hA, hnone]
      have : decide (p0.length + 1 = g.TABLES_DEPTH) = true := by
        simp only [decide_eq_true_eq]; exact hl'
      rw [this, if_pos rfl, hkey hl']
    · rw [if_neg hA]
      by_cases hB : (p0 ++ [s]) <+: p
      · rw [if_pos hB]
        obtain ⟨r, hr⟩ := hB
        rw [← hr, walk_append, hnone, walkFrom_none]
        exact swapWord_congr (by rw [linkFrame_swap]) off
      · rw [if_neg hB]
        cases hp : walk g m1.ram p with
        | none => exact swapWord_congr (by rw [linkFrame_swap]) off
        | some f =>
          simp only []
          apply hsame
          · intro ha
            obtain ⟨e1, _⟩ := addr_inj hoff hs ha
            exact hd.pre.leaf_ne_table hv hv0 (by omega) hp hd.path e1
          · rintro ⟨h1, h2⟩
            exact hd.unref p hv ((frame_of_addr h1 h2 hoff) ▸ hp)
  · rw [hw _ hvs, if_pos rfl]
  · intro f hf
    exact (href f).2 (hd.mono f hf)

end HPageTable

namespace HPageTable

/-! ## Address slices -/

theorem Geometry.PAGE_SIZE_sub_one (g : Geometry) : g.PAGE_SIZE - 1 = 2 ^ g.OFFSET_WIDTH - 1 := rfl

theorem shiftRight_and (a b k : Nat) : (a &&& b) >>> k = (a >>> k) &&& (b >>> k) := by
  apply Nat.eq_of_testBit_eq
  intro i
  simp only [Nat.testBit_shiftRight, Nat.testBit_and]

theorem slice_of_mask (g : Geometry) (V n : Nat) :
    (V &&& ((g.PAGE_SIZE - 1) <<< (g.OFFSET_WIDTH * (g.TABLES_DEPTH - n)))) >>>
        ((g.TABLES_DEPTH - n) * g.OFFSET_WIDTH) = slice g V n := by
  unfold slice
  rw [Nat.mul_comm (g.TABLES_DEPTH - n) g.OFFSET_WIDTH, shiftRight_and,
    Nat.shiftLeft_shiftRight, g.PAGE_SIZE_sub_one, Nat.and_pow_two_sub_one_eq_mod]
  rfl

theorem mask_step (g : Geometry) {n : Nat} (hn : n < g.TABLES_DEPTH) :
    ((g.PAGE_SIZE - 1) <<< (g.OFFSET_WIDTH * (g.TABLES_DEPTH - n))) >>> g.OFFSET_WIDTH =
      (g.PAGE_SIZE - 1) <<< (g.OFFSET_WIDTH * (g.TABLES_DEPTH - (n + 1))) := by
  have e : g.OFFSET_WIDTH * (g.TABLES_DEPTH - n) =
      g.OFFSET_WIDTH * (g.TABLES_DEPTH - (n + 1)) + g.OFFSET_WIDTH := by
    have : g.TABLES_DEPTH - n = (g.TABLES_DEPTH - (n + 1)) + 1 := by omega
    rw [this, Nat.mul_add, Nat.mul_one]
  rw [e, Nat.shiftLeft_add, Nat.shiftLeft_shiftRight]

theorem mask_init {g : Geometry} (hg : g.Valid) :
    u64 (((1 <<< g.OFFSET_WIDTH) - 1) <<< (g.OFFSET_WIDTH * g.TABLES_DEPTH)) =
      (g.PAGE_SIZE - 1) <<< (g.OFFSET_WIDTH * (g.TABLES_DEPTH - 0)) := by
  rw [Nat.one_shiftLeft, Nat.sub_zero]
  apply u64_of_lt
  rw [Nat.shiftLeft_eq]
  have h1 : (2 ^ g.OFFSET_WIDTH - 1) * 2 ^ (g.OFFSET_WIDTH * g.TABLES_DEPTH) <
      2 ^ g.OFFSET_WIDTH * 2 ^ (g.OFFSET_WIDTH * g.TABLES_DEPTH) := by
    apply Nat.mul_lt_mul_of_pos_right
    · have : 0 < 2 ^ g.OFFSET_WIDTH := by positivity
      omega
    · positivity
  have h2 : 2 ^ g.OFFSET_WIDTH * 2 ^ (g.OFFSET_WIDTH * g.TABLES_DEPTH) =
      2 ^ (g.OFFSET_WIDTH * (g.TABLES_DEPTH + 1)) := by
    rw [← pow_add]
    congr 1
    ring
  have h3 : 2 ^ (g.OFFSET_WIDTH * (g.TABLES_DEPTH + 1)) ≤ 2 ^ 64 :=
    Nat.pow_le_pow_right (by norm_num) hg.width
  omega

theorem slice_lt (g : Geometry) (V i : Nat) : slice g V i < g.PAGE_SIZE :=
  Nat.mod_lt _ g.PAGE_SIZE_pos

theorem slicesUpTo_succ (g : Geometry) (V n : Nat) :
    slicesUpTo g V (n + 1) = slicesUpTo g V n ++ [slice g V n] := by
  unfold slicesUpTo
  rw [List.range_succ, List.map_append]
  rfl

theorem slicesUpTo_length (g : Geometry) (V n : Nat) : (slicesUpTo g V n).length = n := by
  unfold slicesUpTo
  simp

theorem slicesUpTo_valid (g : Geometry) (V : Nat) {n : Nat} (hn : n ≤ g.TABLES_DEPTH) :
    ValidPath g (slicesUpTo g V n) := by
  refine ⟨by rw [slicesUpTo_length]; exact hn, ?_⟩
  intro i hi
  unfold slicesUpTo at hi
  rw [List.mem_map] at hi
  obtain ⟨k, _, rfl⟩ := hi
  exact slice_lt g V k

theorem pageNum_slicesUpTo (g : Geometry) {V : Nat} (hV : V < g.VIRTUAL_MEMORY_SIZE) :
    ∀ n, n ≤ g.TABLES_DEPTH →
      pageNum g (slicesUpTo g V n) = V >>> (g.OFFSET_WIDTH * (g.TABLES_DEPTH + 1 - n)) := by
  intro n
  induction n with
  | zero =>
    intro _
    rw [Nat.sub_zero, Nat.shiftRight_eq_div_pow]
    unfold Geometry.VIRTUAL_MEMORY_SIZE Geometry.VIRTUAL_ADDRESS_WIDTH at hV
    rw [Nat.div_eq_of_lt hV]
    rfl
  | succ n ih =>
    intro hn
    rw [slicesUpTo_succ, pageNum_snoc, ih (by omega)]
    unfold slice
    have e1 : g.OFFSET_WIDTH * (g.TABLES_DEPTH + 1 - n) =
        g.OFFSET_WIDTH * (g.TABLES_DEPTH - n) + g.OFFSET_WIDTH := by
      have : g.TABLES_DEPTH + 1 - n = (g.TABLES_DEPTH - n) + 1 := by omega
      rw [this, Nat.mul_add, Nat.mul_one]
    have e2 : g.TABLES_DEPTH + 1 - (n + 1) = g.TABLES_DEPTH - n := by omega
    rw [e1, e2, Nat.shiftRight_add, Nat.shiftRight_eq_div_pow _ g.OFFSET_WIDTH]
    exact Nat.div_add_mod' _ _

theorem pageNum_slices (g : Geometry) {V : Nat} (hV : V < g.VIRTUAL_MEMORY_SIZE) :
    pageNum g (slices g V) = V >>> g.OFFSET_WIDTH := by
  unfold slices
  rw [pageNum_slicesUpTo g hV _ (le_refl _)]
  congr 1
  have : g.TABLES_DEPTH + 1 - g.TABLES_DEPTH = 1 := by omega
  rw [this, Nat.mul_one]

theorem pageNum_slices_addr (g : Geometry) {V : Nat} (hV : V < g.VIRTUAL_MEMORY_SIZE) :
    pageNum g (slices g V) * g.PAGE_SIZE + V % g.PAGE_SIZE = V := by
  rw [pageNum_slices g hV, Nat.shiftRight_eq_div_pow]
  exact Nat.div_add_mod' _ _

/-! ## One level of the walk -/

theorem treeLogicLevel_hit (g : Geometry) (V : Nat) (st : WalkState) (i : Nat)
    (h : st.m.ram (indexPtrOf g V st i) ≠ 0) :
    treeLogicLevel g V st i =
      ⟨st.m, wordToU64 (st.m.ram (indexPtrOf g V st i) * g.PAGE_SIZE), st.maxFrameIndex,
        wordToU64 (st.m.ram (indexPtrOf g V st i)), st.mask >>> g.OFFSET_WIDTH⟩ := by
  unfold treeLogicLevel PMread
  simp only [h, if_false]

theorem treeLogicLevel_miss (g : Geometry) (V : Nat) (st : WalkState) (i : Nat)
    (h : st.m.ram (indexPtrOf g V st i) = 0) :
    treeLogicLevel g V st i =
      ⟨linkFrame g (chooseFrame g st.m (surveyOf g st)).2
          (chooseFrame g st.m (surveyOf g st)).1 (indexPtrOf g V st i)
          (decide (i + 1 = g.TABLES_DEPTH)) (V >>> g.OFFSET_WIDTH),
        wordToU64 ((chooseFrame g st.m (surveyOf g st)).1 * g.PAGE_SIZE),
        (surveyOf g st).maxUsedFrame,
        wordToU64 (chooseFrame g st.m (surveyOf g st)).1, st.mask >>> g.OFFSET_WIDTH⟩ := by
  unfold treeLogicLevel PMread linkFrame
  simp only [h, if_true, decide_eq_true_eq]

/-- The entry address read at level `n`. -/
theorem indexPtrOf_eq {g : Geometry} (hg : g.Valid) {V : Nat} {A : Nat → Int} {n : Nat}
    {st : WalkState} (hi : WalkInv g V A n st) (hn : n ≤ g.TABLES_DEPTH) :
    indexPtrOf g V st n = st.newTable * g.PAGE_SIZE + slice g V n := by
  unfold indexPtrOf
  rw [hi.mask, slice_of_mask, hi.page]
  have := hi.abs.tree.toPreTree.live_lt hg _ (slicesUpTo_valid g V hn) _ hi.path
  exact hg.u64_addr this (slice_lt g V n)

theorem wordToU64_frame_mul {g : Geometry} (hg : g.Valid) {c : Nat} (hc : c < g.NUM_FRAMES) :
    wordToU64 ((c : Int) * (g.PAGE_SIZE : Int)) = c * g.PAGE_SIZE := by
  have : (c : Int) * (g.PAGE_SIZE : Int) = ((c * g.PAGE_SIZE : Nat) : Int) := by push_cast; ring
  rw [this]
  apply wordToU64_natCast
  have := hg.addr_lt hc g.PAGE_SIZE_pos
  omega

/-- One iteration of the loop of `treeLogic` keeps the loop invariant. -/
theorem treeLogicLevel_inv {g : Geometry} (hg : g.Valid) {V : Nat}
    (hV : V < g.VIRTUAL_MEMORY_SIZE) {A : Nat → Int} {n : Nat} {st : WalkState}
    (hi : WalkInv g V A n st) (hn : n < g.TABLES_DEPTH) :
    WalkInv g V A (n + 1) (treeLogicLevel g V st n) := by
  have hpre := hi.abs.tree.toPreTree
  have hv0 := slicesUpTo_valid g V (Nat.le_of_lt hn)
  have hl0 : (slicesUpTo g V n).length < g.TABLES_DEPTH := by
    rw [slicesUpTo_length]; exact hn
  have hptr := indexPtrOf_eq hg hi (Nat.le_of_lt hn)
  have hs := slice_lt g V n
  by_cases h0 : st.m.ram (indexPtrOf g V st n) = 0
  · -- miss
    rw [treeLogicLevel_miss g V st n h0, surveyOf_eq]
    rw [hptr] at h0 ⊢
    obtain ⟨F, hF, hd⟩ := choose_spec hg hi.abs hv0 hl0 hi.path h0 hi.max
    rw [hF]
    have hlen : (decide (n + 1 = g.TABLES_DEPTH)) =
        decide ((slicesUpTo g V n).length + 1 = g.TABLES_DEPTH) := by
      rw [slicesUpTo_length]
    rw [hlen]
    obtain ⟨habs, hw, hmono⟩ := link_spec hg hd hv0 hl0 hs (V >>> g.OFFSET_WIDTH) (by
      intro hl
      rw [slicesUpTo_length] at hl
      rw [← slicesUpTo_succ, hl]
      exact (pageNum_slices g hV).symm)
    have hFn := wordToU64_natCast (hg.frame_lt hd.frame_lt)
    refine ⟨habs, ?_, ?_, ?_, ?_⟩
    · rw [slicesUpTo_succ]
      simp only []
      rw [hFn]
      exact hw
    · simp only []
      rw [hFn, wordToU64_frame_mul hg hd.frame_lt]
    · simp only []
      rw [hi.mask, mask_step g hn]
    · simp only []
      have hok := survey_max_ok hg hpre st.newTable (by omega) hi.max
      rcases hok with hz | ⟨M, hM, hrM⟩
      · exact Or.inl hz
      · exact Or.inr ⟨M, hM, hmono M hrM⟩
  · -- hit
    rw [treeLogicLevel_hit g V st n h0]
    rw [hptr] at h0 ⊢
    obtain ⟨c, hcl, hcr, _, hwc, hch⟩ := hpre.live_child hg hv0 hl0 hi.path hs
    have hc0 : c ≠ 0 := by
      intro h
      rw [hcr, h] at h0
      exact h0 rfl
    refine ⟨hi.abs, ?_, ?_, ?_, hi.max⟩
    · rw [slicesUpTo_succ]
      simp only []
      rw [hwc]
      exact walk_snoc_of_entry hi.path hch hc0
    · simp only []
      rw [hwc, hcr, wordToU64_frame_mul hg hcl]
    · simp only []
      rw [hi.mask, mask_step g hn]

theorem walkLevels_succ (g : Geometry) (V : Nat) (m : Machine) (n : Nat) :
    walkLevels g V m (n + 1) = treeLogicLevel g V (walkLevels g V m n) n := by
  unfold walkLevels
  rw [List.range_succ, List.foldl_append]
  rfl

theorem walkInit_inv {g : Geometry} (hg : g.Valid) (V : Nat) {m : Machine} {A : Nat → Int}
    (hi : AbsInv g m A) : WalkInv g V A 0 (walkInit g m) :=
  ⟨hi, rfl, by simp [walkInit], mask_init hg, Or.inl rfl⟩

/-- The loop invariant holds before every iteration of the loop of `treeLogic`. -/
theorem walkLevels_inv {g : Geometry} (hg : g.Valid) {V : Nat}
    (hV : V < g.VIRTUAL_MEMORY_SIZE) {m : Machine} {A : Nat → Int} (hi : AbsInv g m A) :
    ∀ n, n ≤ g.TABLES_DEPTH → WalkInv g V A n (walkLevels g V m n) := by
  intro n
  induction n with
  | zero => intro _; exact walkInit_inv hg V hi
  | succ n ih =>
    intro hn
    rw [walkLevels_succ]
    exact treeLogicLevel_inv hg hV (ih (by omega)) (by omega)

/-- The walker: it keeps the invariant, leaves a complete chain for `V`, and returns the
address of offset `V mod PAGE_SIZE` in the frame the chain leads to. -/
theorem treeLogic_spec {g : Geometry} (hg : g.Valid) {V : Nat}
    (hV : V < g.VIRTUAL_MEMORY_SIZE) {m : Machine} {A : Nat → Int} (hi : AbsInv g m A) :
    AbsInv g (treeLogic g m V).1 A ∧
    ∃ f, walk g (treeLogic g m V).1.ram (slices g V) = some f ∧ f < g.NUM_FRAMES ∧
      (treeLogic g m V).2 = f * g.PAGE_SIZE + V % g.PAGE_SIZE := by
  have h := walkLevels_inv hg hV hi g.TABLES_DEPTH (le_refl _)
  unfold treeLogic
  simp only []
  refine ⟨h.abs, (walkLevels g V m g.TABLES_DEPTH).newTable, h.path, ?_, ?_⟩
  · exact h.abs.tree.toPreTree.live_lt hg _ (slicesUpTo_valid g V (le_refl _)) _ h.path
  · rw [h.mask, h.page, Nat.sub_self, Nat.mul_zero, Nat.shiftLeft_zero, g.PAGE_SIZE_sub_one,
      Nat.and_pow_two_sub_one_eq_mod]
    have hf := h.abs.tree.toPreTree.live_lt hg _ (slicesUpTo_valid g V (le_refl _)) _ h.path
    exact hg.u64_addr hf (Nat.mod_lt _ g.PAGE_SIZE_pos)

end HPageTable

namespace HPageTable

/-! ## The client API keeps the invariant -/

/-- A change of physical memory that no walk and no live entry sees keeps the tree
well-formed. -/
theorem TreeInv.congr {g : Geometry} {ram ram' : Nat → Int} (ht : TreeInv g ram)
    (hw : ∀ p, ValidPath g p → walk g ram' p = walk g ram p)
    (he : ∀ t i, LiveEntry g ram t i → ram' (t * g.PAGE_SIZE + i) = ram (t * g.PAGE_SIZE + i)) :
    TreeInv g ram' := by
  have hle : ∀ t i, LiveEntry g ram' t i → LiveEntry g ram t i := by
    rintro t i ⟨p, hv, hl, hp, hi⟩
    exact ⟨p, hv, hl, by rw [← hw p hv]; exact hp, hi⟩
  have hr1 : ∀ f, Referenced g ram' f → Referenced g ram f := by
    rintro f ⟨p, hv, hne, hp⟩
    exact ⟨p, hv, hne, by rw [← hw p hv]; exact hp⟩
  have hr2 : ∀ f, Referenced g ram f → Referenced g ram' f := by
    rintro f ⟨p, hv, hne, hp⟩
    exact ⟨p, hv, hne, by rw [hw p hv]; exact hp⟩
  refine ⟨⟨?_, ?_⟩, ?_⟩
  · intro t i h
    rw [he t i (hle t i h)]
    exact ht.range t i (hle t i h)
  · intro p q f hvp hvq hp hq
    rw [hw p hvp] at hp
    rw [hw q hvq] at hq
    exact ht.inj p q f hvp hvq hp hq
  · intro f f' hf h1 h2
    exact hr2 f' (ht.closed f f' (hr1 f hf) h1 h2)

/-- Writing a word of a resident data page keeps the invariant, for the updated
contents. -/
theorem write_word_abs {g : Geometry} (hg : g.Valid) {m : Machine} {A : Nat → Int}
    (hi : AbsInv g m A) {V f : Nat} (hV : V < g.VIRTUAL_MEMORY_SIZE)
    (hw : walk g m.ram (slices g V) = some f) (x : Int) :
    AbsInv g (PMwrite m (f * g.PAGE_SIZE + V % g.PAGE_SIZE) x)
      (fun a => if a = V then x else A a) := by
  have hpre := hi.tree.toPreTree
  have hvs : ValidPath g (slices g V) := slicesUpTo_valid g V (le_refl _)
  have hls : (slices g V).length = g.TABLES_DEPTH := slicesUpTo_length g V _
  have hoff : V % g.PAGE_SIZE < g.PAGE_SIZE := Nat.mod_lt _ g.PAGE_SIZE_pos
  have hent : ∀ t i, LiveEntry g m.ram t i →
      (PMwrite m (f * g.PAGE_SIZE + V % g.PAGE_SIZE) x).ram (t * g.PAGE_SIZE + i) =
        m.ram (t * g.PAGE_SIZE + i) := by
    rintro t i ⟨q, hvq, hlq, hq, hiq⟩
    rw [PMwrite_ram, if_neg]
    intro ha
    obtain ⟨e1, _⟩ := addr_inj hiq hoff ha
    exact hpre.leaf_ne_table hvs hvq (by omega) hw hq e1.symm
  have hwalk : ∀ p, ValidPath g p →
      walk g (PMwrite m (f * g.PAGE_SIZE + V % g.PAGE_SIZE) x).ram p = walk g m.ram p := by
    apply walk_congr
    intro q t i hvq hlq hq hiq
    apply child_congr
    rw [hg.u64_addr (hpre.live_lt hg q hvq t hq) hiq]
    exact hent t i ⟨q, hvq, hlq, hq, hiq⟩
  refine ⟨hi.tree.congr hwalk hent, ?_⟩
  intro p hv hl off ho
  have hA := hi.data p hv hl off ho
  unfold pageWord at hA ⊢
  rw [hwalk p hv]
  beta_reduce
  have hVeq := pageNum_slices_addr g hV
  by_cases hp : p = slices g V
  · subst hp
    rw [hw] at hA ⊢
    simp only [] at hA ⊢
    rw [PMwrite_ram]
    by_cases ho' : off = V % g.PAGE_SIZE
    · subst ho'
      rw [if_pos rfl, if_pos hVeq]
    · have h1 : f * g.PAGE_SIZE + off ≠ f * g.PAGE_SIZE + V % g.PAGE_SIZE := by omega
      have h2 : pageNum g (slices g V) * g.PAGE_SIZE + off ≠ V := by omega
      rw [if_neg h1, if_neg h2]
      exact hA
  · have hne : pageNum g p * g.PAGE_SIZE + off ≠ V := by
      intro h
      rw [← hVeq] at h
      obtain ⟨e1, _⟩ := addr_inj ho hoff h
      exact hp (pageNum_inj g p _ (by rw [hl, hls]) hv.2 hvs.2 e1)
    rw [if_neg hne]
    cases hwp : walk g m.ram p with
    | none =>
      rw [hwp] at hA
      exact hA
    | some f' =>
      rw [hwp] at hA
      simp only [] at hA ⊢
      rw [PMwrite_ram, if_neg]
      · exact hA
      · intro ha
        obtain ⟨e1, _⟩ := addr_inj ho hoff ha
        subst e1
        exact hp (hpre.inj p _ f' hv hvs hwp hw)

/-- `VMread` of an in-range address returns 1 and the stored word, and keeps the
invariant. -/
theorem VMread_spec {g : Geometry} (hg : g.Valid) {m : Machine} {A : Nat → Int}
    (hi : AbsInv g m A) {V : Nat} (hV : V < g.VIRTUAL_MEMORY_SIZE) (value : Int) :
    (VMread g m V value).1 = 1 ∧ (VMread g m V value).2.1 = A V ∧
      AbsInv g (VMread g m V value).2.2 A := by
  obtain ⟨habs, f, hw, _, ht⟩ := treeLogic_spec hg hV hi
  unfold VMread
  rw [if_neg (by omega)]
  refine ⟨rfl, ?_, habs⟩
  simp only [PMread]
  rw [ht]
  have hA := habs.data (slices g V) (slicesUpTo_valid g V (le_refl _))
    (slicesUpTo_length g V _) (V % g.PAGE_SIZE) (Nat.mod_lt _ g.PAGE_SIZE_pos)
  unfold pageWord at hA
  rw [hw] at hA
  simp only [] at hA
  rw [hA, pageNum_slices_addr g hV]

/-- `VMwrite` of an in-range address returns 1 and keeps the invariant, for the updated
contents. -/
theorem VMwrite_spec {g : Geometry} (hg : g.Valid) {m : Machine} {A : Nat → Int}
    (hi : AbsInv g m A) {V : Nat} (hV : V < g.VIRTUAL_MEMORY_SIZE) (x : Int) :
    (VMwrite g m V x).1 = 1 ∧
      AbsInv g (VMwrite g m V x).2 (fun a => if a = V then x else A a) := by
  obtain ⟨habs, f, hw, _, ht⟩ := treeLogic_spec hg hV hi
  unfold VMwrite
  rw [if_neg (by omega)]
  refine ⟨rfl, ?_⟩
  simp only []
  rw [ht]
  exact write_word_abs hg habs hV hw x

theorem VMread_out_of_range (g : Geometry) (m : Machine) {V : Nat}
    (hV : g.VIRTUAL_MEMORY_SIZE ≤ V) (value : Int) : VMread g m V value = (0, value, m) := by
  unfold VMread
  rw [if_pos hV]

theorem VMwrite_out_of_range (g : Geometry) (m : Machine) {V : Nat}
    (hV : g.VIRTUAL_MEMORY_SIZE ≤ V) (x : Int) : VMwrite g m V x = (0, m) := by
  unfold VMwrite
  rw [if_pos hV]

/-! ## Initialization -/

theorem VMinitialize_ram {g : Geometry} (hg : g.Valid) (m : Machine) (a : Nat) :
    ( VMinitialize g m).ram a = if a < g.PAGE_SIZE then 0 else m.ram a := by
  unfold VMinitialize
  rw [clearTable_ram]
  have key : (∃ i, i < g.PAGE_SIZE ∧ u64 (0 * g.PAGE_SIZE + i) = a) ↔ a < g.PAGE_SIZE := by
    constructor
    · rintro ⟨i, hi, e⟩
      rw [hg.u64_addr hg.frames_pos hi] at e
      omega
    · intro h
      exact ⟨a, h, by rw [hg.u64_addr hg.frames_pos h]; omega⟩
  simp only [key]

theorem walk_of_root_empty {g : Geometry} {ram : Nat → Int} (he : TableEmpty g ram 0)
    {p : List Nat} (hv : ValidPath g p) (hne : p ≠ []) : walk g ram p = none :=
  walkFrom_empty he hne hv.2

/-- After `VMinitialize` on an empty backing store the machine stores the all-zero
virtual memory. -/
theorem init_abs {g : Geometry} (hg : g.Valid) (ram : Nat → Int) :
    AbsInv g ( VMinitialize g ⟨ram, fun _ => none⟩) (fun _ => 0) := by
  have hr := VMinitialize_ram hg ⟨ram, fun _ => none⟩
  have he : TableEmpty g ( VMinitialize g ⟨ram, fun _ => none⟩).ram 0 := by
    intro i hi
    rw [hg.u64_addr hg.frames_pos hi, hr, if_pos (by omega)]
  have hnil : ∀ p f, ValidPath g p →
      walk g ( VMinitialize g ⟨ram, fun _ => none⟩).ram p = some f → p = [] ∧ f = 0 := by
    intro p f hv hp
    by_cases hne : p = []
    · subst hne
      exact ⟨rfl, (Option.some.inj hp).symm⟩
    · rw [walk_of_root_empty he hv hne] at hp
      cases hp
  refine ⟨⟨⟨?_, ?_⟩, ?_⟩, ?_⟩
  · rintro t i ⟨p, hv, _, hp, hi⟩
    obtain ⟨_, rfl⟩ := hnil p t hv hp
    exact ⟨0, by rw [hr, if_pos (by omega)]; rfl, hg.frames_pos⟩
  · intro p q f hvp hvq hp hq
    rw [(hnil p f hvp hp).1, (hnil q f hvq hq).1]
  · rintro f f' ⟨p, hv, hne, hp⟩ _ _
    exact absurd (hnil p f hv hp).1 hne
  · intro p hv hl off ho
    unfold pageWord
    by_cases hne : p = []
    · subst hne
      simp only [walk_nil]
      rw [hr, if_pos (by omega)]
    · rw [walk_of_root_empty he hv hne]
      simp only []
      have : ( VMinitialize g ⟨ram, fun _ => none⟩).swap = fun _ => none :=
        clearTable_swap g _ 0
      unfold swapWord
      rw [this]

/-- Every reachable machine state stores some virtual memory contents in a well-formed
tree. -/
theorem Reachable.abs {g : Geometry} (hg : g.Valid) {m : Machine} (h : Reachable g m) :
    ∃ A, AbsInv g m A := by
  induction h with
  | init ram => exact ⟨_, init_abs hg ram⟩
  | @read m v value _ ih =>
    obtain ⟨A, hA⟩ := ih
    by_cases hv : v < g.VIRTUAL_MEMORY_SIZE
    · exact ⟨A, (VMread_spec hg hA hv value).2.2⟩
    · rw [VMread_out_of_range g m (by omega)]
      exact ⟨A, hA⟩
  | @write m v value _ ih =>
    obtain ⟨A, hA⟩ := ih
    by_cases hv : v < g.VIRTUAL_MEMORY_SIZE
    · exact ⟨_, (VMwrite_spec hg hA hv value).2⟩
    · rw [VMwrite_out_of_range g m (by omega)]
      exact ⟨A, hA⟩

end HPageTable

namespace HPageTable

/-! ## The walk in reachable states -/

/-- In a reachable state the loop invariant holds before every iteration of the loop of
`treeLogic`. -/
theorem Reachable.walkInv {g : Geometry} (hg : g.Valid) {m : Machine} (hm : Reachable g m)
    {V : Nat} (hV : V < g.VIRTUAL_MEMORY_SIZE) {n : Nat} (hn : n ≤ g.TABLES_DEPTH) :
    ∃ A, WalkInv g V A n (walkLevels g V m n) := by
  obtain ⟨A, hA⟩ := hm.abs hg
  exact ⟨A, walkLevels_inv hg hV hA n hn⟩

theorem slicesUpTo_initial (g : Geometry) (V : Nat) {i n : Nat} (h : i ≤ n) :
    slicesUpTo g V i <+: slicesUpTo g V n := by
  induction n with
  | zero =>
    have : i = 0 := by omega
    subst this
    exact List.prefix_refl _
  | succ n ih =>
    by_cases hi : i = n + 1
    · subst hi
      exact List.prefix_refl _
    · rw [slicesUpTo_succ]
      exact (ih (by omega)).trans (List.prefix_append _ _)

/-- A complete chain, level by level. -/
theorem chain_levels {g : Geometry} {ram : Nat → Int} {V f : Nat}
    (hw : walk g ram (slices g V) = some f) {i : Nat} (hi : i < g.TABLES_DEPTH) :
    ∃ t, walk g ram (slicesUpTo g V i) = some t ∧
      ram (u64 (t * g.PAGE_SIZE + slice g V i)) ≠ 0 := by
  obtain ⟨r, hr⟩ := slicesUpTo_initial g V (show i + 1 ≤ g.TABLES_DEPTH by omega)
  have hw' : walk g ram (slicesUpTo g V (i + 1) ++ r) = some f := by
    rw [hr]; exact hw
  obtain ⟨t', ht'⟩ := walk_prefix_some hw'
  rw [slicesUpTo_succ, walk_snoc] at ht'
  cases hp : walk g ram (slicesUpTo g V i) with
  | none => rw [hp] at ht'; cases ht'
  | some t =>
    rw [hp, Option.some_bind] at ht'
    refine ⟨t, rfl, ?_⟩
    intro h0
    unfold child at ht'
    rw [if_pos h0] at ht'
    cases ht'

/-- On a hit at every level the walk changes nothing. -/
theorem walkLevels_hit {g : Geometry} (hg : g.Valid) {m : Machine} {A : Nat → Int}
    (hA : AbsInv g m A) {V f : Nat} (hV : V < g.VIRTUAL_MEMORY_SIZE)
    (hw : walk g m.ram (slices g V) = some f) :
    ∀ n, n ≤ g.TABLES_DEPTH → (walkLevels g V m n).m = m := by
  intro n
  induction n with
  | zero => intro _; rfl
  | succ n ih =>
    intro hn
    have hm := ih (by omega)
    have hi := walkLevels_inv hg hV hA n (by omega)
    rw [walkLevels_succ]
    obtain ⟨t, ht, hne⟩ := chain_levels hw (show n < g.TABLES_DEPTH by omega)
    have hpath := hi.path
    rw [hm, ht] at hpath
    have htn : t = (walkLevels g V m n).newTable := Option.some.inj hpath
    have hptr := indexPtrOf_eq hg hi (by omega)
    have htl := hA.tree.toPreTree.live_lt hg _ (slicesUpTo_valid g V (by omega)) _ ht
    rw [hg.u64_addr htl (slice_lt g V n)] at hne
    have hne' : (walkLevels g V m n).m.ram (indexPtrOf g V (walkLevels g V m n) n) ≠ 0 := by
      rw [hptr, hm, ← htn]
      exact hne
    rw [treeLogicLevel_hit g V _ n hne']
    exact hm

/-- Translating a resident address changes nothing and returns the word at offset
`V mod PAGE_SIZE` of the frame its chain names. -/
theorem treeLogic_hit {g : Geometry} (hg : g.Valid) {m : Machine} {A : Nat → Int}
    (hA : AbsInv g m A) {V f : Nat} (hV : V < g.VIRTUAL_MEMORY_SIZE)
    (hw : walk g m.ram (slices g V) = some f) :
    treeLogic g m V = (m, f * g.PAGE_SIZE + V % g.PAGE_SIZE) := by
  obtain ⟨_, f', hw', _, ht⟩ := treeLogic_spec hg hV hA
  have hm : (treeLogic g m V).1 = m := walkLevels_hit hg hA hV hw _ (le_refl _)
  rw [hm, hw] at hw'
  have : f = f' := Option.some.inj hw'
  subst this
  exact Prod.ext hm ht

/-- A well-formed tree shares no frame between entries. -/
theorem PreTree.noShared {g : Geometry} {ram : Nat → Int} (hg : g.Valid)
    (ht : PreTree g ram) : NoSharedFrame g ram := by
  rintro t i t' i' ⟨p, hv, hl, hp, hi⟩ ⟨p', hv', hl', hp', hi'⟩ h0 he
  obtain ⟨c, _, hcr, _, _, hch⟩ := ht.live_child hg hv hl hp hi
  obtain ⟨c', _, hcr', _, _, hch'⟩ := ht.live_child hg hv' hl' hp' hi'
  have hcc : c = c' := by
    rw [hcr, hcr'] at he
    exact_mod_cast he
  subst hcc
  have hc0 : c ≠ 0 := by
    intro h
    rw [hcr, h] at h0
    exact h0 rfl
  have h1 := walk_snoc_of_entry hp hch hc0
  have h2 := walk_snoc_of_entry hp' hch' hc0
  obtain ⟨e1, e2⟩ := snoc_eq_snoc (ht.inj _ _ c (hv.snoc hl hi) (hv'.snoc hl' hi') h1 h2)
  subst e1
  rw [hp] at hp'
  exact ⟨Option.some.inj hp', e2⟩

/-- After the survey, `maxUsedFrame` is the largest referenced frame index. -/
theorem survey_isMaxRef {g : Geometry} {ram : Nat → Int} (hg : g.Valid) (ht : PreTree g ram)
    (toAvoid : Nat) {mfi : Int} (hTD : 0 < g.TABLES_DEPTH) (hm : MaxOK g ram mfi) :
    IsMaxRef g ram (survey g ram toAvoid mfi).maxUsedFrame := by
  have hok := survey_max_ok hg ht toAvoid hTD hm
  constructor
  · intro t i hle
    rcases survey_max_ge hg ht toAvoid mfi hle with h | h
    · exact h
    · rw [h]; exact hok.nonneg
  · rcases hok with h | ⟨f, hf, hr⟩
    · exact Or.inl h
    · right
      obtain ⟨t, i, hle, he, _, _⟩ := hr.entry hg ht
      exact ⟨t, i, hle, by rw [he, hf]⟩

/-- The stored contents are kept by calls that are not writes to `v`. -/
theorem runOps_abs {g : Geometry} (hg : g.Valid) (v : Nat) (x : Int) (ops : List Op) :
    ∀ (m : Machine) (A : Nat → Int), AbsInv g m A → A v = x →
      (∀ op ∈ ops, op.Spares g v) → ∃ A', AbsInv g (runOps g m ops) A' ∧ A' v = x := by
  induction ops with
  | nil => intro m A hA hx _; exact ⟨A, hA, hx⟩
  | cons op ops ih =>
    intro m A hA hx hs
    have hop := hs op (by simp)
    have hrest : ∀ o ∈ ops, o.Spares g v := fun o ho => hs o (List.mem_cons_of_mem _ ho)
    unfold runOps
    rw [List.foldl_cons]
    cases op with
    | read u value =>
      exact ih _ A (VMread_spec hg hA hop value).2.2 hx hrest
    | write u y =>
      obtain ⟨hu, hne⟩ := hop
      exact ih _ _ (VMwrite_spec hg hA hu y).2 (by
        show (if v = u then y else A v) = x
        rw [if_neg (Ne.symm hne)]; exact hx) hrest

end HPageTable

namespace HPageTable

/-! ## Main results -/

theorem exampleGeometry_valid : exampleGeometry.Valid :=
  ⟨by decide, by decide, by decide⟩

/-- C1: in every state reachable from `VMinitialize`, for a geometry with
`NUM_FRAMES >= TABLES_DEPTH + 1` that fits the machine types, `VMwrite(v, x)` of an
in-range address returns 1 and the `VMread(v)` issued immediately afterwards returns 1
with value `x`. -/
theorem read_after_write {g : Geometry} (hg : g.Valid) {m : Machine} (hm : Reachable g m)
    {v : Nat} (hv : v < g.VIRTUAL_MEMORY_SIZE) (x value : Int) :
    (VMwrite g m v x).1 = 1 ∧ (VMread g (VMwrite g m v x).2 v value).1 = 1 ∧
      (VMread g (VMwrite g m v x).2 v value).2.1 = x := by
  obtain ⟨A, hA⟩ := hm.abs hg
  obtain ⟨h1, h2⟩ := VMwrite_spec hg hA hv x
  obtain ⟨h3, h4, _⟩ := VMread_spec hg h2 hv value
  refine ⟨h1, h3, ?_⟩
  rw [h4, if_pos rfl]

theorem read_after_write_witness :
    (VMwrite exampleGeometry ( VMinitialize exampleGeometry exampleMachine) 13 7).1 = 1 ∧
    (VMread exampleGeometry
      (VMwrite exampleGeometry ( VMinitialize exampleGeometry exampleMachine) 13 7).2
      13 0).1 = 1 ∧
    (VMread exampleGeometry
      (VMwrite exampleGeometry ( VMinitialize exampleGeometry exampleMachine) 13 7).2
      13 0).2.1 = 7 :=
  read_after_write exampleGeometry_valid (Reachable.init _) (by decide) 7 0

/-- C2: in every reachable state, after `VMwrite(v, x)` of an in-range address followed
by any finite sequence of in-range `VMread` calls and in-range `VMwrite` calls to
addresses other than `v`, `VMread(v)` returns 1 with value `x`; the driver evicts a
frame under its page key and restores the stored words, zeros if never evicted. -/
theorem read_after_write_survives {g : Geometry} (hg : g.Valid) {m : Machine}
    (hm : Reachable g m) {v : Nat} (hv : v < g.VIRTUAL_MEMORY_SIZE) (x value : Int)
    (ops : List Op) (hops : ∀ op ∈ ops, op.Spares g v) :
    (VMread g (runOps g (VMwrite g m v x).2 ops) v value).1 = 1 ∧
      (VMread g (runOps g (VMwrite g m v x).2 ops) v value).2.1 = x := by
  obtain ⟨A, hA⟩ := hm.abs hg
  obtain ⟨_, h2⟩ := VMwrite_spec hg hA hv x
  obtain ⟨A', hA', hx⟩ := runOps_abs hg v x ops _ _ h2 (by
    show (if v = v then x else A v) = x
    rw [if_pos rfl]) hops
  obtain ⟨h3, h4, _⟩ := VMread_spec hg hA' hv value
  exact ⟨h3, by rw [h4, hx]⟩

theorem read_after_write_survives_witness :
    (VMread exampleGeometry
      (runOps exampleGeometry
        (VMwrite exampleGeometry ( VMinitialize exampleGeometry exampleMachine) 0 1).2
        [Op.write 16 2, Op.write 32 3, Op.write 48 4, Op.read 16 0]) 0 0).1 = 1 ∧
    (VMread exampleGeometry
      (runOps exampleGeometry
        (VMwrite exampleGeometry ( VMinitialize exampleGeometry exampleMachine) 0 1).2
        [Op.write 16 2, Op.write 32 3, Op.write 48 4, Op.read 16 0]) 0 0).2.1 = 1 :=
  read_after_write_survives exampleGeometry_valid (Reachable.init _) (by decide) 1 0
    [Op.write 16 2, Op.write 32 3, Op.write 48 4, Op.read 16 0] (by
      intro op h
      simp only [List.mem_cons, List.mem_singleton, List.not_mem_nil, or_false] at h
      rcases h with rfl | rfl | rfl | rfl
      · exact ⟨by decide, by decide⟩
      · exact ⟨by decide, by decide⟩
      · exact ⟨by decide, by decide⟩
      · show (16 : Nat) < exampleGeometry.VIRTUAL_MEMORY_SIZE
        decide)

/-- C3: for every state and every address at or beyond `VIRTUAL_MEMORY_SIZE`, `VMread`
and `VMwrite` return 0 and leave physical memory, the backing store and the output word
unchanged; for every address below `VIRTUAL_MEMORY_SIZE` both return 1. -/
theorem out_of_range_rejected (g : Geometry) (m : Machine) (v : Nat) (value x : Int) :
    (g.VIRTUAL_MEMORY_SIZE ≤ v →
      VMread g m v value = (0, value, m) ∧ VMwrite g m v x = (0, m)) ∧
    (v < g.VIRTUAL_MEMORY_SIZE →
      (VMread g m v value).1 = 1 ∧ (VMwrite g m v x).1 = 1) := by
  constructor
  · intro h
    exact ⟨VMread_out_of_range g m h value, VMwrite_out_of_range g m h x⟩
  · intro h
    unfold VMread VMwrite
    rw [if_neg (by omega), if_neg (by omega)]
    exact ⟨rfl, rfl⟩

theorem out_of_range_rejected_witness :
    (VMread exampleGeometry exampleMachine 4096 9 = (0, 9, exampleMachine) ∧
      VMwrite exampleGeometry exampleMachine 4096 3 = (0, exampleMachine)) ∧
    ((VMread exampleGeometry exampleMachine 4095 9).1 = 1 ∧
      (VMwrite exampleGeometry exampleMachine 4095 3).1 = 1) :=
  ⟨(out_of_range_rejected exampleGeometry exampleMachine 4096 9 3).1 (by decide),
   (out_of_range_rejected exampleGeometry exampleMachine 4095 9 3).2 (by decide)⟩

/-- C4: in every reachable state and for every in-range address `V`, in the state left
by `treeLogic(V)` the walk from frame 0 through the `TABLES_DEPTH` slices of `V` (most
significant first) reads a non-zero entry at every level. -/
theorem complete_chain_after_translation {g : Geometry} (hg : g.Valid) {m : Machine}
    (hm : Reachable g m) {V : Nat} (hV : V < g.VIRTUAL_MEMORY_SIZE) :
    (∃ f, walk g (treeLogic g m V).1.ram (slices g V) = some f) ∧
    ∀ i, i < g.TABLES_DEPTH →
      ∃ t, walk g (treeLogic g m V).1.ram (slicesUpTo g V i) = some t ∧
        (treeLogic g m V).1.ram (t * g.PAGE_SIZE + slice g V i) ≠ 0 := by
  obtain ⟨A, hA⟩ := hm.abs hg
  obtain ⟨habs, f, hw, _, _⟩ := treeLogic_spec hg hV hA
  refine ⟨⟨f, hw⟩, ?_⟩
  intro i hi
  obtain ⟨t, ht, hne⟩ := chain_levels hw hi
  have htl := habs.tree.toPreTree.live_lt hg _ (slicesUpTo_valid g V (by omega)) _ ht
  rw [hg.u64_addr htl (slice_lt g V i)] at hne
  exact ⟨t, ht, hne⟩

theorem complete_chain_after_translation_witness :
    (∃ f, walk exampleGeometry
      (treeLogic exampleGeometry ( VMinitialize exampleGeometry exampleMachine) 13).1.ram
      (slices exampleGeometry 13) = some f) ∧
    ∀ i, i < exampleGeometry.TABLES_DEPTH →
      ∃ t, walk exampleGeometry
          (treeLogic exampleGeometry ( VMinitialize exampleGeometry exampleMachine) 13).1.ram
          (slicesUpTo exampleGeometry 13 i) = some t ∧
        (treeLogic exampleGeometry ( VMinitialize exampleGeometry exampleMachine) 13).1.ram
          (t * exampleGeometry.PAGE_SIZE + slice exampleGeometry 13 i) ≠ 0 :=
  complete_chain_after_translation exampleGeometry_valid (Reachable.init _) (by decide)

/-- C5: in every state reachable from `VMinitialize` by `VMread`/`VMwrite` calls, no two
distinct page-table entries of tables reachable from the root hold the same non-zero
frame index, and the same holds after any further `VMread` or `VMwrite`. -/
theorem tree_shape_invariant {g : Geometry} (hg : g.Valid) {m : Machine}
    (hm : Reachable g m) :
    NoSharedFrame g m.ram ∧
    (∀ v value, NoSharedFrame g (VMread g m v value).2.2.ram) ∧
    (∀ v x, NoSharedFrame g (VMwrite g m v x).2.ram) := by
  refine ⟨?_, ?_, ?_⟩
  · obtain ⟨A, hA⟩ := hm.abs hg
    exact hA.tree.toPreTree.noShared hg
  · intro v value
    obtain ⟨A, hA⟩ := (Reachable.read v value hm).abs hg
    exact hA.tree.toPreTree.noShared hg
  · intro v x
    obtain ⟨A, hA⟩ := (Reachable.write v x hm).abs hg
    exact hA.tree.toPreTree.noShared hg

theorem tree_shape_invariant_witness :
    NoSharedFrame exampleGeometry ( VMinitialize exampleGeometry exampleMachine).ram ∧
    (∀ v value, NoSharedFrame exampleGeometry
      (VMread exampleGeometry ( VMinitialize exampleGeometry exampleMachine) v value).2.2.ram) ∧
    (∀ v x, NoSharedFrame exampleGeometry
      (VMwrite exampleGeometry ( VMinitialize exampleGeometry exampleMachine) v x).2.ram) :=
  tree_shape_invariant exampleGeometry_valid (Reachable.init _)

/-- C6: in every reachable state, on a miss at any level `i` of `treeLogic` the frame
index `nextAddr` chosen (by whichever of the three branches) and written into the
parent entry satisfies `1 <= nextAddr < NUM_FRAMES` and differs from the frame that
holds that entry; in particular it is never frame 0. -/
theorem allocator_range_and_avoid {g : Geometry} (hg : g.Valid) {m : Machine}
    (hm : Reachable g m) {V : Nat} (hV : V < g.VIRTUAL_MEMORY_SIZE) {i : Nat}
    (hi : i < g.TABLES_DEPTH)
    (hmiss : (walkLevels g V m i).m.ram
      (indexPtrOf g V (walkLevels g V m i) i) = 0) :
    ∃ F : Nat,
      (chooseFrame g (walkLevels g V m i).m (surveyOf g (walkLevels g V m i))).1 = (F : Int) ∧
      1 ≤ F ∧ F < g.NUM_FRAMES ∧ F ≠ (walkLevels g V m i).newTable ∧
      indexPtrOf g V (walkLevels g V m i) i =
        (walkLevels g V m i).newTable * g.PAGE_SIZE + slice g V i ∧
      (treeLogicLevel g V (walkLevels g V m i) i).m.ram
        (indexPtrOf g V (walkLevels g V m i) i) = (F : Int) ∧
      (treeLogicLevel g V (walkLevels g V m i) i).newTable = F := by
  obtain ⟨A, hw⟩ := hm.walkInv hg hV (Nat.le_of_lt hi)
  have hv0 := slicesUpTo_valid g V (Nat.le_of_lt hi)
  have hl0 : (slicesUpTo g V i).length < g.TABLES_DEPTH := by
    rw [slicesUpTo_length]; exact hi
  have hptr := indexPtrOf_eq hg hw (Nat.le_of_lt hi)
  have hs := slice_lt g V i
  have h0 := hmiss
  rw [hptr] at h0
  obtain ⟨F, hF, hd⟩ := choose_spec hg hw.abs hv0 hl0 hw.path h0 hw.max
  have hcF : (walkLevels g V m i).newTable ≠ F := fun e => hd.unref _ hv0 (e ▸ hd.path)
  refine ⟨F, by rw [surveyOf_eq]; exact hF, hd.frame_pos, hd.frame_lt, Ne.symm hcF, hptr, ?_, ?_⟩
  · rw [treeLogicLevel_miss g V _ i hmiss]
    simp only []
    rw [surveyOf_eq, hF, hptr]
    exact (linkFrame_ram hg _ hd.frame_lt hs hcF _ _).1
  · rw [treeLogicLevel_miss g V _ i hmiss]
    simp only []
    rw [surveyOf_eq, hF]
    exact wordToU64_natCast (hg.frame_lt hd.frame_lt)

theorem allocator_range_and_avoid_witness :
    ∃ F : Nat,
      (chooseFrame exampleGeometry
        (walkLevels exampleGeometry 13 ( VMinitialize exampleGeometry exampleMachine) 0).m
        (surveyOf exampleGeometry
          (walkLevels exampleGeometry 13 ( VMinitialize exampleGeometry exampleMachine) 0))).1
        = (F : Int) ∧
      1 ≤ F ∧ F < exampleGeometry.NUM_FRAMES ∧
      F ≠ (walkLevels exampleGeometry 13
        ( VMinitialize exampleGeometry exampleMachine) 0).newTable ∧
      indexPtrOf exampleGeometry 13
        (walkLevels exampleGeometry 13 ( VMinitialize exampleGeometry exampleMachine) 0) 0 =
        (walkLevels exampleGeometry 13
          ( VMinitialize exampleGeometry exampleMachine) 0).newTable *
          exampleGeometry.PAGE_SIZE + slice exampleGeometry 13 0 ∧
      (treeLogicLevel exampleGeometry 13
        (walkLevels exampleGeometry 13 ( VMinitialize exampleGeometry exampleMachine) 0) 0).m.ram
        (indexPtrOf exampleGeometry 13
          (walkLevels exampleGeometry 13 ( VMinitialize exampleGeometry exampleMachine) 0) 0)
        = (F : Int) ∧
      (treeLogicLevel exampleGeometry 13
        (walkLevels exampleGeometry 13 ( VMinitialize exampleGeometry exampleMachine) 0)
        0).newTable = F :=
  allocator_range_and_avoid exampleGeometry_valid (Reachable.init _) (by decide) (by decide)
    (by decide)

end HPageTable

namespace HPageTable

/-- Two resident addresses with the same physical word address coincide. -/
theorem resident_addr_inj {g : Geometry} {ram : Nat → Int}
    (ht : PreTree g ram) {V V' F F' : Nat} (hV : V < g.VIRTUAL_MEMORY_SIZE)
    (hV' : V' < g.VIRTUAL_MEMORY_SIZE) (hw : walk g ram (slices g V) = some F)
    (hw' : walk g ram (slices g V') = some F')
    (he : F * g.PAGE_SIZE + V % g.PAGE_SIZE = F' * g.PAGE_SIZE + V' % g.PAGE_SIZE) :
    V = V' := by
  obtain ⟨e1, e2⟩ := addr_inj (Nat.mod_lt _ g.PAGE_SIZE_pos) (Nat.mod_lt _ g.PAGE_SIZE_pos) he
  subst e1
  have hs : slices g V = slices g V' := ht.inj _ _ F (slicesUpTo_valid g V (le_refl _))
    (slicesUpTo_valid g V' (le_refl _)) hw hw'
  have h1 := pageNum_slices_addr g hV
  have h2 := pageNum_slices_addr g hV'
  rw [hs, e2] at h1
  omega

/-- C7, amended: in every reachable state and for every in-range `V`, at level `i`
`treeLogic` reads the entry at `currentFrame * PAGE_SIZE + ((V >> (OFFSET_WIDTH *
(TABLES_DEPTH - i))) mod PAGE_SIZE)`; the address it returns is `F * PAGE_SIZE + (V mod
PAGE_SIZE)` for the frame `F` named by the leaf entry of the chain of `V` in the
post-state; and two in-range addresses whose chains are both complete in the same state
are translated without changing that state and never to the same physical word. -/
theorem walker_address_arithmetic {g : Geometry} (hg : g.Valid) {m : Machine}
    (hm : Reachable g m) {V : Nat} (hV : V < g.VIRTUAL_MEMORY_SIZE) :
    (∀ i, i < g.TABLES_DEPTH →
      (walkLevels g V m i).pageAddr = (walkLevels g V m i).newTable * g.PAGE_SIZE ∧
      walk g (walkLevels g V m i).m.ram (slicesUpTo g V i) =
        some (walkLevels g V m i).newTable ∧
      indexPtrOf g V (walkLevels g V m i) i =
        (walkLevels g V m i).newTable * g.PAGE_SIZE +
          (V >>> (g.OFFSET_WIDTH * (g.TABLES_DEPTH - i))) % g.PAGE_SIZE) ∧
    (∃ F, walk g (treeLogic g m V).1.ram (slices g V) = some F ∧
      (treeLogic g m V).2 = F * g.PAGE_SIZE + V % g.PAGE_SIZE) ∧
    (∀ V' F F', V' < g.VIRTUAL_MEMORY_SIZE → walk g m.ram (slices g V) = some F →
      walk g m.ram (slices g V') = some F' →
      (treeLogic g m V).1 = m ∧ (treeLogic g m V').1 = m ∧
      ((treeLogic g m V).2 = (treeLogic g m V').2 → V = V')) := by
  obtain ⟨A, hA⟩ := hm.abs hg
  refine ⟨?_, ?_, ?_⟩
  · intro i hi
    have hw := walkLevels_inv hg hV hA i (Nat.le_of_lt hi)
    exact ⟨hw.page, hw.path, indexPtrOf_eq hg hw (Nat.le_of_lt hi)⟩
  · obtain ⟨_, f, hw, _, ht⟩ := treeLogic_spec hg hV hA
    exact ⟨f, hw, ht⟩
  · intro V' F F' hV' hw hw'
    rw [treeLogic_hit hg hA hV hw, treeLogic_hit hg hA hV' hw']
    exact ⟨rfl, rfl, fun he => resident_addr_inj hA.tree.toPreTree hV hV' hw hw' he⟩

set_option maxRecDepth 100000 in
/-- C8, counterexample: with `NUM_FRAMES = 1 < TABLES_DEPTH + 1 = 2`, `VMinitialize`
reports nothing and a subsequent `VMwrite` is translated: it returns 1 and stores the
word in physical memory. -/
theorem geometry_check_counterexample :
    tinyGeometry.NUM_FRAMES < tinyGeometry.TABLES_DEPTH + 1 ∧
    (VMwrite tinyGeometry ( VMinitialize tinyGeometry exampleMachine) 1 5).1 = 1 ∧
    (VMwrite tinyGeometry ( VMinitialize tinyGeometry exampleMachine) 1 5).2.ram 1 = 5 := by
  decide

/-- C8, amended: `VMinitialize` performs no geometry check; whatever `NUM_FRAMES` and
`TABLES_DEPTH` are, it zeroes the `PAGE_SIZE` words of frame 0, keeps every other word
and the backing store, and every later in-range `VMread`/`VMwrite` returns 1. -/
theorem VMinitialize_no_geometry_check (g : Geometry) (m : Machine)
    (hP : g.PAGE_SIZE ≤ 2 ^ 64) :
    ( VMinitialize g m).swap = m.swap ∧
    (∀ a, ( VMinitialize g m).ram a = if a < g.PAGE_SIZE then 0 else m.ram a) ∧
    (∀ v value x, v < g.VIRTUAL_MEMORY_SIZE →
      (VMread g ( VMinitialize g m) v value).1 = 1 ∧
      (VMwrite g ( VMinitialize g m) v x).1 = 1) := by
  refine ⟨clearTable_swap g m 0, ?_, ?_⟩
  · intro a
    unfold VMinitialize
    rw [clearTable_ram]
    have key : (∃ i, i < g.PAGE_SIZE ∧ u64 (0 * g.PAGE_SIZE + i) = a) ↔ a < g.PAGE_SIZE := by
      constructor
      · rintro ⟨i, hi, e⟩
        rw [Nat.zero_mul, Nat.zero_add, u64_of_lt (by omega)] at e
        omega
      · intro h
        exact ⟨a, h, by rw [Nat.zero_mul, Nat.zero_add, u64_of_lt (by omega)]⟩
    simp only [key]
  · intro v value x hv
    unfold VMread VMwrite
    rw [if_neg (by omega), if_neg (by omega)]
    exact ⟨rfl, rfl⟩

theorem VMinitialize_no_geometry_check_witness :
    ( VMinitialize tinyGeometry exampleMachine).swap = exampleMachine.swap ∧
    (∀ a, ( VMinitialize tinyGeometry exampleMachine).ram a =
      if a < tinyGeometry.PAGE_SIZE then 0 else exampleMachine.ram a) ∧
    (∀ v value x, v < tinyGeometry.VIRTUAL_MEMORY_SIZE →
      (VMread tinyGeometry ( VMinitialize tinyGeometry exampleMachine) v value).1 = 1 ∧
      (VMwrite tinyGeometry ( VMinitialize tinyGeometry exampleMachine) v x).1 = 1) :=
  VMinitialize_no_geometry_check tinyGeometry exampleMachine (by decide)

/-- C9: in every reachable state, on a miss at any level of a translation, the value
`maxFrameIndex` tested after the survey is the largest frame index stored in a non-zero
entry of the live tree (0 if there is none), although the accumulator is not reset
between levels; and when that value + 1 is below `NUM_FRAMES`, the frame linked is that
value + 1 and the machine is not touched by the choice (no detach, no eviction). -/
theorem fresh_frame_rule {g : Geometry} (hg : g.Valid) {m : Machine}
    (hm : Reachable g m) {V : Nat} (hV : V < g.VIRTUAL_MEMORY_SIZE) {i : Nat}
    (hi : i < g.TABLES_DEPTH)
    (hmiss : (walkLevels g V m i).m.ram
      (indexPtrOf g V (walkLevels g V m i) i) = 0) :
    IsMaxRef g (walkLevels g V m i).m.ram (surveyOf g (walkLevels g V m i)).maxUsedFrame ∧
    (treeLogicLevel g V (walkLevels g V m i) i).maxFrameIndex =
      (surveyOf g (walkLevels g V m i)).maxUsedFrame ∧
    ((surveyOf g (walkLevels g V m i)).maxUsedFrame + 1 < (g.NUM_FRAMES : Int) →
      chooseFrame g (walkLevels g V m i).m (surveyOf g (walkLevels g V m i)) =
        ((surveyOf g (walkLevels g V m i)).maxUsedFrame + 1, (walkLevels g V m i).m) ∧
      (treeLogicLevel g V (walkLevels g V m i) i).m.ram
        (indexPtrOf g V (walkLevels g V m i) i) =
          (surveyOf g (walkLevels g V m i)).maxUsedFrame + 1) := by
  obtain ⟨A, hw⟩ := hm.walkInv hg hV (Nat.le_of_lt hi)
  refine ⟨?_, ?_, ?_⟩
  · rw [surveyOf_eq]
    exact survey_isMaxRef hg hw.abs.tree.toPreTree _ (by omega) hw.max
  · rw [treeLogicLevel_miss g V _ i hmiss]
  · intro hlt
    have hch : chooseFrame g (walkLevels g V m i).m (surveyOf g (walkLevels g V m i)) =
        ((surveyOf g (walkLevels g V m i)).maxUsedFrame + 1, (walkLevels g V m i).m) := by
      unfold chooseFrame
      rw [if_pos hlt]
    refine ⟨hch, ?_⟩
    have hv0 := slicesUpTo_valid g V (Nat.le_of_lt hi)
    have hl0 : (slicesUpTo g V i).length < g.TABLES_DEPTH := by
      rw [slicesUpTo_length]; exact hi
    have hptr := indexPtrOf_eq hg hw (Nat.le_of_lt hi)
    have h0 := hmiss
    rw [hptr] at h0
    rw [surveyOf_eq] at hlt
    obtain ⟨F, hF, hd⟩ := choose_fresh hg hw.abs hl0 hw.path h0 hw.max hlt
    have hcF : (walkLevels g V m i).newTable ≠ F := fun e => hd.unref _ hv0 (e ▸ hd.path)
    rw [treeLogicLevel_miss g V _ i hmiss]
    simp only []
    rw [hch]
    simp only []
    rw [surveyOf_eq, ← hF, hptr]
    exact (linkFrame_ram hg _ hd.frame_lt (slice_lt g V i) hcF _ _).1

theorem fresh_frame_rule_witness :
    IsMaxRef exampleGeometry
      (walkLevels exampleGeometry 13 ( VMinitialize exampleGeometry exampleMachine) 0).m.ram
      (surveyOf exampleGeometry
        (walkLevels exampleGeometry 13
          ( VMinitialize exampleGeometry exampleMachine) 0)).maxUsedFrame ∧
    (treeLogicLevel exampleGeometry 13
      (walkLevels exampleGeometry 13 ( VMinitialize exampleGeometry exampleMachine) 0)
      0).maxFrameIndex =
      (surveyOf exampleGeometry
        (walkLevels exampleGeometry 13
          ( VMinitialize exampleGeometry exampleMachine) 0)).maxUsedFrame ∧
    ((surveyOf exampleGeometry
        (walkLevels exampleGeometry 13
          ( VMinitialize exampleGeometry exampleMachine) 0)).maxUsedFrame + 1 <
        (exampleGeometry.NUM_FRAMES : Int) →
      chooseFrame exampleGeometry
        (walkLevels exampleGeometry 13 ( VMinitialize exampleGeometry exampleMachine) 0).m
        (surveyOf exampleGeometry
          (walkLevels exampleGeometry 13 ( VMinitialize exampleGeometry exampleMachine) 0)) =
        ((surveyOf exampleGeometry
          (walkLevels exampleGeometry 13
            ( VMinitialize exampleGeometry exampleMachine) 0)).maxUsedFrame + 1,
          (walkLevels exampleGeometry 13
            ( VMinitialize exampleGeometry exampleMachine) 0).m) ∧
      (treeLogicLevel exampleGeometry 13
        (walkLevels exampleGeometry 13 ( VMinitialize exampleGeometry exampleMachine) 0)
        0).m.ram
        (indexPtrOf exampleGeometry 13
          (walkLevels exampleGeometry 13
            ( VMinitialize exampleGeometry exampleMachine) 0) 0) =
          (surveyOf exampleGeometry
            (walkLevels exampleGeometry 13
              ( VMinitialize exampleGeometry exampleMachine) 0)).maxUsedFrame + 1) :=
  fresh_frame_rule exampleGeometry_valid (Reachable.init _) (by decide) (by decide)
    (by decide)

end HPageTable

namespace HPageTable

/-! ## Scores -/

theorem weight_le (g : Geometry) (x : Nat) : weight g x ≤ max g.WEIGHT_EVEN g.WEIGHT_ODD := by
  unfold weight
  split
  · exact le_max_right _ _
  · exact le_max_left _ _

theorem filterMap_take_snoc (g : Geometry) (ram : Nat → Int) (q : List Nat) (i : Nat) :
    ((List.range q.length).filterMap fun k => walk g ram ((q ++ [i]).take k)) =
      (List.range q.length).filterMap fun k => walk g ram (q.take k) := by
  apply List.filterMap_congr
  intro k hk
  rw [List.mem_range] at hk
  rw [List.take_append_of_le_length (Nat.le_of_lt hk)]

theorem scoreAbove_snoc {g : Geometry} {ram : Nat → Int} {q : List Nat} {t : Nat} (i : Nat)
    (hw : walk g ram q = some t) :
    scoreAbove g ram (q ++ [i]) = scoreAbove g ram q + weight g t := by
  unfold scoreAbove
  rw [List.length_append, List.length_singleton, List.range_succ, List.filterMap_append,
    filterMap_take_snoc]
  have : (q ++ [i]).take q.length = q := by
    rw [List.take_append_of_le_length (le_refl _), List.take_length]
  simp only [List.filterMap_cons, List.filterMap_nil, this, hw, List.map_append, List.map_cons,
    List.map_nil, List.sum_append, List.sum_cons, List.sum_nil, Nat.add_zero]

theorem framesOn_sum {g : Geometry} {ram : Nat → Int} {p : List Nat} {f : Nat}
    (hw : walk g ram p = some f) :
    ((framesOn g ram p).map (weight g)).sum = scoreAbove g ram p + weight g f := by
  unfold framesOn scoreAbove
  rw [List.range_succ, List.filterMap_append]
  simp only [List.filterMap_cons, List.filterMap_nil, List.take_length, hw, List.map_append,
    List.map_cons, List.map_nil, List.sum_append, List.sum_cons, List.sum_nil, Nat.add_zero]

/-- Without overflow, the `curScore` received by a call is the sum of the weights of the
frames above it. -/
theorem nodeFrom_root_score {g : Geometry} (hs : g.ScoreFits) (ram : Nat → Int)
    (q : List Nat) :
    ValidPath g q → ∀ nd, nodeFrom g ram (some rootNode) q = some nd →
      nd.score = scoreAbove g ram q ∧
      nd.score ≤ q.length * max g.WEIGHT_EVEN g.WEIGHT_ODD := by
  induction q using List.reverseRecOn with
  | nil =>
    intro _ nd h
    simp only [nodeFrom_nil, Option.some.injEq] at h
    subst h
    simp [rootNode, scoreAbove]
  | append_singleton q i ih =>
    intro hv nd h
    rw [nodeFrom_snoc] at h
    cases hq : nodeFrom g ram (some rootNode) q with
    | none => rw [hq] at h; cases h
    | some nd0 =>
      rw [hq, Option.some_bind] at h
      obtain ⟨h1, h2⟩ := ih hv.of_append nd0 hq
      have hw0 := walk_of_nodeFrom_root hq
      unfold descend at h
      cases hc : child g ram nd0.frame i with
      | none => rw [hc] at h; cases h
      | some c =>
        rw [hc] at h
        simp only [Option.map_some', Option.some.injEq] at h
        subst h
        simp only []
        have hwl := weight_le g nd0.frame
        have hlen := hv.1
        rw [List.length_append, List.length_singleton] at hlen ⊢
        unfold Geometry.ScoreFits at hs
        have hb : (q.length + 1) * max g.WEIGHT_EVEN g.WEIGHT_ODD ≤
            (g.TABLES_DEPTH + 2) * max g.WEIGHT_EVEN g.WEIGHT_ODD :=
          Nat.mul_le_mul_right _ (by omega)
        have he : (q.length + 1) * max g.WEIGHT_EVEN g.WEIGHT_ODD =
            q.length * max g.WEIGHT_EVEN g.WEIGHT_ODD + max g.WEIGHT_EVEN g.WEIGHT_ODD := by
          ring
        rw [u32_of_lt (by omega), scoreAbove_snoc i hw0, h1]
        exact ⟨rfl, by omega⟩

/-- Without overflow, the score `treeDFS` computes for a visited data page is its
`leafScore`. -/
theorem leaf_visit_score {g : Geometry} (hg : g.Valid) (hs : g.ScoreFits) {ram : Nat → Int}
    {q : List Nat} {j f : Nat} {nd : Node} (hv : ValidPath g (q ++ [j]))
    (hl : q.length + 1 = g.TABLES_DEPTH)
    (hn : nodeFrom g ram (some rootNode) q = some nd)
    (hw : walk g ram (q ++ [j]) = some f) :
    leafTotal g f (u32 (nd.score + weight g nd.frame)) (pageNum g (q ++ [j])) =
      leafScore g ram (q ++ [j]) := by
  obtain ⟨h1, h2⟩ := nodeFrom_root_score hs ram q hv.of_append nd hn
  have hw0 := walk_of_nodeFrom_root hn
  unfold leafTotal leafScore
  rw [leafVpn_eq hg hv, framesOn_sum hw, scoreAbove_snoc j hw0, ← h1]
  have w1 := weight_le g nd.frame
  have w2 := weight_le g f
  have w3 := weight_le g (pageNum g (q ++ [j]))
  unfold Geometry.ScoreFits at hs
  have he : (g.TABLES_DEPTH + 2) * max g.WEIGHT_EVEN g.WEIGHT_ODD =
      q.length * max g.WEIGHT_EVEN g.WEIGHT_ODD + 3 * max g.WEIGHT_EVEN g.WEIGHT_ODD := by
    rw [← hl]; ring
  have e1 : u32 (nd.score + weight g nd.frame) = nd.score + weight g nd.frame :=
    u32_of_lt (by omega)
  have e2 : u32 (weight g f + weight g (pageNum g (q ++ [j]))) =
      weight g f + weight g (pageNum g (q ++ [j])) := u32_of_lt (by omega)
  rw [e1, e2, u32_of_lt (by omega)]
  omega

/-- C10: on a well-formed tree with at least one leaf, after `treeDFS` from the root
(`highestScore` initially 0, `virtualAddrRep` initially `2^64-1`) `highestScore` is the
maximum over all leaves of the score (the weights of the frames of all nodes on the
path, root and leaf included, plus the weight of the virtual page number), and the
entry whose address is in `toReplace` points to a leaf attaining it. -/
theorem victim_has_maximal_score {g : Geometry} (hg : g.Valid) (hs : g.ScoreFits)
    {ram : Nat → Int} (ht : PreTree g ram) (toAvoid : Nat) (mfi : Int)
    (hTD : 0 < g.TABLES_DEPTH) {p : List Nat} {f : Nat} (hv : ValidPath g p)
    (hl : p.length = g.TABLES_DEPTH) (hw : walk g ram p = some f) :
    (∀ p' f', ValidPath g p' → p'.length = g.TABLES_DEPTH → walk g ram p' = some f' →
      leafScore g ram p' ≤
        (treeDFS g ram toAvoid g.TABLES_DEPTH 0 0 0 (surveyInit mfi)).1.highestScore) ∧
    ∃ (q : List Nat) (j t L : Nat), ValidPath g (q ++ [j]) ∧
      q.length + 1 = g.TABLES_DEPTH ∧ walk g ram q = some t ∧
      (treeDFS g ram toAvoid g.TABLES_DEPTH 0 0 0 (surveyInit mfi)).1.toReplace =
        t * g.PAGE_SIZE + j ∧
      ram (t * g.PAGE_SIZE + j) = (L : Int) ∧ walk g ram (q ++ [j]) = some L ∧
      leafScore g ram (q ++ [j]) =
        (treeDFS g ram toAvoid g.TABLES_DEPTH 0 0 0 (surveyInit mfi)).1.highestScore := by
  have hfold := survey_eq_fold g ram toAvoid mfi hTD
  unfold survey at hfold
  rw [hfold]
  have hbound : ∀ ptr f' sc pv, Visit.leaf ptr f' sc pv ∈ rootVisits g ram toAvoid →
      leafVpn g pv < 2 ^ 64 - 1 := by
    intro ptr f' sc pv hm
    obtain ⟨q, j, nd, hvq, _, _, _, _, _, _, _, _, hpv, _⟩ := leaf_visit_at hg ht toAvoid hTD hm
    rw [hpv, leafVpn_eq hg hvq]
    exact hg.pageNum_lt_u64 hvq
  constructor
  · intro p' f' hv' hl' hw'
    obtain ⟨ptr, sc, hm⟩ := leaf_visit_of_walk hg ht toAvoid hv' hl' hTD hw'
    have hle := (fold_leaf g (rootVisits g ram toAvoid) (surveyInit mfi)).2.1 _ _ _ _ hm
    obtain ⟨q, j, nd, hvq, hlq, hn, _, hwl, _, _, _, _, hpv, hsc⟩ :=
      leaf_visit_at hg ht toAvoid hTD hm
    have hpe : p' = q ++ [j] := pageNum_inj g p' (q ++ [j])
      (by rw [hl', List.length_append, List.length_singleton, hlq]) hv'.2 hvq.2 hpv
    rw [hpe] at hle ⊢
    rw [hsc, leaf_visit_score hg hs hvq hlq hn hwl] at hle
    exact hle
  · obtain ⟨ptr, sc, hm⟩ := leaf_visit_of_walk hg ht toAvoid hv hl hTD hw
    obtain ⟨ptr', f', sc', pv', hm', h1, _, h3⟩ :=
      fold_leaf_chosen g (rootVisits g ram toAvoid) (surveyInit mfi) rfl rfl hbound
        ⟨ptr, f, sc, _, hm⟩
    obtain ⟨q, j, nd, hvq, hlq, hn, hwq, hwl, hptr, hr, _, _, hpv, hsc⟩ :=
      leaf_visit_at hg ht toAvoid hTD hm'
    refine ⟨q, j, nd.frame, f', hvq, hlq, hwq, by rw [h1, hptr], hr, hwl, ?_⟩
    rw [h3, hpv, hsc, leaf_visit_score hg hs hvq hlq hn hwl]

theorem exampleMachine_reachable :
    Reachable exampleGeometry ( VMinitialize exampleGeometry exampleMachine) :=
  Reachable.init _

set_option maxRecDepth 100000 in
theorem victim_has_maximal_score_witness :
    (∀ p' f', ValidPath exampleGeometry p' → p'.length = exampleGeometry.TABLES_DEPTH →
      walk exampleGeometry
        (VMwrite exampleGeometry ( VMinitialize exampleGeometry exampleMachine) 13 7).2.ram
        p' = some f' →
      leafScore exampleGeometry
        (VMwrite exampleGeometry ( VMinitialize exampleGeometry exampleMachine) 13 7).2.ram
        p' ≤
        (treeDFS exampleGeometry
          (VMwrite exampleGeometry ( VMinitialize exampleGeometry exampleMachine) 13 7).2.ram
          0 exampleGeometry.TABLES_DEPTH 0 0 0 (surveyInit 0)).1.highestScore) ∧
    ∃ (q : List Nat) (j t L : Nat), ValidPath exampleGeometry (q ++ [j]) ∧
      q.length + 1 = exampleGeometry.TABLES_DEPTH ∧
      walk exampleGeometry
        (VMwrite exampleGeometry ( VMinitialize exampleGeometry exampleMachine) 13 7).2.ram
        q = some t ∧
      (treeDFS exampleGeometry
        (VMwrite exampleGeometry ( VMinitialize exampleGeometry exampleMachine) 13 7).2.ram
        0 exampleGeometry.TABLES_DEPTH 0 0 0 (surveyInit 0)).1.toReplace =
        t * exampleGeometry.PAGE_SIZE + j ∧
      (VMwrite exampleGeometry ( VMinitialize exampleGeometry exampleMachine) 13 7).2.ram
        (t * exampleGeometry.PAGE_SIZE + j) = (L : Int) ∧
      walk exampleGeometry
        (VMwrite exampleGeometry ( VMinitialize exampleGeometry exampleMachine) 13 7).2.ram
        (q ++ [j]) = some L ∧
      leafScore exampleGeometry
        (VMwrite exampleGeometry ( VMinitialize exampleGeometry exampleMachine) 13 7).2.ram
        (q ++ [j]) =
        (treeDFS exampleGeometry
          (VMwrite exampleGeometry ( VMinitialize exampleGeometry exampleMachine) 13 7).2.ram
          0 exampleGeometry.TABLES_DEPTH 0 0 0 (surveyInit 0)).1.highestScore :=
  Exists.elim ((Reachable.write 13 7 exampleMachine_reachable).abs
      exampleGeometry_valid)
    (fun _ hA => victim_has_maximal_score exampleGeometry_valid
      (by unfold Geometry.ScoreFits; decide)
      hA.tree.toPreTree 0 0 (by decide) (p := [0, 0]) (f := 2)
      ⟨by decide, by decide⟩ (by decide) (by decide))

end HPageTable

namespace HPageTable

/-! ## Further results on reachable states -/

/-- The invariant along any sequence of client calls, for the flat array they
describe. -/
theorem runOps_flat {g : Geometry} (hg : g.Valid) (ops : List Op) :
    ∀ (m : Machine) (A : Nat → Int), AbsInv g m A →
      AbsInv g (runOps g m ops) (ops.foldl (flatStep g) A) := by
  induction ops with
  | nil => intro m A hA; exact hA
  | cons op ops ih =>
    intro m A hA
    unfold runOps
    rw [List.foldl_cons, List.foldl_cons]
    cases op with
    | read u value =>
      by_cases hu : u < g.VIRTUAL_MEMORY_SIZE
      · exact ih _ A (VMread_spec hg hA hu value).2.2
      · have : runOp g m (Op.read u value) = m := by
          show (VMread g m u value).2.2 = m
          rw [VMread_out_of_range g m (by omega)]
        rw [this]
        exact ih m A hA
    | write u y =>
      by_cases hu : u < g.VIRTUAL_MEMORY_SIZE
      · have e : flatStep g A (Op.write u y) = fun a => if a = u then y else A a := by
          show (if u < g.VIRTUAL_MEMORY_SIZE then (fun a => if a = u then y else A a) else A) = _
          rw [if_pos hu]
        rw [e]
        exact ih _ _ (VMwrite_spec hg hA hu y).2
      · have e : flatStep g A (Op.write u y) = A := by
          show (if u < g.VIRTUAL_MEMORY_SIZE then (fun a => if a = u then y else A a) else A) = _
          rw [if_neg hu]
        have : runOp g m (Op.write u y) = m := by
          show (VMwrite g m u y).2 = m
          rw [VMwrite_out_of_range g m (by omega)]
        rw [e, this]
        exact ih m A hA

theorem flat_never_written (g : Geometry) (v : Nat) (ops : List Op) :
    ∀ A : Nat → Int, (∀ x, Op.write v x ∉ ops) → ops.foldl (flatStep g) A v = A v := by
  induction ops with
  | nil => intro A _; rfl
  | cons op ops ih =>
    intro A h
    rw [List.foldl_cons, ih _ (fun x hx => h x (List.mem_cons_of_mem _ hx))]
    cases op with
    | read u value => rfl
    | write u y =>
      show (if u < g.VIRTUAL_MEMORY_SIZE then (fun a => if a = u then y else A a) else A) v = A v
      split
      · have hne : v ≠ u := by
          intro e
          subst e
          exact h y (by simp)
        simp only [if_neg hne]
      · rfl

/-- The states reached by sequences of client calls are the reachable states. -/
theorem runOps_reachable (g : Geometry) (ops : List Op) :
    ∀ m, Reachable g m → Reachable g (runOps g m ops) := by
  induction ops with
  | nil => intro m hm; exact hm
  | cons op ops ih =>
    intro m hm
    unfold runOps
    rw [List.foldl_cons]
    cases op with
    | read u value => exact ih _ (Reachable.read u value hm)
    | write u y => exact ih _ (Reachable.write u y hm)

/-- C17: after `VMinitialize` on an empty backing store, whatever physical memory held,
and any sequence of client calls, `VMread` of an in-range address that no `VMwrite` has
targeted returns 1 with value 0; and `VMread` of any in-range address returns what a
zero-initialised flat array of words would hold after the same calls. -/
theorem never_written_reads_zero {g : Geometry} (hg : g.Valid) (ram : Nat → Int)
    (ops : List Op) {v : Nat} (hv : v < g.VIRTUAL_MEMORY_SIZE) (value : Int) :
    ((∀ x, Op.write v x ∉ ops) →
      (VMread g (runOps g ( VMinitialize g ⟨ram, fun _ => none⟩) ops) v value).1 = 1 ∧
      (VMread g (runOps g ( VMinitialize g ⟨ram, fun _ => none⟩) ops) v value).2.1 = 0) ∧
    (VMread g (runOps g ( VMinitialize g ⟨ram, fun _ => none⟩) ops) v value).1 = 1 ∧
    (VMread g (runOps g ( VMinitialize g ⟨ram, fun _ => none⟩) ops) v value).2.1 =
      flatMem g ops v := by
  have hA := runOps_flat hg ops _ _ (init_abs hg ram)
  obtain ⟨h1, h2, _⟩ := VMread_spec hg hA hv value
  refine ⟨fun hn => ⟨h1, ?_⟩, h1, h2⟩
  rw [h2, flat_never_written g v ops _ hn]

theorem never_written_reads_zero_witness :
    ((∀ x, Op.write 5 x ∉ [Op.write 13 7, Op.read 5 0, Op.write 4096 1]) →
      (VMread exampleGeometry
        (runOps exampleGeometry ( VMinitialize exampleGeometry ⟨fun a => (a : Int) + 1, fun _ => none⟩)
          [Op.write 13 7, Op.read 5 0, Op.write 4096 1]) 5 9).1 = 1 ∧
      (VMread exampleGeometry
        (runOps exampleGeometry ( VMinitialize exampleGeometry ⟨fun a => (a : Int) + 1, fun _ => none⟩)
          [Op.write 13 7, Op.read 5 0, Op.write 4096 1]) 5 9).2.1 = 0) ∧
    (VMread exampleGeometry
      (runOps exampleGeometry ( VMinitialize exampleGeometry ⟨fun a => (a : Int) + 1, fun _ => none⟩)
        [Op.write 13 7, Op.read 5 0, Op.write 4096 1]) 5 9).1 = 1 ∧
    (VMread exampleGeometry
      (runOps exampleGeometry ( VMinitialize exampleGeometry ⟨fun a => (a : Int) + 1, fun _ => none⟩)
        [Op.write 13 7, Op.read 5 0, Op.write 4096 1]) 5 9).2.1 =
      flatMem exampleGeometry [Op.write 13 7, Op.read 5 0, Op.write 4096 1] 5 :=
  never_written_reads_zero exampleGeometry_valid (fun a => (a : Int) + 1)
    [Op.write 13 7, Op.read 5 0, Op.write 4096 1] (by decide) 9

/-- C19: in every reachable state, if `M` is the largest frame index stored in a
non-zero entry of the live tree, every frame index in `1..M` is stored in exactly one
live entry, and no live entry holds `M + 1`, the frame the fresh-frame branch picks. -/
theorem referenced_frames_contiguous {g : Geometry} (hg : g.Valid) {m : Machine}
    (hm : Reachable g m) {M : Int} (hM : IsMaxRef g m.ram M) :
    (∀ f : Nat, 1 ≤ f → (f : Int) ≤ M →
      ∃ t i, LiveEntry g m.ram t i ∧ m.ram (t * g.PAGE_SIZE + i) = (f : Int) ∧
        ∀ t' i', LiveEntry g m.ram t' i' → m.ram (t' * g.PAGE_SIZE + i') = (f : Int) →
          t' = t ∧ i' = i) ∧
    (∀ t i, LiveEntry g m.ram t i → m.ram (t * g.PAGE_SIZE + i) ≠ M + 1) := by
  obtain ⟨A, hA⟩ := hm.abs hg
  have hpre := hA.tree.toPreTree
  constructor
  · intro f h1 h2
    rcases hM.2 with h0 | ⟨t, i, hle, he⟩
    · omega
    · have hne : m.ram (t * g.PAGE_SIZE + i) ≠ 0 := by rw [he]; omega
      obtain ⟨Mn, hMn, hr⟩ := Referenced.of_entry hg hpre hle hne
      have hrf := hA.tree.closed Mn f hr h1 (by rw [he] at hMn; omega)
      obtain ⟨t1, i1, hle1, he1, _, _⟩ := hrf.entry hg hpre
      refine ⟨t1, i1, hle1, he1, ?_⟩
      intro t' i' hle' he'
      exact hpre.noShared hg t' i' t1 i1 hle' hle1 (by rw [he']; omega) (by rw [he', he1])
  · intro t i hle he
    have := hM.1 t i hle
    omega

theorem referenced_frames_contiguous_witness :
    (∀ f : Nat, 1 ≤ f →
      (f : Int) ≤ (survey exampleGeometry
        (VMwrite exampleGeometry ( VMinitialize exampleGeometry exampleMachine) 13 7).2.ram
        0 0).maxUsedFrame →
      ∃ t i, LiveEntry exampleGeometry
          (VMwrite exampleGeometry ( VMinitialize exampleGeometry exampleMachine) 13 7).2.ram
          t i ∧
        (VMwrite exampleGeometry ( VMinitialize exampleGeometry exampleMachine) 13 7).2.ram
          (t * exampleGeometry.PAGE_SIZE + i) = (f : Int) ∧
        ∀ t' i', LiveEntry exampleGeometry
            (VMwrite exampleGeometry ( VMinitialize exampleGeometry exampleMachine) 13 7).2.ram
            t' i' →
          (VMwrite exampleGeometry ( VMinitialize exampleGeometry exampleMachine) 13 7).2.ram
            (t' * exampleGeometry.PAGE_SIZE + i') = (f : Int) →
          t' = t ∧ i' = i) ∧
    (∀ t i, LiveEntry exampleGeometry
        (VMwrite exampleGeometry ( VMinitialize exampleGeometry exampleMachine) 13 7).2.ram
        t i →
      (VMwrite exampleGeometry ( VMinitialize exampleGeometry exampleMachine) 13 7).2.ram
        (t * exampleGeometry.PAGE_SIZE + i) ≠
        (survey exampleGeometry
          (VMwrite exampleGeometry ( VMinitialize exampleGeometry exampleMachine) 13 7).2.ram
          0 0).maxUsedFrame + 1) :=
  referenced_frames_contiguous exampleGeometry_valid
    (Reachable.write 13 7 exampleMachine_reachable)
    (Exists.elim ((Reachable.write 13 7 exampleMachine_reachable).abs exampleGeometry_valid)
      (fun _ hA => survey_isMaxRef exampleGeometry_valid hA.tree.toPreTree 0 (by decide)
        (Or.inl rfl)))

end HPageTable

namespace HPageTable

/-! ## The branches of the allocator on a miss -/

/-- Where the evict branch is taken, the tree holds a data page, and `deleteFrame`
detaches and evicts the one the survey selected. -/
theorem evict_eq {g : Geometry} (hg : g.Valid) {m : Machine} {A : Nat → Int}
    (hi : AbsInv g m A) {p0 : List Nat} {cur : Nat} (hv0 : ValidPath g p0)
    (hl0 : p0.length < g.TABLES_DEPTH)
    (hw0 : walk g m.ram p0 = some cur) {mfi : Int} (hm : MaxOK g m.ram mfi)
    (hb1 : ¬ (survey g m.ram cur mfi).maxUsedFrame + 1 < (g.NUM_FRAMES : Int))
    (hb2 : ¬ (survey g m.ram cur mfi).lastEmptyTable > 0) :
    ∃ (q : List Nat) (j t L : Nat), ValidPath g (q ++ [j]) ∧
      q.length + 1 = g.TABLES_DEPTH ∧ walk g m.ram q = some t ∧
      walk g m.ram (q ++ [j]) = some L ∧ L < g.NUM_FRAMES ∧
      (survey g m.ram cur mfi).toReplace = t * g.PAGE_SIZE + j ∧
      m.ram (t * g.PAGE_SIZE + j) = (L : Int) ∧
      (survey g m.ram cur mfi).virtualAddrRep = pageNum g (q ++ [j]) ∧
      deleteFrame g m (survey g m.ram cur mfi).toReplace
          (survey g m.ram cur mfi).virtualAddrRep =
        ((L : Int), PMevict g (PMwrite m (t * g.PAGE_SIZE + j) 0) L (pageNum g (q ++ [j]))) := by
  have hTD : 0 < g.TABLES_DEPTH := by omega
  have hpre := hi.tree.toPreTree
  have hok := survey_max_ok hg hpre cur hTD hm
  have hfull : ∀ f, 1 ≤ f → f ≤ g.TABLES_DEPTH → Referenced g m.ram f := by
    intro f h1 h2
    have hfr := hg.frames
    rcases hok with hz | ⟨M, hM, hrM⟩
    · omega
    · exact hi.tree.closed M f hrM h1 (by omega)
  obtain ⟨pl, fl, hvl, hll, hwl⟩ :
      ∃ p f, ValidPath g p ∧ p.length = g.TABLES_DEPTH ∧ walk g m.ram p = some f := by
    rcases exists_leaf_or_empty hpre hv0 hl0 hw0 hfull with h | ⟨p, f, hv, hne, hl, hw, hem, hfc⟩
    · exact h
    · exact absurd (survey_empty_complete hg hpre cur mfi (by omega) hv hne hl hw hem) hfc
  obtain ⟨q, j, t, L, hvqj, hlq, hwq, hwL, hptr, hr, _, hlt, hrep⟩ :=
    survey_victim hg hpre cur mfi hvl hll hTD hwl
  refine ⟨q, j, t, L, hvqj, hlq, hwq, hwL, hlt, hptr, hr, hrep, ?_⟩
  unfold deleteFrame PMread
  rw [hptr, hr, hrep]
  simp only []
  rw [wordToU64_natCast (hg.frame_lt hlt)]

/-- On a miss the page of `V` is not resident, before and after the choice of a frame. -/
theorem miss_not_resident {g : Geometry} (hg : g.Valid) {ram : Nat → Int}
    (ht : PreTree g ram) {p0 r : List Nat} {cur s : Nat} (hv0 : ValidPath g p0)
    (hs : s < g.PAGE_SIZE) (hw0 : walk g ram p0 = some cur)
    (he : ram (cur * g.PAGE_SIZE + s) = 0) : walk g ram (p0 ++ [s] ++ r) = none := by
  have hcur := ht.live_lt hg p0 hv0 cur hw0
  have : walk g ram (p0 ++ [s]) = none := by
    rw [walk_snoc, hw0, Option.some_bind]
    unfold child
    rw [hg.u64_addr hcur hs, he, if_pos rfl]
  rw [walk_append, this, walkFrom_none]

/-- C12: whenever `treeLogic` takes the evict branch in a reachable state, the survey has
selected a live data page; its parent entry is set to 0, `PMevict` is called with its
frame index and its own virtual page number, so the backing store afterwards holds the
pre-eviction contents of that frame under that page number, and its frame index is the
frame returned and linked. -/
theorem eviction_step {g : Geometry} (hg : g.Valid) {m : Machine}
    (hm : Reachable g m) {V : Nat} (hV : V < g.VIRTUAL_MEMORY_SIZE) {i : Nat}
    (hi : i < g.TABLES_DEPTH)
    (hmiss : (walkLevels g V m i).m.ram (indexPtrOf g V (walkLevels g V m i) i) = 0)
    (hb1 : ¬ (surveyOf g (walkLevels g V m i)).maxUsedFrame + 1 < (g.NUM_FRAMES : Int))
    (hb2 : ¬ (surveyOf g (walkLevels g V m i)).lastEmptyTable > 0) :
    ∃ (q : List Nat) (j t L : Nat), ValidPath g (q ++ [j]) ∧
      q.length + 1 = g.TABLES_DEPTH ∧
      walk g (walkLevels g V m i).m.ram q = some t ∧
      walk g (walkLevels g V m i).m.ram (q ++ [j]) = some L ∧
      (surveyOf g (walkLevels g V m i)).toReplace = t * g.PAGE_SIZE + j ∧
      (walkLevels g V m i).m.ram (t * g.PAGE_SIZE + j) = (L : Int) ∧
      (surveyOf g (walkLevels g V m i)).virtualAddrRep = pageNum g (q ++ [j]) ∧
      chooseFrame g (walkLevels g V m i).m (surveyOf g (walkLevels g V m i)) =
        ((L : Int), PMevict g (PMwrite (walkLevels g V m i).m (t * g.PAGE_SIZE + j) 0) L
          (pageNum g (q ++ [j]))) ∧
      (chooseFrame g (walkLevels g V m i).m (surveyOf g (walkLevels g V m i))).2.ram
        (t * g.PAGE_SIZE + j) = 0 ∧
      (∀ off, off < g.PAGE_SIZE →
        swapWord (chooseFrame g (walkLevels g V m i).m (surveyOf g (walkLevels g V m i))).2
          (pageNum g (q ++ [j])) off = (walkLevels g V m i).m.ram (L * g.PAGE_SIZE + off)) ∧
      (treeLogicLevel g V (walkLevels g V m i) i).m.ram
        (indexPtrOf g V (walkLevels g V m i) i) = (L : Int) ∧
      (treeLogicLevel g V (walkLevels g V m i) i).newTable = L := by
  obtain ⟨A, hw⟩ := hm.walkInv hg hV (Nat.le_of_lt hi)
  have hpre := hw.abs.tree.toPreTree
  have hv0 := slicesUpTo_valid g V (Nat.le_of_lt hi)
  have hl0 : (slicesUpTo g V i).length < g.TABLES_DEPTH := by
    rw [slicesUpTo_length]; exact hi
  have hptr := indexPtrOf_eq hg hw (Nat.le_of_lt hi)
  have hs := slice_lt g V i
  have h0 := hmiss
  rw [hptr] at h0
  rw [surveyOf_eq] at hb1 hb2 ⊢
  obtain ⟨q, j, t, L, hvqj, hlq, hwq, hwL, hlt, htr, hr, hrep, hdel⟩ :=
    evict_eq hg hw.abs hv0 hl0 hw.path hw.max hb1 hb2
  obtain ⟨hvq, _, hj⟩ := ValidPath.snoc_iff.1 hvqj
  have hch : chooseFrame g (walkLevels g V m i).m
      (survey g (walkLevels g V m i).m.ram (walkLevels g V m i).newTable
        (walkLevels g V m i).maxFrameIndex) =
      ((L : Int), PMevict g (PMwrite (walkLevels g V m i).m (t * g.PAGE_SIZE + j) 0) L
        (pageNum g (q ++ [j]))) := by
    unfold chooseFrame
    rw [if_neg hb1, if_neg hb2]
    exact hdel
  obtain ⟨F, hF, hd⟩ := choose_spec hg hw.abs hv0 hl0 hw.path h0 hw.max
  have hFL : F = L := by
    rw [hch] at hF
    simp only [] at hF
    exact_mod_cast hF.symm
  subst hFL
  have hcF : (walkLevels g V m i).newTable ≠ F := fun e => hd.unref _ hv0 (e ▸ hd.path)
  have htL : F ≠ t := hpre.leaf_ne_table hvqj hvq (by simp) hwL hwq
  refine ⟨q, j, t, F, hvqj, hlq, hwq, hwL, htr, hr, hrep, hch, ?_, ?_, ?_, ?_⟩
  · rw [hch]
    simp only [PMevict_ram, PMwrite_ram, if_true]
  · intro off hoff
    rw [hch]
    unfold swapWord PMevict
    simp only [if_true, PMwrite_ram]
    rw [if_neg]
    intro ha
    exact htL (addr_inj hoff hj ha).1
  · rw [treeLogicLevel_miss g V _ i hmiss]
    simp only []
    rw [surveyOf_eq, hF, hptr]
    exact (linkFrame_ram hg _ hd.frame_lt hs hcF _ _).1
  · rw [treeLogicLevel_miss g V _ i hmiss]
    simp only []
    rw [surveyOf_eq, hF]
    exact wordToU64_natCast (hg.frame_lt hd.frame_lt)

/-- C13: whenever a miss occurs in a reachable state with `maxUsed + 1 >= NUM_FRAMES` and
the tree holds an empty table at depth `1..TABLES_DEPTH-1` other than the frame being
descended, `treeLogic` writes 0 into the parent entry of such a table and links its
frame index as the new child, without `PMevict`: the backing store and every data-page
frame are unchanged by the choice. -/
theorem empty_table_recycling {g : Geometry} (hg : g.Valid) {m : Machine}
    (hm : Reachable g m) {V : Nat} (hV : V < g.VIRTUAL_MEMORY_SIZE) {i : Nat}
    (hi : i < g.TABLES_DEPTH)
    (hmiss : (walkLevels g V m i).m.ram (indexPtrOf g V (walkLevels g V m i) i) = 0)
    (hb1 : ¬ (surveyOf g (walkLevels g V m i)).maxUsedFrame + 1 < (g.NUM_FRAMES : Int))
    (hex : ∃ p E, ValidPath g p ∧ p ≠ [] ∧ p.length < g.TABLES_DEPTH ∧
      walk g (walkLevels g V m i).m.ram p = some E ∧
      TableEmpty g (walkLevels g V m i).m.ram E ∧ E ≠ (walkLevels g V m i).newTable) :
    ∃ (q : List Nat) (j t E : Nat), ValidPath g q ∧ q.length + 1 < g.TABLES_DEPTH ∧
      j < g.PAGE_SIZE ∧
      walk g (walkLevels g V m i).m.ram q = some t ∧
      walk g (walkLevels g V m i).m.ram (q ++ [j]) = some E ∧
      TableEmpty g (walkLevels g V m i).m.ram E ∧ E ≠ (walkLevels g V m i).newTable ∧
      (walkLevels g V m i).m.ram (t * g.PAGE_SIZE + j) = (E : Int) ∧ 1 ≤ E ∧
      chooseFrame g (walkLevels g V m i).m (surveyOf g (walkLevels g V m i)) =
        ((E : Int), PMwrite (walkLevels g V m i).m (t * g.PAGE_SIZE + j) 0) ∧
      (chooseFrame g (walkLevels g V m i).m (surveyOf g (walkLevels g V m i))).2.swap =
        (walkLevels g V m i).m.swap ∧
      (∀ p f off, ValidPath g p → p.length = g.TABLES_DEPTH →
        walk g (walkLevels g V m i).m.ram p = some f → off < g.PAGE_SIZE →
        (chooseFrame g (walkLevels g V m i).m (surveyOf g (walkLevels g V m i))).2.ram
          (f * g.PAGE_SIZE + off) = (walkLevels g V m i).m.ram (f * g.PAGE_SIZE + off)) ∧
      (treeLogicLevel g V (walkLevels g V m i) i).m.ram
        (indexPtrOf g V (walkLevels g V m i) i) = (E : Int) ∧
      (treeLogicLevel g V (walkLevels g V m i) i).newTable = E := by
  obtain ⟨A, hw⟩ := hm.walkInv hg hV (Nat.le_of_lt hi)
  have hpre := hw.abs.tree.toPreTree
  have hTD : 0 < g.TABLES_DEPTH := by omega
  have hv0 := slicesUpTo_valid g V (Nat.le_of_lt hi)
  have hl0 : (slicesUpTo g V i).length < g.TABLES_DEPTH := by
    rw [slicesUpTo_length]; exact hi
  have hptr := indexPtrOf_eq hg hw (Nat.le_of_lt hi)
  have hs := slice_lt g V i
  have h0 := hmiss
  rw [hptr] at h0
  rw [surveyOf_eq] at hb1 ⊢
  obtain ⟨p, E0, hvp, hnp, hlp, hwp, hep, hne0⟩ := hex
  have hb2 : (survey g (walkLevels g V m i).m.ram (walkLevels g V m i).newTable
      (walkLevels g V m i).maxFrameIndex).lastEmptyTable ≠ 0 := by
    intro hz
    exact hne0 (survey_empty_complete hg hpre _ _ hz hvp hnp hlp hwp hep)
  obtain ⟨q, j, t, hvq, hlq, hj, hwq, hwE, hpt, hr, hpos, hlt, hemp, hne⟩ :=
    survey_empty_sound hg hpre (walkLevels g V m i).newTable
      (walkLevels g V m i).maxFrameIndex hTD hb2
  have hch : chooseFrame g (walkLevels g V m i).m
      (survey g (walkLevels g V m i).m.ram (walkLevels g V m i).newTable
        (walkLevels g V m i).maxFrameIndex) =
      (((survey g (walkLevels g V m i).m.ram (walkLevels g V m i).newTable
        (walkLevels g V m i).maxFrameIndex).lastEmptyTable : Int),
        PMwrite (walkLevels g V m i).m (t * g.PAGE_SIZE + j) 0) := by
    unfold chooseFrame
    rw [if_neg hb1, if_pos (by omega), hpt]
  obtain ⟨F, hF, hd⟩ := choose_spec hg hw.abs hv0 hl0 hw.path h0 hw.max
  have hFE : F = (survey g (walkLevels g V m i).m.ram (walkLevels g V m i).newTable
      (walkLevels g V m i).maxFrameIndex).lastEmptyTable := by
    rw [hch] at hF
    simp only [] at hF
    exact_mod_cast hF.symm
  have hcF : (walkLevels g V m i).newTable ≠ F := fun e => hd.unref _ hv0 (e ▸ hd.path)
  refine ⟨q, j, t, _, hvq, hlq, hj, hwq, hwE, hemp, hne, hr, hpos, hch, ?_, ?_, ?_, ?_⟩
  · rw [hch]
    rfl
  · intro p' f off hv' hl' hw' hoff
    rw [hch]
    simp only [PMwrite_ram]
    rw [if_neg]
    intro ha
    exact hpre.leaf_ne_table hv' hvq (by omega) hw' hwq (addr_inj hoff hj ha).1
  · rw [treeLogicLevel_miss g V _ i hmiss]
    simp only []
    rw [surveyOf_eq, hF, hptr, ← hFE]
    exact (linkFrame_ram hg _ hd.frame_lt hs hcF _ _).1
  · rw [treeLogicLevel_miss g V _ i hmiss]
    simp only []
    rw [surveyOf_eq, hF, ← hFE]
    exact wordToU64_natCast (hg.frame_lt hd.frame_lt)

/-- C16: on every miss at level `i` of `treeLogic` in a reachable state, with chosen
frame `F`, the parent entry holds `F` afterwards; if `i + 1 < TABLES_DEPTH` all
`PAGE_SIZE` words of frame `F` are 0; if `i + 1 = TABLES_DEPTH` frame `F` holds the
backing-store contents recorded for page `V >> OFFSET_WIDTH`, zeros if that page was
never evicted, whatever `F` held before. -/
theorem link_and_prepare {g : Geometry} (hg : g.Valid) {m : Machine}
    (hm : Reachable g m) {V : Nat} (hV : V < g.VIRTUAL_MEMORY_SIZE) {i : Nat}
    (hi : i < g.TABLES_DEPTH)
    (hmiss : (walkLevels g V m i).m.ram (indexPtrOf g V (walkLevels g V m i) i) = 0) :
    ∃ F : Nat,
      (chooseFrame g (walkLevels g V m i).m (surveyOf g (walkLevels g V m i))).1 = (F : Int) ∧
      (treeLogicLevel g V (walkLevels g V m i) i).m.ram
        (indexPtrOf g V (walkLevels g V m i) i) = (F : Int) ∧
      (i + 1 < g.TABLES_DEPTH → ∀ off, off < g.PAGE_SIZE →
        (treeLogicLevel g V (walkLevels g V m i) i).m.ram (F * g.PAGE_SIZE + off) = 0) ∧
      (i + 1 = g.TABLES_DEPTH → ∀ off, off < g.PAGE_SIZE →
        (treeLogicLevel g V (walkLevels g V m i) i).m.ram (F * g.PAGE_SIZE + off) =
          swapWord (walkLevels g V m i).m (V >>> g.OFFSET_WIDTH) off ∧
        (treeLogicLevel g V (walkLevels g V m i) i).m.ram (F * g.PAGE_SIZE + off) =
          swapWord (treeLogicLevel g V (walkLevels g V m i) i).m
            (V >>> g.OFFSET_WIDTH) off) := by
  obtain ⟨A, hw⟩ := hm.walkInv hg hV (Nat.le_of_lt hi)
  have hpre := hw.abs.tree.toPreTree
  have hv0 := slicesUpTo_valid g V (Nat.le_of_lt hi)
  have hl0 : (slicesUpTo g V i).length < g.TABLES_DEPTH := by
    rw [slicesUpTo_length]; exact hi
  have hptr := indexPtrOf_eq hg hw (Nat.le_of_lt hi)
  have hs := slice_lt g V i
  have h0 := hmiss
  rw [hptr] at h0
  obtain ⟨F, hF, hd⟩ := choose_spec hg hw.abs hv0 hl0 hw.path h0 hw.max
  have hcF : (walkLevels g V m i).newTable ≠ F := fun e => hd.unref _ hv0 (e ▸ hd.path)
  have hlink := linkFrame_ram hg
    (chooseFrame g (walkLevels g V m i).m (survey g (walkLevels g V m i).m.ram
      (walkLevels g V m i).newTable (walkLevels g V m i).maxFrameIndex)).2
    hd.frame_lt hs hcF (decide (i + 1 = g.TABLES_DEPTH)) (V >>> g.OFFSET_WIDTH)
  have hm' : (treeLogicLevel g V (walkLevels g V m i) i).m =
      linkFrame g (chooseFrame g (walkLevels g V m i).m (survey g (walkLevels g V m i).m.ram
        (walkLevels g V m i).newTable (walkLevels g V m i).maxFrameIndex)).2 (F : Int)
        ((walkLevels g V m i).newTable * g.PAGE_SIZE + slice g V i)
        (decide (i + 1 = g.TABLES_DEPTH)) (V >>> g.OFFSET_WIDTH) := by
    rw [treeLogicLevel_miss g V _ i hmiss]
    simp only []
    rw [surveyOf_eq, hF, hptr]
  refine ⟨F, by rw [surveyOf_eq]; exact hF, ?_, ?_, ?_⟩
  · rw [hm', hptr]
    exact hlink.1
  · intro hlt off hoff
    rw [hm', hlink.2.2 off hoff]
    have : decide (i + 1 = g.TABLES_DEPTH) = false := by
      simp only [decide_eq_false_iff_not]; omega
    rw [this]
    rfl
  · intro heq off hoff
    have hdec : decide (i + 1 = g.TABLES_DEPTH) = true := by
      simp only [decide_eq_true_eq]; exact heq
    have e1 : (treeLogicLevel g V (walkLevels g V m i) i).m.ram (F * g.PAGE_SIZE + off) =
        swapWord (chooseFrame g (walkLevels g V m i).m (survey g (walkLevels g V m i).m.ram
          (walkLevels g V m i).newTable (walkLevels g V m i).maxFrameIndex)).2
          (V >>> g.OFFSET_WIDTH) off := by
      rw [hm', hlink.2.2 off hoff, hdec, if_pos rfl]
    -- the page of `V` is in the backing store before and after the choice
    have hsl : slices g V = slicesUpTo g V i ++ [slice g V i] ++ [] := by
      unfold slices
      rw [← heq, slicesUpTo_succ, List.append_nil]
    have hvs : ValidPath g (slices g V) := slicesUpTo_valid g V (le_refl _)
    have hls : (slices g V).length = g.TABLES_DEPTH := slicesUpTo_length g V _
    have hA0 := hw.abs.data (slices g V) hvs hls off hoff
    have hA1 := hd.data (slices g V) hvs hls off hoff
    unfold pageWord at hA0 hA1
    have hn0 : walk g (walkLevels g V m i).m.ram (slices g V) = none := by
      rw [hsl]; exact miss_not_resident hg hpre hv0 hs hw.path h0
    have hn1 := miss_not_resident hg hd.pre (r := []) hv0 hs hd.path hd.entry
    rw [← hsl] at hn1
    rw [hn0] at hA0
    rw [hn1] at hA1
    simp only [] at hA0 hA1
    rw [pageNum_slices g hV] at hA0 hA1
    refine ⟨by rw [e1, hA1, hA0], ?_⟩
    rw [e1]
    exact (swapWord_congr (by rw [hm', linkFrame_swap]) off).symm

theorem exampleFull_reachable : Reachable exampleGeometry exampleFull :=
  Reachable.write 16 2 (Reachable.write 0 1 exampleMachine_reachable)

theorem exampleHollow_reachable : Reachable exampleGeometry exampleHollow :=
  Reachable.write 256 2 (Reachable.write 0 1 exampleMachine_reachable)

set_option maxRecDepth 1000000 in
theorem eviction_step_witness :
    ∃ (q : List Nat) (j t L : Nat), ValidPath exampleGeometry (q ++ [j]) ∧
      q.length + 1 = exampleGeometry.TABLES_DEPTH ∧
      walk exampleGeometry (walkLevels exampleGeometry 32 exampleFull 1).m.ram q = some t ∧
      walk exampleGeometry (walkLevels exampleGeometry 32 exampleFull 1).m.ram (q ++ [j]) = some L ∧
      (surveyOf exampleGeometry (walkLevels exampleGeometry 32 exampleFull 1)).toReplace = t * exampleGeometry.PAGE_SIZE + j ∧
      (walkLevels exampleGeometry 32 exampleFull 1).m.ram (t * exampleGeometry.PAGE_SIZE + j) = (L : Int) ∧
      (surveyOf exampleGeometry (walkLevels exampleGeometry 32 exampleFull 1)).virtualAddrRep = pageNum exampleGeometry (q ++ [j]) ∧
      chooseFrame exampleGeometry (walkLevels exampleGeometry 32 exampleFull 1).m (surveyOf exampleGeometry (walkLevels exampleGeometry 32 exampleFull 1)) =
        ((L : Int), PMevict exampleGeometry (PMwrite (walkLevels exampleGeometry 32 exampleFull 1).m (t * exampleGeometry.PAGE_SIZE + j) 0) L
          (pageNum exampleGeometry (q ++ [j]))) ∧
      (chooseFrame exampleGeometry (walkLevels exampleGeometry 32 exampleFull 1).m (surveyOf exampleGeometry (walkLevels exampleGeometry 32 exampleFull 1))).2.ram
        (t * exampleGeometry.PAGE_SIZE + j) = 0 ∧
      (∀ off, off < exampleGeometry.PAGE_SIZE →
        swapWord (chooseFrame exampleGeometry (walkLevels exampleGeometry 32 exampleFull 1).m (surveyOf exampleGeometry (walkLevels exampleGeometry 32 exampleFull 1))).2
          (pageNum exampleGeometry (q ++ [j])) off = (walkLevels exampleGeometry 32 exampleFull 1).m.ram (L * exampleGeometry.PAGE_SIZE + off)) ∧
      (treeLogicLevel exampleGeometry 32 (walkLevels exampleGeometry 32 exampleFull 1) 1).m.ram
        (indexPtrOf exampleGeometry 32 (walkLevels exampleGeometry 32 exampleFull 1) 1) = (L : Int) ∧
      (treeLogicLevel exampleGeometry 32 (walkLevels exampleGeometry 32 exampleFull 1) 1).newTable = L :=
  eviction_step exampleGeometry_valid exampleFull_reachable (by decide) (by decide)
    (by decide) (by decide) (by decide)

set_option maxRecDepth 1000000 in
theorem empty_table_recycling_witness :
    ∃ (q : List Nat) (j t E : Nat), ValidPath exampleGeometry q ∧ q.length + 1 < exampleGeometry.TABLES_DEPTH ∧
      j < exampleGeometry.PAGE_SIZE ∧
      walk exampleGeometry (walkLevels exampleGeometry 512 exampleHollow 0).m.ram q = some t ∧
      walk exampleGeometry (walkLevels exampleGeometry 512 exampleHollow 0).m.ram (q ++ [j]) = some E ∧
      TableEmpty exampleGeometry (walkLevels exampleGeometry 512 exampleHollow 0).m.ram E ∧ E ≠ (walkLevels exampleGeometry 512 exampleHollow 0).newTable ∧
      (walkLevels exampleGeometry 512 exampleHollow 0).m.ram (t * exampleGeometry.PAGE_SIZE + j) = (E : Int) ∧ 1 ≤ E ∧
      chooseFrame exampleGeometry (walkLevels exampleGeometry 512 exampleHollow 0).m (surveyOf exampleGeometry (walkLevels exampleGeometry 512 exampleHollow 0)) =
        ((E : Int), PMwrite (walkLevels exampleGeometry 512 exampleHollow 0).m (t * exampleGeometry.PAGE_SIZE + j) 0) ∧
      (chooseFrame exampleGeometry (walkLevels exampleGeometry 512 exampleHollow 0).m (surveyOf exampleGeometry (walkLevels exampleGeometry 512 exampleHollow 0))).2.swap =
        (walkLevels exampleGeometry 512 exampleHollow 0).m.swap ∧
      (∀ p f off, ValidPath exampleGeometry p → p.length = exampleGeometry.TABLES_DEPTH →
        walk exampleGeometry (walkLevels exampleGeometry 512 exampleHollow 0).m.ram p = some f → off < exampleGeometry.PAGE_SIZE →
        (chooseFrame exampleGeometry (walkLevels exampleGeometry 512 exampleHollow 0).m (surveyOf exampleGeometry (walkLevels exampleGeometry 512 exampleHollow 0))).2.ram
          (f * exampleGeometry.PAGE_SIZE + off) = (walkLevels exampleGeometry 512 exampleHollow 0).m.ram (f * exampleGeometry.PAGE_SIZE + off)) ∧
      (treeLogicLevel exampleGeometry 512 (walkLevels exampleGeometry 512 exampleHollow 0) 0).m.ram
        (indexPtrOf exampleGeometry 512 (walkLevels exampleGeometry 512 exampleHollow 0) 0) = (E : Int) ∧
      (treeLogicLevel exampleGeometry 512 (walkLevels exampleGeometry 512 exampleHollow 0) 0).newTable = E :=
  empty_table_recycling exampleGeometry_valid exampleHollow_reachable (by decide) (by decide)
    (by decide) (by decide) ⟨[0], 1, ⟨by decide, by decide⟩, by decide, by decide, by decide,
      by decide, by decide⟩

set_option maxRecDepth 1000000 in
theorem link_and_prepare_witness :
    ∃ F : Nat,
      (chooseFrame exampleGeometry (walkLevels exampleGeometry 32 exampleFull 1).m (surveyOf exampleGeometry (walkLevels exampleGeometry 32 exampleFull 1))).1 = (F : Int) ∧
      (treeLogicLevel exampleGeometry 32 (walkLevels exampleGeometry 32 exampleFull 1) 1).m.ram
        (indexPtrOf exampleGeometry 32 (walkLevels exampleGeometry 32 exampleFull 1) 1) = (F : Int) ∧
      (1 + 1 < exampleGeometry.TABLES_DEPTH → ∀ off, off < exampleGeometry.PAGE_SIZE →
        (treeLogicLevel exampleGeometry 32 (walkLevels exampleGeometry 32 exampleFull 1) 1).m.ram (F * exampleGeometry.PAGE_SIZE + off) = 0) ∧
      (1 + 1 = exampleGeometry.TABLES_DEPTH → ∀ off, off < exampleGeometry.PAGE_SIZE →
        (treeLogicLevel exampleGeometry 32 (walkLevels exampleGeometry 32 exampleFull 1) 1).m.ram (F * exampleGeometry.PAGE_SIZE + off) =
          swapWord (walkLevels exampleGeometry 32 exampleFull 1).m (32 >>> exampleGeometry.OFFSET_WIDTH) off ∧
        (treeLogicLevel exampleGeometry 32 (walkLevels exampleGeometry 32 exampleFull 1) 1).m.ram (F * exampleGeometry.PAGE_SIZE + off) =
          swapWord (treeLogicLevel exampleGeometry 32 (walkLevels exampleGeometry 32 exampleFull 1) 1).m
            (32 >>> exampleGeometry.OFFSET_WIDTH) off) :=
  link_and_prepare exampleGeometry_valid exampleFull_reachable (by decide) (by decide)
    (by decide)

end HPageTable

namespace HPageTable

/-! ## A hit in any machine state -/

theorem wordToU64_mul (c : Int) (P : Nat) :
    wordToU64 (c * (P : Int)) = u64 (wordToU64 c * P) := by
  unfold wordToU64 u64
  have h1 : 0 ≤ c % 18446744073709551616 := Int.emod_nonneg _ (by norm_num)
  have h2 : 0 ≤ c * (P : Int) % 18446744073709551616 := Int.emod_nonneg _ (by norm_num)
  apply Int.ofNat.inj
  show ((c * (P : Int) % 2 ^ 64).toNat : Int) = (((c % 2 ^ 64).toNat * P % 2 ^ 64 : Nat) : Int)
  norm_num only []
  push_cast
  rw [Int.toNat_of_nonneg h2, Int.toNat_of_nonneg h1]
  conv_rhs => rw [Int.mul_emod, Int.emod_emod_of_dvd _ (dvd_refl _), ← Int.mul_emod]

theorem u64_add_left (a b : Nat) : u64 (u64 a + b) = u64 (a + b) := by
  unfold u64
  omega

theorem mask_init_of_width {g : Geometry} (hw : g.VIRTUAL_ADDRESS_WIDTH ≤ 64) :
    u64 (((1 <<< g.OFFSET_WIDTH) - 1) <<< (g.OFFSET_WIDTH * g.TABLES_DEPTH)) =
      (g.PAGE_SIZE - 1) <<< (g.OFFSET_WIDTH * (g.TABLES_DEPTH - 0)) := by
  rw [Nat.one_shiftLeft, Nat.sub_zero]
  apply u64_of_lt
  rw [Nat.shiftLeft_eq]
  have h1 : (2 ^ g.OFFSET_WIDTH - 1) * 2 ^ (g.OFFSET_WIDTH * g.TABLES_DEPTH) <
      2 ^ g.OFFSET_WIDTH * 2 ^ (g.OFFSET_WIDTH * g.TABLES_DEPTH) := by
    apply Nat.mul_lt_mul_of_pos_right
    · have : 0 < 2 ^ g.OFFSET_WIDTH := by positivity
      omega
    · positivity
  have h2 : 2 ^ g.OFFSET_WIDTH * 2 ^ (g.OFFSET_WIDTH * g.TABLES_DEPTH) =
      2 ^ (g.OFFSET_WIDTH * (g.TABLES_DEPTH + 1)) := by
    rw [← pow_add]
    congr 1
    ring
  have h3 : 2 ^ (g.OFFSET_WIDTH * (g.TABLES_DEPTH + 1)) ≤ 2 ^ 64 :=
    Nat.pow_le_pow_right (by norm_num) hw
  omega

/-- In any machine state, while the chain of `V` is complete the walk changes nothing:
before iteration `n` the machine is the initial one and `pageAddr` is the address of
the table the first `n` slices lead to. -/
theorem walkLevels_hit_any {g : Geometry} (hw64 : g.VIRTUAL_ADDRESS_WIDTH ≤ 64)
    (m : Machine) {V f : Nat} (hw : walk g m.ram (slices g V) = some f) :
    ∀ n, n ≤ g.TABLES_DEPTH →
      (walkLevels g V m n).m = m ∧
      (walkLevels g V m n).mask =
        (g.PAGE_SIZE - 1) <<< (g.OFFSET_WIDTH * (g.TABLES_DEPTH - n)) ∧
      ∃ t, walk g m.ram (slicesUpTo g V n) = some t ∧
        (walkLevels g V m n).pageAddr = u64 (t * g.PAGE_SIZE) := by
  intro n
  induction n with
  | zero =>
    intro _
    refine ⟨rfl, mask_init_of_width hw64, 0, rfl, ?_⟩
    simp [walkLevels, walkInit, u64]
  | succ n ih =>
    intro hn
    obtain ⟨hm, hmask, t, ht, hpage⟩ := ih (by omega)
    obtain ⟨t', ht', hne⟩ := chain_levels hw (show n < g.TABLES_DEPTH by omega)
    rw [ht] at ht'
    have htt : t = t' := Option.some.inj ht'
    subst htt
    have hptr : indexPtrOf g V (walkLevels g V m n) n = u64 (t * g.PAGE_SIZE + slice g V n) := by
      unfold indexPtrOf
      rw [hmask, slice_of_mask, hpage, u64_add_left]
    have hne' : (walkLevels g V m n).m.ram (indexPtrOf g V (walkLevels g V m n) n) ≠ 0 := by
      rw [hptr, hm]
      exact hne
    rw [walkLevels_succ, treeLogicLevel_hit g V _ n hne']
    refine ⟨hm, ?_, wordToU64 (m.ram (u64 (t * g.PAGE_SIZE + slice g V n))), ?_, ?_⟩
    · simp only []
      rw [hmask, mask_step g (by omega)]
    · rw [slicesUpTo_succ, walk_snoc, ht, Option.some_bind]
      unfold child
      rw [if_neg hne]
    · simp only []
      rw [hptr, hm]
      exact wordToU64_mul _ _

/-- C18: in every machine state, for every in-range `V` whose `TABLES_DEPTH` chain entries
are all non-zero, `treeLogic(V)` leaves physical memory and the backing store as they
are, so `VMread(V)` changes nothing and `VMwrite(V, x)` changes exactly the physical word
at the translated address. -/
theorem hit_is_read_only {g : Geometry} (hw64 : g.VIRTUAL_ADDRESS_WIDTH ≤ 64)
    (m : Machine) {V f : Nat} (hV : V < g.VIRTUAL_MEMORY_SIZE)
    (hw : walk g m.ram (slices g V) = some f) (value x : Int) :
    treeLogic g m V = (m, u64 (f * g.PAGE_SIZE + V % g.PAGE_SIZE)) ∧
    VMread g m V value = (1, m.ram (u64 (f * g.PAGE_SIZE + V % g.PAGE_SIZE)), m) ∧
    VMwrite g m V x = (1, PMwrite m (u64 (f * g.PAGE_SIZE + V % g.PAGE_SIZE)) x) ∧
    (VMwrite g m V x).2.swap = m.swap ∧
    (∀ a, a ≠ u64 (f * g.PAGE_SIZE + V % g.PAGE_SIZE) → (VMwrite g m V x).2.ram a = m.ram a) ∧
    (VMwrite g m V x).2.ram (u64 (f * g.PAGE_SIZE + V % g.PAGE_SIZE)) = x := by
  obtain ⟨hm, hmask, t, ht, hpage⟩ := walkLevels_hit_any hw64 m hw g.TABLES_DEPTH (le_refl _)
  have htf : t = f := by
    have : walk g m.ram (slices g V) = some t := ht
    rw [hw] at this
    exact (Option.some.inj this).symm
  subst htf
  have hT : treeLogic g m V = (m, u64 (t * g.PAGE_SIZE + V % g.PAGE_SIZE)) := by
    unfold treeLogic
    simp only []
    rw [hm, hmask, hpage, Nat.sub_self, Nat.mul_zero, Nat.shiftLeft_zero, g.PAGE_SIZE_sub_one,
      Nat.and_pow_two_sub_one_eq_mod, u64_add_left]
    rfl
  have hR : VMread g m V value = (1, m.ram (u64 (t * g.PAGE_SIZE + V % g.PAGE_SIZE)), m) := by
    unfold VMread
    rw [if_neg (by omega), hT]
    rfl
  have hW : VMwrite g m V x = (1, PMwrite m (u64 (t * g.PAGE_SIZE + V % g.PAGE_SIZE)) x) := by
    unfold VMwrite
    rw [if_neg (by omega), hT]
  refine ⟨hT, hR, hW, ?_, ?_, ?_⟩
  · rw [hW]; rfl
  · intro a ha
    rw [hW]
    simp only [PMwrite_ram, if_neg ha]
  · rw [hW]
    simp only [PMwrite_ram, if_true]

set_option maxRecDepth 1000000 in
theorem hit_is_read_only_witness :
    treeLogic exampleGeometry exampleFull 16 =
      (exampleFull, u64 (3 * exampleGeometry.PAGE_SIZE + 16 % exampleGeometry.PAGE_SIZE)) ∧
    VMread exampleGeometry exampleFull 16 0 =
      (1, exampleFull.ram (u64 (3 * exampleGeometry.PAGE_SIZE + 16 % exampleGeometry.PAGE_SIZE)),
        exampleFull) ∧
    VMwrite exampleGeometry exampleFull 16 9 =
      (1, PMwrite exampleFull
        (u64 (3 * exampleGeometry.PAGE_SIZE + 16 % exampleGeometry.PAGE_SIZE)) 9) ∧
    (VMwrite exampleGeometry exampleFull 16 9).2.swap = exampleFull.swap ∧
    (∀ a, a ≠ u64 (3 * exampleGeometry.PAGE_SIZE + 16 % exampleGeometry.PAGE_SIZE) →
      (VMwrite exampleGeometry exampleFull 16 9).2.ram a = exampleFull.ram a) ∧
    (VMwrite exampleGeometry exampleFull 16 9).2.ram
      (u64 (3 * exampleGeometry.PAGE_SIZE + 16 % exampleGeometry.PAGE_SIZE)) = 9 :=
  hit_is_read_only (by decide) exampleFull (by decide) (by decide) 0 9

/-! ## The accumulator of the traversal -/

/-- `treeDFS` is `treeDFSWith` at its own body for depth `TABLES_DEPTH`. -/
theorem treeDFSWith_self (g : Geometry) (ram : Nat → Int) (toAvoid : Nat) :
    ∀ n, treeDFSWith g ram toAvoid (treeDFS g ram toAvoid 0) n = treeDFS g ram toAvoid n := by
  intro n
  induction n with
  | zero => rfl
  | succ n ih =>
    funext cur cs cva sv
    rw [treeDFS_succ]
    simp only [treeDFSWith]
    rw [ih]

theorem scanEntry_curVirtualAddr (g : Geometry) (ram : Nat → Int)
    (child : Nat → Nat → Nat → Survey → Survey × Nat) (cur cs score : Nat) (st : ScanState)
    (i : Nat) :
    (scanEntry g ram child cur cs score st i).curVirtualAddr = u64 (st.curVirtualAddr + 1) := by
  unfold scanEntry
  simp only []
  split <;> rfl

/-- The loop of `treeDFS` depends on the recursive call only through its values at the
arguments the loop passes: the frame named by a non-zero entry `i`, the score
`curScore + score`, and the accumulator of entry `i` shifted left by `OFFSET_WIDTH`. -/
theorem scan_congr (g : Geometry) (ram : Nat → Int)
    (child1 child2 : Nat → Nat → Nat → Survey → Survey × Nat) (cur cs score a : Nat) :
    ∀ (m k : Nat) (st : ScanState), st.curVirtualAddr = u64 (a + k) →
      (∀ i, k ≤ i → i < k + m → ram (u64 (cur * g.PAGE_SIZE + i)) ≠ 0 → ∀ sv,
        child1 (wordToU64 (ram (u64 (cur * g.PAGE_SIZE + i)))) (u32 (cs + score))
            (u64 (u64 (a + i) <<< g.OFFSET_WIDTH)) sv =
          child2 (wordToU64 (ram (u64 (cur * g.PAGE_SIZE + i)))) (u32 (cs + score))
            (u64 (u64 (a + i) <<< g.OFFSET_WIDTH)) sv) →
      (List.range' k m).foldl (scanEntry g ram child1 cur cs score) st =
        (List.range' k m).foldl (scanEntry g ram child2 cur cs score) st := by
  intro m
  induction m with
  | zero => intro k st _ _; rfl
  | succ m ih =>
    intro k st hst h
    rw [List.range'_succ, List.foldl_cons, List.foldl_cons]
    have e : scanEntry g ram child1 cur cs score st k =
        scanEntry g ram child2 cur cs score st k := by
      by_cases hc : ram (u64 (cur * g.PAGE_SIZE + k)) = 0
      · unfold scanEntry
        simp only [hc, ne_eq, not_true_eq_false, if_false]
      · unfold scanEntry
        simp only [hst, h k (le_refl k) (by omega) hc]
    rw [e]
    refine ih (k + 1) _ ?_ (fun i h1 h2 => h i (by omega) (by omega))
    rw [scanEntry_curVirtualAddr, hst, u64_succ]

/-- The traversal below a call reached from the root depends on the body of the calls at
depth `TABLES_DEPTH` only through its values at the accumulators `pageNum p <<
OFFSET_WIDTH` of the leaves `p` of the tree. -/
theorem treeDFSWith_congr {g : Geometry} (hg : g.Valid) (ram : Nat → Int) (toAvoid : Nat)
    (leaf1 leaf2 : Nat → Nat → Nat → Survey → Survey × Nat)
    (h : ∀ p f sc sv, ValidPath g p → p.length = g.TABLES_DEPTH → walk g ram p = some f →
      leaf1 f sc (pageNum g p <<< g.OFFSET_WIDTH) sv =
        leaf2 f sc (pageNum g p <<< g.OFFSET_WIDTH) sv) :
    ∀ (n : Nat) (q : List Nat) (nd : Node), ValidPath g q → q.length + n = g.TABLES_DEPTH →
      nodeFrom g ram (some rootNode) q = some nd → ∀ sv,
      treeDFSWith g ram toAvoid leaf1 n nd.frame nd.score nd.acc sv =
        treeDFSWith g ram toAvoid leaf2 n nd.frame nd.score nd.acc sv := by
  intro n
  induction n with
  | zero =>
    intro q nd hv hl hn sv
    have hacc := nodeFrom_root_acc hg ram q hv nd hn
    have hsh : pageNum g q * g.PAGE_SIZE = pageNum g q <<< g.OFFSET_WIDTH := by
      rw [Nat.shiftLeft_eq]
      rfl
    show leaf1 nd.frame nd.score nd.acc sv = leaf2 nd.frame nd.score nd.acc sv
    rw [hacc, hsh]
    exact h q nd.frame nd.score sv hv (by omega) (walk_of_nodeFrom_root hn)
  | succ n ih =>
    intro q nd hv hl hn sv
    have hacc := nodeFrom_root_acc hg ram q hv nd hn
    have hlt : nd.acc < 2 ^ 64 := by
      rw [hacc]
      have h1 := hg.pageNum_mul_lt hv
      have h2 := g.PAGE_SIZE_pos
      omega
    have hfold : (List.range g.PAGE_SIZE).foldl
          (scanEntry g ram (treeDFSWith g ram toAvoid leaf1 n) nd.frame nd.score
            (weight g nd.frame)) ⟨sv, true, nd.acc⟩ =
        (List.range g.PAGE_SIZE).foldl
          (scanEntry g ram (treeDFSWith g ram toAvoid leaf2 n) nd.frame nd.score
            (weight g nd.frame)) ⟨sv, true, nd.acc⟩ := by
      rw [List.range_eq_range']
      refine scan_congr g ram _ _ nd.frame nd.score (weight g nd.frame) nd.acc g.PAGE_SIZE 0
        ⟨sv, true, nd.acc⟩ (by rw [Nat.add_zero]; exact (u64_of_lt hlt).symm) ?_
      intro i _ hi hc sv1
      have hi' : i < g.PAGE_SIZE := by omega
      exact ih (q ++ [i])
        ⟨wordToU64 (ram (u64 (nd.frame * g.PAGE_SIZE + i))),
          u32 (nd.score + weight g nd.frame), u64 (u64 (nd.acc + i) <<< g.OFFSET_WIDTH)⟩
        (hv.snoc (by omega) hi')
        (by rw [List.length_append, List.length_singleton]; omega)
        (by rw [nodeFrom_snoc, hn, Option.some_bind, descend_eq_some g ram nd i hc]) sv1
    simp only [treeDFSWith]
    rw [hfold]

set_option maxRecDepth 1000000 in
/-- C15, counterexample: after `VMinitialize; VMwrite(16, 2)` the only leaf of the tree is
virtual page 1 (entry 0 of the root, entry 1 of the table below, frame 2). With the body
of the call at depth `TABLES_DEPTH` replaced by one that stores the accumulator it
receives, the traversal from the root ends with `16 = 1 << OFFSET_WIDTH` stored, not `1`,
and no page 16 is in the tree. Accordingly the score `treeDFS` reports is that of the
call on frame 2 with accumulator 16, which is 12, not that with accumulator 1, which
is 14. -/
theorem accumulator_counterexample :
    walk exampleGeometry (VMwrite exampleGeometry ( VMinitialize exampleGeometry exampleMachine) 16 2).2.ram [0, 1] = some 2 ∧
    pageNum exampleGeometry [0, 1] = 1 ∧
    [0, 1].length = exampleGeometry.TABLES_DEPTH ∧
    (treeDFSWith exampleGeometry (VMwrite exampleGeometry ( VMinitialize exampleGeometry exampleMachine) 16 2).2.ram 0 recordAccumulator exampleGeometry.TABLES_DEPTH
      0 0 0 (surveyInit 0)).1.highestScore = 16 ∧
    pageNum exampleGeometry [1, 0] = 16 ∧
    walk exampleGeometry (VMwrite exampleGeometry ( VMinitialize exampleGeometry exampleMachine) 16 2).2.ram [1, 0] = none ∧
    (treeDFS exampleGeometry (VMwrite exampleGeometry ( VMinitialize exampleGeometry exampleMachine) 16 2).2.ram 0 exampleGeometry.TABLES_DEPTH
      0 0 0 (surveyInit 0)).1.highestScore = 12 ∧
    (treeDFS exampleGeometry (VMwrite exampleGeometry ( VMinitialize exampleGeometry exampleMachine) 16 2).2.ram 0 0 2 6 16 (surveyInit 0)).1.highestScore = 12 ∧
    (treeDFS exampleGeometry (VMwrite exampleGeometry ( VMinitialize exampleGeometry exampleMachine) 16 2).2.ram 0 0 2 6 1 (surveyInit 0)).1.highestScore = 14 := by
  decide

/-- C15, amended: in `treeDFS` started at the root with `curVirtualAddr = 0`, a call at
depth `TABLES_DEPTH` receives as accumulator the virtual page number of its leaf shifted
left by `OFFSET_WIDTH`: `treeDFS` is the traversal `treeDFSWith` run with its own body
at that depth, and the traversal depends on that body only through its values at the
accumulators `pageNum p << OFFSET_WIDTH` of the leaves `p`. The body uses the
accumulator only as `curVirtualAddr >> OFFSET_WIDTH`, which is the page number; and on a
well-formed tree with a leaf the value left in `virtualAddrRep`, which the caller takes
from its own accumulator, is the page number of the leaf named by `toReplace`. -/
theorem accumulator_is_shifted_page_number {g : Geometry} (hg : g.Valid) (ram : Nat → Int)
    (toAvoid : Nat) :
    (∀ n, treeDFSWith g ram toAvoid (treeDFS g ram toAvoid 0) n = treeDFS g ram toAvoid n) ∧
    (∀ leaf1 leaf2 : Nat → Nat → Nat → Survey → Survey × Nat,
      (∀ p f sc sv, ValidPath g p → p.length = g.TABLES_DEPTH → walk g ram p = some f →
        leaf1 f sc (pageNum g p <<< g.OFFSET_WIDTH) sv =
          leaf2 f sc (pageNum g p <<< g.OFFSET_WIDTH) sv) →
      ∀ sv, treeDFSWith g ram toAvoid leaf1 g.TABLES_DEPTH 0 0 0 sv =
        treeDFSWith g ram toAvoid leaf2 g.TABLES_DEPTH 0 0 0 sv) ∧
    (∀ p f sc sv, treeDFS g ram toAvoid 0 f sc (pageNum g p <<< g.OFFSET_WIDTH) sv =
      if u32 (sc + u32 (weight g f + weight g (pageNum g p))) > sv.highestScore ∨
          (u32 (sc + u32 (weight g f + weight g (pageNum g p))) = sv.highestScore ∧
            pageNum g p < sv.virtualAddrRep) then
        ({ sv with highestScore := u32 (sc + u32 (weight g f + weight g (pageNum g p))) },
          PATH_TO_REPLACE)
      else (sv, 0)) ∧
    (PreTree g ram → 0 < g.TABLES_DEPTH → ∀ (mfi : Int) (p : List Nat) (f : Nat),
      ValidPath g p → p.length = g.TABLES_DEPTH → walk g ram p = some f →
      ∃ (q : List Nat) (j t L : Nat), ValidPath g (q ++ [j]) ∧
        q.length + 1 = g.TABLES_DEPTH ∧ walk g ram q = some t ∧
        walk g ram (q ++ [j]) = some L ∧
        (treeDFS g ram toAvoid g.TABLES_DEPTH 0 0 0 (surveyInit mfi)).1.toReplace =
          t * g.PAGE_SIZE + j ∧
        (treeDFS g ram toAvoid g.TABLES_DEPTH 0 0 0 (surveyInit mfi)).1.virtualAddrRep =
          pageNum g (q ++ [j])) := by
  refine ⟨treeDFSWith_self g ram toAvoid, ?_, ?_, ?_⟩
  · intro leaf1 leaf2 h sv
    exact treeDFSWith_congr hg ram toAvoid leaf1 leaf2 h g.TABLES_DEPTH [] rootNode
      (ValidPath.nil g) (by simp) rfl sv
  · intro p f sc sv
    have hsh : (pageNum g p <<< g.OFFSET_WIDTH) >>> g.OFFSET_WIDTH = pageNum g p := by
      rw [Nat.shiftLeft_eq, Nat.shiftRight_eq_div_pow]
      exact Nat.mul_div_cancel _ (by positivity)
    simp only [treeDFS, hsh]
  · intro ht hTD mfi p f hv hl hw
    obtain ⟨q, j, t, L, h1, h2, h3, h4, h5, _, _, _, h9⟩ :=
      survey_victim hg ht toAvoid mfi hv hl hTD hw
    exact ⟨q, j, t, L, h1, h2, h3, h4, h5, h9⟩

theorem accumulator_is_shifted_page_number_witness :
    (∀ n, treeDFSWith exampleGeometry (VMwrite exampleGeometry ( VMinitialize exampleGeometry exampleMachine) 16 2).2.ram 0 (treeDFS exampleGeometry (VMwrite exampleGeometry ( VMinitialize exampleGeometry exampleMachine) 16 2).2.ram 0 0) n = treeDFS exampleGeometry (VMwrite exampleGeometry ( VMinitialize exampleGeometry exampleMachine) 16 2).2.ram 0 n) ∧
    (∀ leaf1 leaf2 : Nat → Nat → Nat → Survey → Survey × Nat,
      (∀ p f sc sv, ValidPath exampleGeometry p → p.length = exampleGeometry.TABLES_DEPTH → walk exampleGeometry (VMwrite exampleGeometry ( VMinitialize exampleGeometry exampleMachine) 16 2).2.ram p = some f →
        leaf1 f sc (pageNum exampleGeometry p <<< exampleGeometry.OFFSET_WIDTH) sv =
          leaf2 f sc (pageNum exampleGeometry p <<< exampleGeometry.OFFSET_WIDTH) sv) →
      ∀ sv, treeDFSWith exampleGeometry (VMwrite exampleGeometry ( VMinitialize exampleGeometry exampleMachine) 16 2).2.ram 0 leaf1 exampleGeometry.TABLES_DEPTH 0 0 0 sv =
        treeDFSWith exampleGeometry (VMwrite exampleGeometry ( VMinitialize exampleGeometry exampleMachine) 16 2).2.ram 0 leaf2 exampleGeometry.TABLES_DEPTH 0 0 0 sv) ∧
    (∀ p f sc sv, treeDFS exampleGeometry (VMwrite exampleGeometry ( VMinitialize exampleGeometry exampleMachine) 16 2).2.ram 0 0 f sc (pageNum exampleGeometry p <<< exampleGeometry.OFFSET_WIDTH) sv =
      if u32 (sc + u32 (weight exampleGeometry f + weight exampleGeometry (pageNum exampleGeometry p))) > sv.highestScore ∨
          (u32 (sc + u32 (weight exampleGeometry f + weight exampleGeometry (pageNum exampleGeometry p))) = sv.highestScore ∧
            pageNum exampleGeometry p < sv.virtualAddrRep) then
        ({ sv with highestScore := u32 (sc + u32 (weight exampleGeometry f + weight exampleGeometry (pageNum exampleGeometry p))) },
          PATH_TO_REPLACE)
      else (sv, 0)) ∧
    (PreTree exampleGeometry (VMwrite exampleGeometry ( VMinitialize exampleGeometry exampleMachine) 16 2).2.ram → 0 < exampleGeometry.TABLES_DEPTH → ∀ (mfi : Int) (p : List Nat) (f : Nat),
      ValidPath exampleGeometry p → p.length = exampleGeometry.TABLES_DEPTH → walk exampleGeometry (VMwrite exampleGeometry ( VMinitialize exampleGeometry exampleMachine) 16 2).2.ram p = some f →
      ∃ (q : List Nat) (j t L : Nat), ValidPath exampleGeometry (q ++ [j]) ∧
        q.length + 1 = exampleGeometry.TABLES_DEPTH ∧ walk exampleGeometry (VMwrite exampleGeometry ( VMinitialize exampleGeometry exampleMachine) 16 2).2.ram q = some t ∧
        walk exampleGeometry (VMwrite exampleGeometry ( VMinitialize exampleGeometry exampleMachine) 16 2).2.ram (q ++ [j]) = some L ∧
        (treeDFS exampleGeometry (VMwrite exampleGeometry ( VMinitialize exampleGeometry exampleMachine) 16 2).2.ram 0 exampleGeometry.TABLES_DEPTH 0 0 0 (surveyInit mfi)).1.toReplace =
          t * exampleGeometry.PAGE_SIZE + j ∧
        (treeDFS exampleGeometry (VMwrite exampleGeometry ( VMinitialize exampleGeometry exampleMachine) 16 2).2.ram 0 exampleGeometry.TABLES_DEPTH 0 0 0 (surveyInit mfi)).1.virtualAddrRep =
          pageNum exampleGeometry (q ++ [j])) :=
  accumulator_is_shifted_page_number exampleGeometry_valid
    (VMwrite exampleGeometry ( VMinitialize exampleGeometry exampleMachine) 16 2).2.ram 0

end HPageTable

namespace HPageTable

/-! ## The order of the traversal -/

theorem leafPvs_append (l1 l2 : List Visit) :
    leafPvs (l1 ++ l2) = leafPvs l1 ++ leafPvs l2 := by
  induction l1 with
  | nil => rfl
  | cons v l ih =>
    cases v <;> simp [leafPvs, ih]

theorem mem_leafPvs {l : List Visit} {pv : Nat} :
    pv ∈ leafPvs l ↔ ∃ ptr f sc, Visit.leaf ptr f sc pv ∈ l := by
  induction l with
  | nil => simp [leafPvs]
  | cons v l ih =>
    cases v with
    | ref c => simp [leafPvs, ih]
    | empty p f => simp [leafPvs, ih]
    | leaf p f sc pv' =>
      simp only [leafPvs, List.mem_cons, ih, Visit.leaf.injEq]
      constructor
      · rintro (h | ⟨a, b, c, h⟩)
        · exact ⟨p, f, sc, Or.inl ⟨rfl, rfl, rfl, h⟩⟩
        · exact ⟨a, b, c, Or.inr h⟩
      · rintro ⟨a, b, c, (⟨_, _, _, h⟩ | h)⟩
        · exact Or.inl h
        · exact Or.inr ⟨a, b, c, h⟩

theorem leafPvs_entry_leaf (g : Geometry) (ram : Nat → Int) (toAvoid : Nat)
    (below : Nat → Nat → Nat → List Visit) (cur cs pv i : Nat) :
    leafPvs (entryVisits g ram toAvoid below true cur cs pv i) = [] ∨
    leafPvs (entryVisits g ram toAvoid below true cur cs pv i) = [pv] := by
  unfold entryVisits
  simp only []
  by_cases h : ram (u64 (cur * g.PAGE_SIZE + i)) = 0
  · left
    rw [if_pos h]
    rfl
  · right
    rw [if_neg h]
    rfl

theorem leafPvs_entry_table (g : Geometry) (ram : Nat → Int) (toAvoid : Nat)
    (below : Nat → Nat → Nat → List Visit) (cur cs pv i : Nat) :
    leafPvs (entryVisits g ram toAvoid below false cur cs pv i) = [] ∨
    leafPvs (entryVisits g ram toAvoid below false cur cs pv i) =
      leafPvs (below (wordToU64 (ram (u64 (cur * g.PAGE_SIZE + i))))
        (u32 (cs + weight g cur)) (u64 (pv <<< g.OFFSET_WIDTH))) := by
  unfold entryVisits
  simp only []
  by_cases h : ram (u64 (cur * g.PAGE_SIZE + i)) = 0
  · left
    rw [if_pos h]
    rfl
  · right
    rw [if_neg h]
    simp only [leafPvs, Bool.false_eq_true, if_false, leafPvs_append]
    split <;> simp [leafPvs]

/-- The data pages met while scanning entries are met in increasing order of their
accumulators, each entry keeping to its own range. -/
theorem scan_sorted (g : Geometry) (ram : Nat → Int) (toAvoid : Nat)
    (below : Nat → Nat → Nat → List Visit) (lf : Bool) (cur cs K : Nat) (hK : 0 < K)
    (E : ∀ i pv, (pv + 1) * K ≤ 2 ^ 64 →
      (leafPvs (entryVisits g ram toAvoid below lf cur cs pv i)).Pairwise (fun a b => a < b) ∧
      ∀ x ∈ leafPvs (entryVisits g ram toAvoid below lf cur cs pv i),
        pv * K ≤ x ∧ x < (pv + 1) * K) :
    ∀ (is : List Nat) (pv : Nat), (pv + is.length) * K ≤ 2 ^ 64 →
      (leafPvs (scanVisits g ram toAvoid below lf cur cs pv is)).Pairwise (fun a b => a < b) ∧
      ∀ x ∈ leafPvs (scanVisits g ram toAvoid below lf cur cs pv is),
        pv * K ≤ x ∧ x < (pv + is.length) * K := by
  intro is
  induction is with
  | nil =>
    intro pv _
    simp [scanVisits, leafPvs]
  | cons i is ih =>
    intro pv hb
    have hlen : (i :: is).length = is.length + 1 := rfl
    rw [hlen] at hb ⊢
    have hstep : (pv + 1) * K ≤ (pv + (is.length + 1)) * K :=
      Nat.mul_le_mul_right K (by omega)
    obtain ⟨hE1, hE2⟩ := E i pv (le_trans hstep hb)
    have hunf : scanVisits g ram toAvoid below lf cur cs pv (i :: is) =
        entryVisits g ram toAvoid below lf cur cs pv i ++
          scanVisits g ram toAvoid below lf cur cs (u64 (pv + 1)) is := rfl
    rw [hunf, leafPvs_append]
    cases is with
    | nil =>
      have hnil : scanVisits g ram toAvoid below lf cur cs (u64 (pv + 1)) [] = [] := rfl
      rw [hnil]
      simp only [leafPvs, List.append_nil, List.length_nil, Nat.zero_add]
      exact ⟨hE1, hE2⟩
    | cons i' is' =>
      have hlen' : (i' :: is').length = is'.length + 1 := rfl
      rw [hlen'] at hb hstep ⊢
      have hle : pv + (is'.length + 1 + 1) ≤ (pv + (is'.length + 1 + 1)) * K :=
        Nat.le_mul_of_pos_right _ hK
      have hpv : pv + 1 < 2 ^ 64 := by omega
      rw [u64_of_lt hpv]
      have e1 : pv + 1 + (i' :: is').length = pv + (is'.length + 1 + 1) := by
        rw [hlen']; omega
      obtain ⟨hI1, hI2⟩ := ih (pv + 1) (by rw [e1]; exact hb)
      rw [e1] at hI2
      have hlow : pv * K ≤ (pv + 1) * K := Nat.mul_le_mul_right K (by omega)
      refine ⟨List.pairwise_append.2 ⟨hE1, hI1, ?_⟩, ?_⟩
      · intro a ha b hb'
        have h1 := (hE2 a ha).2
        have h2 := (hI2 b hb').1
        omega
      · intro x hx
        rcases List.mem_append.1 hx with h | h
        · have h1 := hE2 x h
          omega
        · have h1 := hI2 x h
          omega

/-- The data pages below a table are met in increasing order of their accumulators,
which lie in the range of the table. -/
theorem visits_sorted (g : Geometry) (ram : Nat → Int) (toAvoid : Nat) :
    ∀ (n cur cs a : Nat), (a + g.PAGE_SIZE) * g.PAGE_SIZE ^ n ≤ 2 ^ 64 →
      (leafPvs (visits g ram toAvoid (n + 1) cur cs a)).Pairwise (fun a b => a < b) ∧
      ∀ x ∈ leafPvs (visits g ram toAvoid (n + 1) cur cs a),
        a * g.PAGE_SIZE ^ n ≤ x ∧ x < (a + g.PAGE_SIZE) * g.PAGE_SIZE ^ n := by
  intro n
  induction n with
  | zero =>
    intro cur cs a hb
    rw [visits_succ]
    have hd : decide (0 = 0) = true := rfl
    rw [hd]
    have h := scan_sorted g ram toAvoid (visits g ram toAvoid 0) true cur cs 1 Nat.one_pos
      (by
        intro i pv _
        rcases leafPvs_entry_leaf g ram toAvoid (visits g ram toAvoid 0) cur cs pv i with h | h
        · rw [h]; simp
        · rw [h]; simp)
      (List.range g.PAGE_SIZE) a (by rw [List.length_range]; simpa using hb)
    rw [List.length_range] at h
    simpa using h
  | succ n ih =>
    intro cur cs a hb
    rw [visits_succ]
    have hd : decide (n + 1 = 0) = false := by simp
    rw [hd]
    have hP := g.PAGE_SIZE_pos
    have hK : 0 < g.PAGE_SIZE ^ (n + 1) := by positivity
    have h := scan_sorted g ram toAvoid (visits g ram toAvoid (n + 1)) false cur cs
      (g.PAGE_SIZE ^ (n + 1)) hK
      (by
        intro i pv hb'
        have e1 : (pv * g.PAGE_SIZE + g.PAGE_SIZE) * g.PAGE_SIZE ^ n =
            (pv + 1) * g.PAGE_SIZE ^ (n + 1) := by ring
        have e2 : pv * g.PAGE_SIZE * g.PAGE_SIZE ^ n = pv * g.PAGE_SIZE ^ (n + 1) := by ring
        have hlt : pv * g.PAGE_SIZE < 2 ^ 64 := by
          have h1 : pv * g.PAGE_SIZE + g.PAGE_SIZE ≤
              (pv * g.PAGE_SIZE + g.PAGE_SIZE) * g.PAGE_SIZE ^ n :=
            Nat.le_mul_of_pos_right _ (by positivity)
          rw [e1] at h1
          omega
        have hsh : u64 (pv <<< g.OFFSET_WIDTH) = pv * g.PAGE_SIZE := by
          rw [Nat.shiftLeft_eq]
          exact u64_of_lt hlt
        rcases leafPvs_entry_table g ram toAvoid (visits g ram toAvoid (n + 1)) cur cs pv i
          with h | h
        · rw [h]; simp
        · rw [h, hsh]
          have := ih (wordToU64 (ram (u64 (cur * g.PAGE_SIZE + i)))) (u32 (cs + weight g cur))
            (pv * g.PAGE_SIZE) (by rw [e1]; exact hb')
          rw [e1, e2] at this
          exact this)
      (List.range g.PAGE_SIZE) a (by rw [List.length_range]; exact hb)
    rw [List.length_range] at h
    exact h

theorem Geometry.Valid.pow_depth_le {g : Geometry} (hg : g.Valid) :
    g.PAGE_SIZE ^ g.TABLES_DEPTH ≤ 2 ^ 64 := by
  unfold Geometry.PAGE_SIZE
  rw [← pow_mul]
  refine le_trans (Nat.pow_le_pow_right (by norm_num) ?_)
    (Nat.pow_le_pow_right (by norm_num) hg.width)
  unfold Geometry.VIRTUAL_ADDRESS_WIDTH
  exact Nat.mul_le_mul_left _ (by omega)

/-- The survey meets the data pages in increasing order of their page numbers. -/
theorem rootVisits_sorted {g : Geometry} (hg : g.Valid) (ram : Nat → Int) (toAvoid : Nat)
    (hTD : 0 < g.TABLES_DEPTH) :
    (leafPvs (rootVisits g ram toAvoid)).Pairwise (fun a b => a < b) := by
  unfold rootVisits
  obtain ⟨n, hn⟩ : ∃ n, g.TABLES_DEPTH = n + 1 := ⟨g.TABLES_DEPTH - 1, by omega⟩
  have hp := hg.pow_depth_le
  rw [hn] at hp ⊢
  refine (visits_sorted g ram toAvoid n 0 0 0 ?_).1
  rw [Nat.zero_add, ← pow_succ']
  exact hp

/-! ## The first maximal data page wins -/

/-- From the initial out-parameters of `treeLogic`, after a traversal that meets the
data pages in increasing order of their page numbers the victim outputs describe the
data page of smallest page number among those of maximal score. -/
theorem fold_leaf_first (g : Geometry) (sv : Survey) (h0 : sv.highestScore = 0)
    (hr : sv.virtualAddrRep = 2 ^ 64 - 1) (l : List Visit) :
    (leafPvs l).Pairwise (fun a b => a < b) →
    (∀ pv ∈ leafPvs l, leafVpn g pv = pv ∧ pv < 2 ^ 64 - 1) →
    (leafPvs l = [] ∧ (l.foldl (applyVisit g) sv).highestScore = 0 ∧
        (l.foldl (applyVisit g) sv).virtualAddrRep = 2 ^ 64 - 1) ∨
    (∃ ptr f sc, Visit.leaf ptr f sc (l.foldl (applyVisit g) sv).virtualAddrRep ∈ l ∧
        (l.foldl (applyVisit g) sv).toReplace = ptr ∧
        (l.foldl (applyVisit g) sv).highestScore =
          leafTotal g f sc (l.foldl (applyVisit g) sv).virtualAddrRep ∧
        ∀ ptr' f' sc' pv', Visit.leaf ptr' f' sc' pv' ∈ l →
          leafTotal g f' sc' pv' ≤ (l.foldl (applyVisit g) sv).highestScore ∧
          (leafTotal g f' sc' pv' = (l.foldl (applyVisit g) sv).highestScore →
            (l.foldl (applyVisit g) sv).virtualAddrRep ≤ pv')) := by
  induction l using List.reverseRecOn with
  | nil =>
    intro _ _
    left
    exact ⟨rfl, h0, hr⟩
  | append_singleton l v ih =>
    intro hp hb
    rw [leafPvs_append] at hp hb
    obtain ⟨hp1, _, hp3⟩ := List.pairwise_append.1 hp
    have hI := ih hp1 (fun pv h => hb pv (List.mem_append_left _ h))
    rw [List.foldl_append, List.foldl_cons, List.foldl_nil]
    generalize l.foldl (applyVisit g) sv = r at hI ⊢
    cases v with
    | ref c =>
      have e1 : (applyVisit g r (Visit.ref c)).highestScore = r.highestScore := by
        simp only [applyVisit]; split <;> rfl
      have e2 : (applyVisit g r (Visit.ref c)).virtualAddrRep = r.virtualAddrRep := by
        simp only [applyVisit]; split <;> rfl
      have e3 : (applyVisit g r (Visit.ref c)).toReplace = r.toReplace := by
        simp only [applyVisit]; split <;> rfl
      rw [e1, e2, e3]
      have hm : ∀ ptr f sc pv, Visit.leaf ptr f sc pv ∈ l ++ [Visit.ref c] ↔
          Visit.leaf ptr f sc pv ∈ l := by
        intro ptr f sc pv; simp
      simp only [hm, leafPvs_append, leafPvs, List.append_nil]
      exact hI
    | empty p f' =>
      have e1 : (applyVisit g r (Visit.empty p f')).highestScore = r.highestScore := rfl
      have e2 : (applyVisit g r (Visit.empty p f')).virtualAddrRep = r.virtualAddrRep := rfl
      have e3 : (applyVisit g r (Visit.empty p f')).toReplace = r.toReplace := rfl
      rw [e1, e2, e3]
      have hm : ∀ ptr f sc pv, Visit.leaf ptr f sc pv ∈ l ++ [Visit.empty p f'] ↔
          Visit.leaf ptr f sc pv ∈ l := by
        intro ptr f sc pv; simp
      simp only [hm, leafPvs_append, leafPvs, List.append_nil]
      exact hI
    | leaf p f' sc' pv' =>
      right
      have hv := hb pv' (List.mem_append_right _ (by simp [leafPvs]))
      have hm : ∀ ptr f sc pv, Visit.leaf ptr f sc pv ∈ l ++ [Visit.leaf p f' sc' pv'] ↔
          (Visit.leaf ptr f sc pv ∈ l ∨ (ptr = p ∧ f = f' ∧ sc = sc' ∧ pv = pv')) := by
        intro ptr f sc pv; simp
      rcases hI with ⟨hnil, hs, hrep⟩ | ⟨ptr0, f0, sc0, hm0, ht0, hs0, hall⟩
      · have hcond : leafTotal g f' sc' pv' > r.highestScore ∨
            (leafTotal g f' sc' pv' = r.highestScore ∧ leafVpn g pv' < r.virtualAddrRep) := by
          rw [hs, hrep, hv.1]
          omega
        have hap : applyVisit g r (Visit.leaf p f' sc' pv') =
            { r with highestScore := leafTotal g f' sc' pv', virtualAddrRep := pv',
                     toReplace := p } := by
          simp only [applyVisit]; rw [if_pos hcond]
        rw [hap]
        refine ⟨p, f', sc', (hm _ _ _ _).2 (Or.inr ⟨rfl, rfl, rfl, rfl⟩), rfl, rfl, ?_⟩
        intro ptr' f'' sc'' pv'' hmem
        rcases (hm _ _ _ _).1 hmem with h | ⟨_, h2, h3, h4⟩
        · have : pv'' ∈ leafPvs l := mem_leafPvs.2 ⟨_, _, _, h⟩
          rw [hnil] at this
          cases this
        · subst h2 h3 h4
          exact ⟨le_refl _, fun _ => le_refl _⟩
      · have hlt : r.virtualAddrRep < pv' :=
          hp3 _ (mem_leafPvs.2 ⟨_, _, _, hm0⟩) pv' (by simp [leafPvs])
        by_cases hgt : leafTotal g f' sc' pv' > r.highestScore
        · have hap : applyVisit g r (Visit.leaf p f' sc' pv') =
              { r with highestScore := leafTotal g f' sc' pv', virtualAddrRep := pv',
                       toReplace := p } := by
            simp only [applyVisit]; rw [if_pos (Or.inl hgt)]
          rw [hap]
          refine ⟨p, f', sc', (hm _ _ _ _).2 (Or.inr ⟨rfl, rfl, rfl, rfl⟩), rfl, rfl, ?_⟩
          intro ptr' f'' sc'' pv'' hmem
          rcases (hm _ _ _ _).1 hmem with h | ⟨_, h2, h3, h4⟩
          · have h1 := (hall _ _ _ _ h).1
            dsimp only
            constructor
            · omega
            · intro he; omega
          · subst h2 h3 h4
            exact ⟨le_refl _, fun _ => le_refl _⟩
        · have hcond : ¬ (leafTotal g f' sc' pv' > r.highestScore ∨
              (leafTotal g f' sc' pv' = r.highestScore ∧
                leafVpn g pv' < r.virtualAddrRep)) := by
            rw [hv.1]
            omega
          have hap : applyVisit g r (Visit.leaf p f' sc' pv') = r := by
            simp only [applyVisit]; rw [if_neg hcond]
          rw [hap]
          refine ⟨ptr0, f0, sc0, (hm _ _ _ _).2 (Or.inl hm0), ht0, hs0, ?_⟩
          intro ptr' f'' sc'' pv'' hmem
          rcases (hm _ _ _ _).1 hmem with h | ⟨_, h2, h3, h4⟩
          · exact hall _ _ _ _ h
          · subst h2 h3 h4
            constructor
            · omega
            · intro _; omega

/-- C11: on a well-formed tree with at least one leaf, after `treeDFS` from the root
(`highestScore` initially 0, `virtualAddrRep` initially `2^64-1`) the leaf selected by
`toReplace` and `virtualAddrRep` has the maximal score, and its virtual page number is
the smallest among the leaves whose score equals the maximal score. -/
theorem victim_tie_break {g : Geometry} (hg : g.Valid) (hs : g.ScoreFits)
    {ram : Nat → Int} (ht : PreTree g ram) (toAvoid : Nat) (mfi : Int)
    (hTD : 0 < g.TABLES_DEPTH) {p : List Nat} {f : Nat} (hv : ValidPath g p)
    (hl : p.length = g.TABLES_DEPTH) (hw : walk g ram p = some f) :
    ∃ (q : List Nat) (j t L : Nat), ValidPath g (q ++ [j]) ∧
      q.length + 1 = g.TABLES_DEPTH ∧ walk g ram q = some t ∧
      walk g ram (q ++ [j]) = some L ∧
      (treeDFS g ram toAvoid g.TABLES_DEPTH 0 0 0 (surveyInit mfi)).1.toReplace =
        t * g.PAGE_SIZE + j ∧
      (treeDFS g ram toAvoid g.TABLES_DEPTH 0 0 0 (surveyInit mfi)).1.virtualAddrRep =
        pageNum g (q ++ [j]) ∧
      leafScore g ram (q ++ [j]) =
        (treeDFS g ram toAvoid g.TABLES_DEPTH 0 0 0 (surveyInit mfi)).1.highestScore ∧
      ∀ p' f', ValidPath g p' → p'.length = g.TABLES_DEPTH → walk g ram p' = some f' →
        leafScore g ram p' ≤
          (treeDFS g ram toAvoid g.TABLES_DEPTH 0 0 0 (surveyInit mfi)).1.highestScore ∧
        (leafScore g ram p' =
          (treeDFS g ram toAvoid g.TABLES_DEPTH 0 0 0 (surveyInit mfi)).1.highestScore →
          pageNum g (q ++ [j]) ≤ pageNum g p') := by
  have hfold := survey_eq_fold g ram toAvoid mfi hTD
  unfold survey at hfold
  rw [hfold]
  have hbound : ∀ pv ∈ leafPvs (rootVisits g ram toAvoid),
      leafVpn g pv = pv ∧ pv < 2 ^ 64 - 1 := by
    intro pv hm
    obtain ⟨ptr, f', sc, hm⟩ := mem_leafPvs.1 hm
    obtain ⟨q, j, nd, hvq, _, _, _, _, _, _, _, _, hpv, _⟩ := leaf_visit_at hg ht toAvoid hTD hm
    rw [hpv, leafVpn_eq hg hvq]
    exact ⟨rfl, hg.pageNum_lt_u64 hvq⟩
  obtain ⟨ptr, sc, hm⟩ := leaf_visit_of_walk hg ht toAvoid hv hl hTD hw
  rcases fold_leaf_first g (surveyInit mfi) rfl rfl (rootVisits g ram toAvoid)
      (rootVisits_sorted hg ram toAvoid hTD) hbound with
    ⟨hnil, _, _⟩ | ⟨ptr0, f0, sc0, hm0, ht0, hs0, hall⟩
  · have : pageNum g p ∈ leafPvs (rootVisits g ram toAvoid) := mem_leafPvs.2 ⟨_, _, _, hm⟩
    rw [hnil] at this
    cases this
  · obtain ⟨q, j, nd, hvq, hlq, hn, hwq, hwl, hptr, hr, _, _, hpv, hsc⟩ :=
      leaf_visit_at hg ht toAvoid hTD hm0
    refine ⟨q, j, nd.frame, f0, hvq, hlq, hwq, hwl, by rw [ht0, hptr], hpv, ?_, ?_⟩
    · rw [hs0, hpv, hsc, leaf_visit_score hg hs hvq hlq hn hwl]
    · intro p' f' hv' hl' hw'
      obtain ⟨ptr', sc', hm'⟩ := leaf_visit_of_walk hg ht toAvoid hv' hl' hTD hw'
      have hle := hall _ _ _ _ hm'
      obtain ⟨q', j', nd', hvq', hlq', hn', _, hwl', _, _, _, _, hpv', hsc'⟩ :=
        leaf_visit_at hg ht toAvoid hTD hm'
      have hpe : p' = q' ++ [j'] := pageNum_inj g p' (q' ++ [j'])
        (by rw [hl', List.length_append, List.length_singleton, hlq']) hv'.2 hvq'.2 hpv'
      rw [hsc', hpe, leaf_visit_score hg hs hvq' hlq' hn' hwl', hpv] at hle
      rw [hpe]
      exact hle

set_option maxRecDepth 1000000 in
theorem victim_tie_break_witness :
    ∃ (q : List Nat) (j t L : Nat), ValidPath exampleGeometry (q ++ [j]) ∧
      q.length + 1 = exampleGeometry.TABLES_DEPTH ∧
      walk exampleGeometry exampleFull.ram q = some t ∧
      walk exampleGeometry exampleFull.ram (q ++ [j]) = some L ∧
      (treeDFS exampleGeometry exampleFull.ram 0 exampleGeometry.TABLES_DEPTH 0 0 0
        (surveyInit 0)).1.toReplace = t * exampleGeometry.PAGE_SIZE + j ∧
      (treeDFS exampleGeometry exampleFull.ram 0 exampleGeometry.TABLES_DEPTH 0 0 0
        (surveyInit 0)).1.virtualAddrRep = pageNum exampleGeometry (q ++ [j]) ∧
      leafScore exampleGeometry exampleFull.ram (q ++ [j]) =
        (treeDFS exampleGeometry exampleFull.ram 0 exampleGeometry.TABLES_DEPTH 0 0 0
          (surveyInit 0)).1.highestScore ∧
      ∀ p' f', ValidPath exampleGeometry p' → p'.length = exampleGeometry.TABLES_DEPTH →
        walk exampleGeometry exampleFull.ram p' = some f' →
        leafScore exampleGeometry exampleFull.ram p' ≤
          (treeDFS exampleGeometry exampleFull.ram 0 exampleGeometry.TABLES_DEPTH 0 0 0
            (surveyInit 0)).1.highestScore ∧
        (leafScore exampleGeometry exampleFull.ram p' =
          (treeDFS exampleGeometry exampleFull.ram 0 exampleGeometry.TABLES_DEPTH 0 0 0
            (surveyInit 0)).1.highestScore →
          pageNum exampleGeometry (q ++ [j]) ≤ pageNum exampleGeometry p') :=
  Exists.elim (exampleFull_reachable.abs exampleGeometry_valid)
    (fun _ hA => victim_tie_break exampleGeometry_valid
      (by unfold Geometry.ScoreFits; decide)
      hA.tree.toPreTree 0 0 (by decide) (p := [0, 1]) (f := 3)
      ⟨by decide, by decide⟩ (by decide) (by decide))

/-! ## The last empty table wins -/

/-- The empty-table outputs after a traversal: untouched when no empty table was
visited, else those of the last one visited. -/
theorem fold_empty_last (g : Geometry) (l : List Visit) :
    ∀ sv : Survey,
      ((l.foldl (applyVisit g) sv).lastEmptyTable = sv.lastEmptyTable ∧
        (l.foldl (applyVisit g) sv).emptyTablePtr = sv.emptyTablePtr ∧
        ∀ ptr f, Visit.empty ptr f ∉ l) ∨
      (∃ l1 l2, l = l1 ++ Visit.empty (l.foldl (applyVisit g) sv).emptyTablePtr
          (l.foldl (applyVisit g) sv).lastEmptyTable :: l2 ∧
        ∀ ptr f, Visit.empty ptr f ∉ l2) := by
  induction l with
  | nil => intro sv; left; simp
  | cons v l ih =>
    intro sv
    rw [List.foldl_cons]
    rcases ih (applyVisit g sv v) with ⟨h1, h2, h3⟩ | ⟨l1, l2, h1, h2⟩
    · cases v with
      | ref c =>
        left
        have e1 : (applyVisit g sv (Visit.ref c)).lastEmptyTable = sv.lastEmptyTable := by
          simp only [applyVisit]; split <;> rfl
        have e2 : (applyVisit g sv (Visit.ref c)).emptyTablePtr = sv.emptyTablePtr := by
          simp only [applyVisit]; split <;> rfl
        refine ⟨h1.trans e1, h2.trans e2, ?_⟩
        intro ptr f hm
        rcases List.mem_cons.1 hm with h | h
        · cases h
        · exact h3 ptr f h
      | leaf p f' sc pv =>
        left
        have e1 : (applyVisit g sv (Visit.leaf p f' sc pv)).lastEmptyTable =
            sv.lastEmptyTable := by
          simp only [applyVisit]; split <;> rfl
        have e2 : (applyVisit g sv (Visit.leaf p f' sc pv)).emptyTablePtr =
            sv.emptyTablePtr := by
          simp only [applyVisit]; split <;> rfl
        refine ⟨h1.trans e1, h2.trans e2, ?_⟩
        intro ptr f hm
        rcases List.mem_cons.1 hm with h | h
        · cases h
        · exact h3 ptr f h
      | empty p f' =>
        right
        refine ⟨[], l, ?_, h3⟩
        rw [h1, h2]
        rfl
    · right
      refine ⟨v :: l1, l2, ?_, h2⟩
      rw [List.cons_append, ← h1]

/-- A live empty table below the root, other than `toAvoid`, is visited by the survey. -/
theorem empty_visit_of_walk {g : Geometry} {ram : Nat → Int} (hg : g.Valid)
    (ht : PreTree g ram) (toAvoid : Nat) {q : List Nat} {j t f : Nat}
    (hv : ValidPath g (q ++ [j])) (hl : (q ++ [j]).length < g.TABLES_DEPTH)
    (hwq : walk g ram q = some t) (hw : walk g ram (q ++ [j]) = some f)
    (he : TableEmpty g ram f) (hfa : f ≠ toAvoid) :
    Visit.empty (t * g.PAGE_SIZE + j) f ∈ rootVisits g ram toAvoid := by
  have hTD : 0 < g.TABLES_DEPTH := by omega
  obtain ⟨hvq, hlq, hj⟩ := ValidPath.snoc_iff.1 hv
  obtain ⟨nd, hn, hf⟩ := nodeFrom_root_of_walk hwq
  subst hf
  obtain ⟨_, _, _, _, c, hcl, hcr, hu, hwc, hch⟩ := ht.entry_at hg hlq hvq.2 hj hn
  have hc0 : c ≠ 0 := by
    intro h0
    rw [walk_snoc, hwq, Option.some_bind, hch, if_pos h0] at hw
    cases hw
  have hfc : f = c := by
    rw [walk_snoc_of_entry hwq hch hc0] at hw
    exact (Option.some.inj hw).symm
  subst hfc
  rw [mem_rootVisits g ram toAvoid _ hTD]
  refine ⟨q, j, nd, hlq, hvq.2, hj, hn, ?_, Or.inr (Or.inr ⟨?_, ?_, ?_, ?_⟩)⟩
  · rw [hu, hcr]; exact_mod_cast hc0
  · rw [List.length_append, List.length_singleton] at hl; omega
  · rw [hu, hwc]; exact he
  · rw [hu, hwc]; exact hfa
  · rw [hu, hwc]

theorem treeDFS_zero_lastEmptyTable (g : Geometry) (ram : Nat → Int)
    (toAvoid cur cs cva : Nat) (sv : Survey) :
    (treeDFS g ram toAvoid 0 cur cs cva sv).1.lastEmptyTable = sv.lastEmptyTable := by
  simp only [treeDFS]
  split <;> rfl

/-- C14: after `treeDFS` from the root (`lastEmptyTable` and `emptyTablePtr` initially 0)
on a well-formed tree, a non-zero `lastEmptyTable` is the frame of a table at depth
`1..TABLES_DEPTH-1` whose entries are all 0, it is not `toAvoid`, the word at
`emptyTablePtr` is the entry pointing to it, and it is the last such table the
traversal visits; when no such table exists `lastEmptyTable` is 0. The tables the
traversal reports are exactly these, so the root is never among them. -/
theorem empty_table_pair {g : Geometry} (hg : g.Valid) {ram : Nat → Int}
    (ht : PreTree g ram) (toAvoid : Nat) (mfi : Int) :
    ((treeDFS g ram toAvoid g.TABLES_DEPTH 0 0 0 (surveyInit mfi)).1.lastEmptyTable ≠ 0 →
      ∃ (q : List Nat) (j t : Nat) (l1 l2 : List Visit),
        ValidPath g (q ++ [j]) ∧ 1 ≤ (q ++ [j]).length ∧
        (q ++ [j]).length < g.TABLES_DEPTH ∧
        walk g ram q = some t ∧
        walk g ram (q ++ [j]) = some (treeDFS g ram toAvoid g.TABLES_DEPTH 0 0 0 (surveyInit mfi)).1.lastEmptyTable ∧
        TableEmpty g ram (treeDFS g ram toAvoid g.TABLES_DEPTH 0 0 0 (surveyInit mfi)).1.lastEmptyTable ∧
        (treeDFS g ram toAvoid g.TABLES_DEPTH 0 0 0 (surveyInit mfi)).1.lastEmptyTable ≠ toAvoid ∧
        (treeDFS g ram toAvoid g.TABLES_DEPTH 0 0 0 (surveyInit mfi)).1.emptyTablePtr = t * g.PAGE_SIZE + j ∧
        ram (treeDFS g ram toAvoid g.TABLES_DEPTH 0 0 0 (surveyInit mfi)).1.emptyTablePtr = ((treeDFS g ram toAvoid g.TABLES_DEPTH 0 0 0 (surveyInit mfi)).1.lastEmptyTable : Int) ∧
        rootVisits g ram toAvoid =
          l1 ++ Visit.empty (treeDFS g ram toAvoid g.TABLES_DEPTH 0 0 0 (surveyInit mfi)).1.emptyTablePtr (treeDFS g ram toAvoid g.TABLES_DEPTH 0 0 0 (surveyInit mfi)).1.lastEmptyTable :: l2 ∧
        ∀ ptr f, Visit.empty ptr f ∉ l2) ∧
    ((∀ p f, ValidPath g p → 1 ≤ p.length → p.length < g.TABLES_DEPTH →
        walk g ram p = some f → TableEmpty g ram f → f = toAvoid) →
      (treeDFS g ram toAvoid g.TABLES_DEPTH 0 0 0 (surveyInit mfi)).1.lastEmptyTable = 0) ∧
    (∀ ptr f, Visit.empty ptr f ∈ rootVisits g ram toAvoid ↔
      ∃ (q : List Nat) (j t : Nat), ValidPath g (q ++ [j]) ∧
        (q ++ [j]).length < g.TABLES_DEPTH ∧ walk g ram q = some t ∧
        walk g ram (q ++ [j]) = some f ∧ ptr = t * g.PAGE_SIZE + j ∧
        ram ptr = (f : Int) ∧ TableEmpty g ram f ∧ f ≠ toAvoid) := by
  by_cases hTD : 0 < g.TABLES_DEPTH
  · have hfold := survey_eq_fold g ram toAvoid mfi hTD
    unfold survey at hfold
    refine ⟨?_, ?_, ?_⟩
    · intro hne
      rw [hfold] at hne ⊢
      rcases fold_empty_last g (rootVisits g ram toAvoid) (surveyInit mfi) with
        ⟨h1, _, _⟩ | ⟨l1, l2, hdec, hlast⟩
      · exact absurd h1 hne
      · have hm : Visit.empty
            ((rootVisits g ram toAvoid).foldl (applyVisit g) (surveyInit mfi)).emptyTablePtr
            ((rootVisits g ram toAvoid).foldl (applyVisit g) (surveyInit mfi)).lastEmptyTable ∈
            rootVisits g ram toAvoid := by
          have hgen : ∀ (l : List Visit) (a b : Nat), l = l1 ++ Visit.empty a b :: l2 →
              Visit.empty a b ∈ l := by
            intro l a b h
            rw [h]
            simp
          exact hgen _ _ _ hdec
        obtain ⟨q, j, t, hvq, hlq, hj, hwq, hw, hptr, hr, _, _, he, hna⟩ :=
          empty_visit_at hg ht toAvoid hTD hm
        refine ⟨q, j, t, l1, l2, hvq.snoc (by omega) hj, by simp, ?_, hwq, hw, he, hna, hptr,
          by rw [hptr]; exact hr, hdec, hlast⟩
        rw [List.length_append, List.length_singleton]
        exact hlq
    · intro hall
      by_contra hne
      have hne' : (survey g ram toAvoid mfi).lastEmptyTable ≠ 0 := hne
      obtain ⟨q, j, t, hvq, hlq, hj, hwq, hw, _, _, _, _, he, hna⟩ :=
        survey_empty_sound hg ht toAvoid mfi hTD hne'
      exact hna (hall (q ++ [j]) _ (hvq.snoc (by omega) hj) (by simp)
        (by rw [List.length_append, List.length_singleton]; exact hlq) hw he)
    · intro ptr f
      constructor
      · intro hm
        obtain ⟨q, j, t, hvq, hlq, hj, hwq, hw, hptr, hr, _, _, he, hna⟩ :=
          empty_visit_at hg ht toAvoid hTD hm
        exact ⟨q, j, t, hvq.snoc (by omega) hj,
          by rw [List.length_append, List.length_singleton]; exact hlq, hwq, hw, hptr,
          by rw [hptr]; exact hr, he, hna⟩
      · rintro ⟨q, j, t, hvq, hlq, hwq, hw, hptr, _, he, hna⟩
        rw [hptr]
        exact empty_visit_of_walk hg ht toAvoid hvq hlq hwq hw he hna
  · have h0 : g.TABLES_DEPTH = 0 := by omega
    have hS : (treeDFS g ram toAvoid g.TABLES_DEPTH 0 0 0 (surveyInit mfi)).1.lastEmptyTable = 0 := by
      rw [h0]
      exact treeDFS_zero_lastEmptyTable g ram toAvoid 0 0 0 (surveyInit mfi)
    have hV : rootVisits g ram toAvoid = [] := by
      unfold rootVisits
      rw [h0]
      rfl
    refine ⟨fun hne => absurd hS hne, fun _ => hS, ?_⟩
    intro ptr f
    rw [hV]
    constructor
    · intro h; cases h
    · rintro ⟨q, j, t, _, hlq, _⟩
      omega

set_option maxRecDepth 1000000 in
theorem empty_table_pair_witness :
    ((treeDFS exampleGeometry exampleHollow.ram 2 exampleGeometry.TABLES_DEPTH 0 0 0 (surveyInit 0)).1.lastEmptyTable ≠ 0 →
      ∃ (q : List Nat) (j t : Nat) (l1 l2 : List Visit),
        ValidPath exampleGeometry (q ++ [j]) ∧ 1 ≤ (q ++ [j]).length ∧
        (q ++ [j]).length < exampleGeometry.TABLES_DEPTH ∧
        walk exampleGeometry exampleHollow.ram q = some t ∧
        walk exampleGeometry exampleHollow.ram (q ++ [j]) = some (treeDFS exampleGeometry exampleHollow.ram 2 exampleGeometry.TABLES_DEPTH 0 0 0 (surveyInit 0)).1.lastEmptyTable ∧
        TableEmpty exampleGeometry exampleHollow.ram (treeDFS exampleGeometry exampleHollow.ram 2 exampleGeometry.TABLES_DEPTH 0 0 0 (surveyInit 0)).1.lastEmptyTable ∧
        (treeDFS exampleGeometry exampleHollow.ram 2 exampleGeometry.TABLES_DEPTH 0 0 0 (surveyInit 0)).1.lastEmptyTable ≠ 2 ∧
        (treeDFS exampleGeometry exampleHollow.ram 2 exampleGeometry.TABLES_DEPTH 0 0 0 (surveyInit 0)).1.emptyTablePtr = t * exampleGeometry.PAGE_SIZE + j ∧
        exampleHollow.ram (treeDFS exampleGeometry exampleHollow.ram 2 exampleGeometry.TABLES_DEPTH 0 0 0 (surveyInit 0)).1.emptyTablePtr = ((treeDFS exampleGeometry exampleHollow.ram 2 exampleGeometry.TABLES_DEPTH 0 0 0 (surveyInit 0)).1.lastEmptyTable : Int) ∧
        rootVisits exampleGeometry exampleHollow.ram 2 =
          l1 ++ Visit.empty (treeDFS exampleGeometry exampleHollow.ram 2 exampleGeometry.TABLES_DEPTH 0 0 0 (surveyInit 0)).1.emptyTablePtr (treeDFS exampleGeometry exampleHollow.ram 2 exampleGeometry.TABLES_DEPTH 0 0 0 (surveyInit 0)).1.lastEmptyTable :: l2 ∧
        ∀ ptr f, Visit.empty ptr f ∉ l2) ∧
    ((∀ p f, ValidPath exampleGeometry p → 1 ≤ p.length → p.length < exampleGeometry.TABLES_DEPTH →
        walk exampleGeometry exampleHollow.ram p = some f → TableEmpty exampleGeometry exampleHollow.ram f → f = 2) →
      (treeDFS exampleGeometry exampleHollow.ram 2 exampleGeometry.TABLES_DEPTH 0 0 0 (surveyInit 0)).1.lastEmptyTable = 0) ∧
    (∀ ptr f, Visit.empty ptr f ∈ rootVisits exampleGeometry exampleHollow.ram 2 ↔
      ∃ (q : List Nat) (j t : Nat), ValidPath exampleGeometry (q ++ [j]) ∧
        (q ++ [j]).length < exampleGeometry.TABLES_DEPTH ∧ walk exampleGeometry exampleHollow.ram q = some t ∧
        walk exampleGeometry exampleHollow.ram (q ++ [j]) = some f ∧ ptr = t * exampleGeometry.PAGE_SIZE + j ∧
        exampleHollow.ram ptr = (f : Int) ∧ TableEmpty exampleGeometry exampleHollow.ram f ∧ f ≠ 2) :=
  Exists.elim (exampleHollow_reachable.abs exampleGeometry_valid)
    (fun _ hA => empty_table_pair exampleGeometry_valid hA.tree.toPreTree 2 0)

end HPageTable

namespace HPageTable

/-! ## Termination of the survey -/

theorem scanEntryFuel_some (g : Geometry) (ram : Nat → Int)
    (child : Nat → Nat → Nat → Survey → Survey × Nat)
    (childF : Nat → Nat → Nat → Survey → Option (Survey × Nat))
    (h : ∀ f s a sv, childF f s a sv = some (child f s a sv))
    (cur cs score : Nat) (st : ScanState) (i : Nat) :
    scanEntryFuel g ram childF cur cs score st i =
      some (scanEntry g ram child cur cs score st i) := by
  unfold scanEntryFuel scanEntry
  simp only [h]
  split <;> rfl

theorem scanFuel_some (g : Geometry) (ram : Nat → Int)
    (child : Nat → Nat → Nat → Survey → Survey × Nat)
    (childF : Nat → Nat → Nat → Survey → Option (Survey × Nat))
    (h : ∀ f s a sv, childF f s a sv = some (child f s a sv))
    (cur cs score : Nat) (l : List Nat) :
    ∀ st, scanFuel g ram childF cur cs score st l =
      some (l.foldl (scanEntry g ram child cur cs score) st) := by
  induction l with
  | nil => intro st; rfl
  | cons i is ih =>
    intro st
    simp only [scanFuel, scanEntryFuel_some g ram child childF h, List.foldl_cons]
    exact ih _

/-- With more fuel than levels left, the call of `treeDFS` at `depth` returns, and
returns what the recursion on the number of levels left computes. -/
theorem treeDFSFuel_eq (g : Geometry) (hT : g.TABLES_DEPTH < 2 ^ 32)
    (hP : g.PAGE_SIZE < 2 ^ 32) (ram : Nat → Int) (toAvoid : Nat) :
    ∀ (fuel depth cur cs cva : Nat) (sv : Survey), depth ≤ g.TABLES_DEPTH →
      g.TABLES_DEPTH - depth < fuel →
      treeDFSFuel g ram toAvoid fuel cur cs cva depth sv =
        some (treeDFS g ram toAvoid (g.TABLES_DEPTH - depth) cur cs cva sv) := by
  intro fuel
  induction fuel with
  | zero => intro depth cur cs cva sv _ h; omega
  | succ fuel ih =>
    intro depth cur cs cva sv hd hf
    by_cases hdt : depth = g.TABLES_DEPTH
    · have e0 : g.TABLES_DEPTH - depth = 0 := by omega
      rw [e0]
      simp only [treeDFSFuel, treeDFS, if_pos hdt]
      split <;> rfl
    · obtain ⟨n, hn⟩ : ∃ n, g.TABLES_DEPTH - depth = n + 1 :=
        ⟨g.TABLES_DEPTH - depth - 1, by omega⟩
      have hu : u32 (depth + 1) = depth + 1 := u32_of_lt (by omega)
      have hchild : ∀ f s a sv1,
          treeDFSFuel g ram toAvoid fuel f s a (u32 (depth + 1)) sv1 =
            some (treeDFS g ram toAvoid n f s a sv1) := by
        intro f s a sv1
        rw [hu, ih (depth + 1) f s a sv1 (by omega) (by omega)]
        congr 2
        omega
      rw [hn, treeDFS_succ]
      simp only [treeDFSFuel, if_neg hdt, if_pos hP]
      rw [scanFuel_some g ram (treeDFS g ram toAvoid n) _ hchild]
      simp only []
      split <;> rfl

theorem leafPvs_length_scan (g : Geometry) (ram : Nat → Int) (toAvoid : Nat)
    (below : Nat → Nat → Nat → List Visit) (lf : Bool) (cur cs K : Nat)
    (E : ∀ i pv, (leafPvs (entryVisits g ram toAvoid below lf cur cs pv i)).length ≤ K) :
    ∀ (is : List Nat) (pv : Nat),
      (leafPvs (scanVisits g ram toAvoid below lf cur cs pv is)).length ≤ is.length * K := by
  intro is
  induction is with
  | nil => intro pv; simp [scanVisits, leafPvs]
  | cons i is ih =>
    intro pv
    have hunf : scanVisits g ram toAvoid below lf cur cs pv (i :: is) =
        entryVisits g ram toAvoid below lf cur cs pv i ++
          scanVisits g ram toAvoid below lf cur cs (u64 (pv + 1)) is := rfl
    rw [hunf, leafPvs_append, List.length_append, List.length_cons, Nat.add_mul, Nat.one_mul]
    have h1 := E i pv
    have h2 := ih (u64 (pv + 1))
    omega

/-- A call of `treeDFS` with `n` levels left makes at most `PAGE_SIZE^n` calls at depth
`TABLES_DEPTH`, whatever the memory holds. -/
theorem leafPvs_length_visits (g : Geometry) (ram : Nat → Int) (toAvoid : Nat) :
    ∀ (n cur cs a : Nat),
      (leafPvs (visits g ram toAvoid n cur cs a)).length ≤ g.PAGE_SIZE ^ n := by
  intro n
  induction n with
  | zero =>
    intro cur cs a
    simp [visits, leafPvs]
  | succ n ih =>
    intro cur cs a
    rw [visits_succ]
    have h := leafPvs_length_scan g ram toAvoid (visits g ram toAvoid n) (decide (n = 0))
      cur cs (g.PAGE_SIZE ^ n)
      (by
        intro i pv
        cases n with
        | zero =>
          have hd : decide (0 = 0) = true := rfl
          rw [hd]
          rcases leafPvs_entry_leaf g ram toAvoid (visits g ram toAvoid 0) cur cs pv i with h | h
          · rw [h]; simp
          · rw [h]; simp
        | succ m =>
          have hd : decide (m + 1 = 0) = false := by simp
          rw [hd]
          rcases leafPvs_entry_table g ram toAvoid (visits g ram toAvoid (m + 1)) cur cs pv i
            with h | h
          · rw [h]; simp
          · rw [h]; exact ih _ _ _)
      (List.range g.PAGE_SIZE) a
    rw [List.length_range] at h
    rw [pow_succ']
    exact h

/-- C20: whatever physical memory holds, cycles and entries pointing back to frame 0
included, `treeDFS` started at depth 0 returns: any fuel above `TABLES_DEPTH` is
enough for the nested calls, whose depth grows by one per call and stops at
`TABLES_DEPTH`, and the traversal makes at most `PAGE_SIZE^TABLES_DEPTH` calls at depth
`TABLES_DEPTH`. The result is the one `treeLogic` uses, so `treeLogic`, `VMread` and
`VMwrite`, whose other loops are bounded, return as well. -/
theorem survey_terminates (g : Geometry) (hT : g.TABLES_DEPTH < 2 ^ 32)
    (hP : g.PAGE_SIZE < 2 ^ 32) (ram : Nat → Int) (toAvoid cur cs cva : Nat) (sv : Survey) :
    (∀ fuel, g.TABLES_DEPTH < fuel →
      treeDFSFuel g ram toAvoid fuel cur cs cva 0 sv =
        some (treeDFS g ram toAvoid g.TABLES_DEPTH cur cs cva sv)) ∧
    (leafPvs (visits g ram toAvoid g.TABLES_DEPTH cur cs cva)).length ≤
      g.PAGE_SIZE ^ g.TABLES_DEPTH :=
  ⟨fun fuel hf => treeDFSFuel_eq g hT hP ram toAvoid fuel 0 cur cs cva sv (Nat.zero_le _)
      (by omega),
    leafPvs_length_visits g ram toAvoid g.TABLES_DEPTH cur cs cva⟩

theorem survey_terminates_witness :
    (∀ fuel, exampleGeometry.TABLES_DEPTH < fuel →
      treeDFSFuel exampleGeometry (fun _ => 1) 0 fuel 0 0 0 0 (surveyInit 0) =
        some (treeDFS exampleGeometry (fun _ => 1) 0 exampleGeometry.TABLES_DEPTH 0 0 0
          (surveyInit 0))) ∧
    (leafPvs (visits exampleGeometry (fun _ => 1) 0 exampleGeometry.TABLES_DEPTH 0 0 0)).length ≤
      exampleGeometry.PAGE_SIZE ^ exampleGeometry.TABLES_DEPTH :=
  survey_terminates exampleGeometry (by decide) (by decide) (fun _ => 1) 0 0 0 0 (surveyInit 0)

end HPageTable

namespace HPageTable

/-! ## Translations that start from the same state -/

set_option maxRecDepth 1000000 in
/-- C7, counterexample: in the reachable state after `VMinitialize; VMwrite(0, 1);
VMwrite(16, 2)` all four frames are in use; address 0 is resident in frame 2, and
translating address 32 from that same state evicts page 0 and takes frame 2, so the two
in-range addresses, which lie on different virtual pages, both translate to physical
word 32. -/
theorem walker_same_word_counterexample :
    Reachable exampleGeometry exampleFull ∧
    (0 : Nat) < exampleGeometry.VIRTUAL_MEMORY_SIZE ∧
    32 < exampleGeometry.VIRTUAL_MEMORY_SIZE ∧
    0 >>> exampleGeometry.OFFSET_WIDTH ≠ 32 >>> exampleGeometry.OFFSET_WIDTH ∧
    (treeLogic exampleGeometry exampleFull 0).2 = 32 ∧
    (treeLogic exampleGeometry exampleFull 32).2 = 32 :=
  ⟨exampleFull_reachable, by decide⟩

set_option maxRecDepth 1000000 in
theorem walker_address_arithmetic_witness :
    (walk exampleGeometry exampleFull.ram (slices exampleGeometry 21) = some 3 ∧
      walk exampleGeometry exampleFull.ram (slices exampleGeometry 5) = some 2) ∧
    (∀ i, i < exampleGeometry.TABLES_DEPTH →
      (walkLevels exampleGeometry 21 exampleFull i).pageAddr =
        (walkLevels exampleGeometry 21
          exampleFull i).newTable *
          exampleGeometry.PAGE_SIZE ∧
      walk exampleGeometry
        (walkLevels exampleGeometry 21 exampleFull i).m.ram
        (slicesUpTo exampleGeometry 21 i) =
        some (walkLevels exampleGeometry 21
          exampleFull i).newTable ∧
      indexPtrOf exampleGeometry 21
        (walkLevels exampleGeometry 21 exampleFull i) i =
        (walkLevels exampleGeometry 21
          exampleFull i).newTable *
          exampleGeometry.PAGE_SIZE +
          (21 >>> (exampleGeometry.OFFSET_WIDTH * (exampleGeometry.TABLES_DEPTH - i))) %
            exampleGeometry.PAGE_SIZE) ∧
    (∃ F, walk exampleGeometry
        (treeLogic exampleGeometry exampleFull 21).1.ram
        (slices exampleGeometry 21) = some F ∧
      (treeLogic exampleGeometry exampleFull 21).2 =
        F * exampleGeometry.PAGE_SIZE + 21 % exampleGeometry.PAGE_SIZE) ∧
    (∀ V' F F', V' < exampleGeometry.VIRTUAL_MEMORY_SIZE →
      walk exampleGeometry exampleFull.ram
        (slices exampleGeometry 21) = some F →
      walk exampleGeometry exampleFull.ram
        (slices exampleGeometry V') = some F' →
      (treeLogic exampleGeometry exampleFull 21).1 =
        exampleFull ∧
      (treeLogic exampleGeometry exampleFull V').1 =
        exampleFull ∧
      ((treeLogic exampleGeometry exampleFull 21).2 =
        (treeLogic exampleGeometry exampleFull V').2 →
        21 = V')) :=
  ⟨by decide,
    walker_address_arithmetic exampleGeometry_valid exampleFull_reachable (by decide)⟩

end HPageTable
